import Mathlib

/-!
# DependencyBuilder: a shallow embedding of `db.go`

The Go package keeps a map from `reflect.Type` to `*Dependency` and a map from
`reflect.Type` to a static `reflect.Value`.  `Build` links the nodes
(`buildGraph`), sorts them with Kahn's algorithm (`traverse`) and then calls
every constructor in that order (`build`).

Modelling decisions.

* A `reflect.Type` is an `Ident` (a natural number).
* A `*Dependency` is represented by a name: the key it is registered under,
  for as long as it is registered.  `Build` never allocates a node and never
  rebinds a key.  A node that `AddDep` replaced under its key while a
  `neededBy` list still pointed at it is no longer in the node map but can
  still be reached; it is kept under a name that is no `reflect.Type` (see
  `AddDepOver` and `KeyOrder`), and the iteration orders visit the bound keys
  only.  Writing through a pointer is `setNode`.
* Go randomises the iteration order of a map.  Every `range` over the node map
  takes the order it visits the keys in as an explicit list argument.
* The `for` loop of `traverse` has no bound in the source, so its model takes
  fuel and returns `none` when the fuel is used up.
* A constructor is a Go function: its parameter types (`cType.In(i)`) and what
  `cVal.Call(args)` returns.  The values `Call` returns are valid
  `reflect.Value`s, so they are modelled by their payload.  Panics raised by
  `reflect` itself (a constructor that is not a function, a call with an
  argument of the wrong type) are outside the model.
* `needs` is a Go `int`; it only ever counts parameter positions, so it is
  modelled as an unbounded `Int`.
-/

namespace DependencyBuilder

/-- A `reflect.Type`, used as the key of both maps. -/
abbrev Ident := Nat

/-- A `reflect.Value`: either the zero Value (nothing stored) or a valid value. -/
inductive Value where
  | zero : Value
  | valid (v : Nat) : Value
deriving DecidableEq, Repr

/-- The three errors declared at the top of `db.go`. -/
inductive BuildError where
  | ErrIncompleteDependencyGraph : BuildError
  | ErrNotDAG : BuildError
  | ErrUnexpectedConstructorContext : BuildError
deriving DecidableEq, Repr

/-- A constructor function as `reflect` sees it: `ins` lists `cType.In(i)` for
`i < cType.NumIn()`, and `call args` is the payloads of `cVal.Call(args)`. -/
structure Func where
  ins : List Ident
  call : List Value → List Nat

/-- The struct `Dependency` (the unused field `id` is left out). -/
structure Dependency where
  Interface : Value
  Constructor : Func
  needs : Int
  neededBy : List Ident

/-- The node map `map[reflect.Type]*Dependency`. -/
abbrev DepMap := Ident → Option Dependency

/-- The static map `map[reflect.Type]reflect.Value`. -/
abbrev StaticMap := Ident → Option Value

/-- The struct `DependencyGraph`. -/
structure DependencyGraph where
  deps : DepMap
  static : StaticMap

/-- A write through the pointer `k`: the node registered under `k` becomes
`f` of itself, every other node is untouched. -/
def setNode (deps : DepMap) (k : Ident) (f : Dependency → Dependency) : DepMap :=
  fun i => if i = k then (deps i).map f else deps i

/-- The write `m.neededBy = append(m.neededBy, dep)` (line 72). -/
def pushNeededBy (dep : Ident) (m : Dependency) : Dependency :=
  { m with neededBy := m.neededBy ++ [dep] }

/-- The write `dep.needs++` (line 74). -/
def incNeeds (d : Dependency) : Dependency :=
  { d with needs := d.needs + 1 }

/-- The write `m.needs--` (line 105). -/
def decNeeds (d : Dependency) : Dependency :=
  { d with needs := d.needs - 1 }

/-- The write `n.neededBy = nil` (line 110). -/
def clearNeededBy (d : Dependency) : Dependency :=
  { d with neededBy := [] }

/-- The write `dep.Interface = rets[0]` (line 149). -/
def setInterface (v : Value) (d : Dependency) : Dependency :=
  { d with Interface := v }

/-- The inner loop of `buildGraph` (lines 57-75) for the node `dep`, over the
parameter types still to visit.  The flag is `false` when line 69 returns
`ErrIncompleteDependencyGraph`; the node map is returned in both cases, since
the writes of lines 72 and 74 are made in place. -/
def buildGraphParams (staticDeps : StaticMap) (dep : Ident) :
    List Ident → DepMap → DepMap × Bool
  | [], deps => (deps, true)
  | aType :: rest, deps =>
    if (staticDeps aType).isSome then
      buildGraphParams staticDeps dep rest deps
    else if (deps aType).isSome then
      buildGraphParams staticDeps dep rest
        (setNode (setNode deps aType (pushNeededBy dep)) dep incNeeds)
    else (deps, false)

/-- The outer loop of `buildGraph` (lines 54-79) over the keys still to
visit, with the start nodes collected so far. -/
def buildGraphLoop (staticDeps : StaticMap) :
    List Ident → DepMap → List Ident → DepMap × Except BuildError (List Ident)
  | [], deps, startNodes => (deps, .ok startNodes)
  | k :: ks, deps, startNodes =>
    match deps k with
    | none => buildGraphLoop staticDeps ks deps startNodes
    | some dep =>
      match buildGraphParams staticDeps k dep.Constructor.ins deps with
      | (deps1, false) => (deps1, .error BuildError.ErrIncompleteDependencyGraph)
      | (deps1, true) =>
        match deps1 k with
        | none => buildGraphLoop staticDeps ks deps1 startNodes
        | some dep1 =>
          if dep1.needs = 0 then buildGraphLoop staticDeps ks deps1 (startNodes ++ [k])
          else buildGraphLoop staticDeps ks deps1 startNodes

/-- The function `buildGraph`; `order` is the order in which `range deps`
visits the keys. -/
def buildGraph (deps : DepMap) (staticDeps : StaticMap) (order : List Ident) :
    DepMap × Except BuildError (List Ident) :=
  buildGraphLoop staticDeps order deps []

/-- The function `hasEdges`; `order` is the order in which `range deps` visits
the keys. -/
def hasEdges (deps : DepMap) : List Ident → Bool
  | [] => false
  | k :: ks =>
    match deps k with
    | none => hasEdges deps ks
    | some dep => if dep.needs ≠ 0 then true else hasEdges deps ks

/-- The loop `for _, m := range n.neededBy` of `traverse` (lines 104-109). -/
def relax : List Ident → DepMap → List Ident → DepMap × List Ident
  | [], deps, S => (deps, S)
  | m :: ms, deps, S =>
    match deps m with
    | none => relax ms deps S
    | some d =>
      if d.needs - 1 = 0 then
        relax ms (setNode deps m decNeeds) (S ++ [m])
      else
        relax ms (setNode deps m decNeeds) S

/-- The `for` loop of `traverse` (lines 97-111), with fuel. -/
def traverseLoop : Nat → DepMap → List Ident → List Ident → Option (DepMap × List Ident)
  | 0, _, _, _ => none
  | _ + 1, deps, [], L => some (deps, L)
  | fuel + 1, deps, n :: S, L =>
    match deps n with
    | none => traverseLoop fuel deps S (L ++ [n])
    | some d =>
      match relax d.neededBy deps S with
      | (deps1, S1) =>
        traverseLoop fuel (setNode deps1 n clearNeededBy) S1 (L ++ [n])

/-- The function `traverse`; `order` is the order in which the `range` of
`hasEdges` visits the keys. -/
def traverse (fuel : Nat) (deps : DepMap) (order : List Ident) (startNodes : List Ident) :
    Option (DepMap × Except BuildError (List Ident)) :=
  match traverseLoop fuel deps startNodes [] with
  | none => none
  | some (deps1, L) =>
    if hasEdges deps1 order then some (deps1, .error BuildError.ErrNotDAG)
    else some (deps1, .ok L)

/-- The argument loop of `build` (lines 128-142): `args` starts as zero
Values; a static value wins, else the `Interface` of the registered node is
read, else the slot stays the zero Value. -/
def buildArgs (deps : DepMap) (staticDeps : StaticMap) : List Ident → List Value
  | [] => []
  | aType :: rest =>
    (match staticDeps aType with
      | some dv => dv
      | none =>
        match deps aType with
        | some d => d.Interface
        | none => Value.zero) :: buildArgs deps staticDeps rest

/-- One constructor call made by `build`: the node and the arguments. -/
abbrev Call := Ident × List Value

/-- The function `build` (lines 125-151).  Next to the node map and the error
it returns the calls made so far, in order. -/
def build (staticDeps : StaticMap) :
    List Ident → DepMap → List Call → DepMap × List Call × Option BuildError
  | [], deps, calls => (deps, calls, none)
  | dep :: L, deps, calls =>
    match deps dep with
    | none => build staticDeps L deps calls
    | some d =>
      match d.Constructor.call (buildArgs deps staticDeps d.Constructor.ins) with
      | [r] =>
        build staticDeps L (setNode deps dep (setInterface (Value.valid r)))
          (calls ++ [(dep, buildArgs deps staticDeps d.Constructor.ins)])
      | _ =>
        (deps, calls ++ [(dep, buildArgs deps staticDeps d.Constructor.ins)],
          some BuildError.ErrUnexpectedConstructorContext)

/-- What a run of `Build` leaves behind: the graph, the constructor calls it
made, and the error it returned (`none` is Go's `nil`). -/
structure BuildResult where
  graph : DependencyGraph
  calls : List Call
  err : Option BuildError

/-- The method `DependencyGraph.Build`.  `o1` is the iteration order of the
`range` in `buildGraph`, `o2` that of the `range` in `hasEdges`; `none` means
the fuel given to `traverse` ran out. -/
def Build (fuel : Nat) (o1 o2 : List Ident) (dg : DependencyGraph) : Option BuildResult :=
  match buildGraph dg.deps dg.static o1 with
  | (deps1, .error e) => some ⟨⟨deps1, dg.static⟩, [], some e⟩
  | (deps1, .ok start) =>
    match traverse fuel deps1 o2 start with
    | none => none
    | some (deps2, .error e) => some ⟨⟨deps2, dg.static⟩, [], some e⟩
    | some (deps2, .ok order) =>
      match build dg.static order deps2 [] with
      | (deps3, calls, e) => some ⟨⟨deps3, dg.static⟩, calls, e⟩

/-- The function `New`. -/
def New : DependencyGraph := ⟨fun _ => none, fun _ => none⟩

/-- The method `AddDep`. -/
def AddDep (dg : DependencyGraph) (i : Ident) (c : Func) : DependencyGraph :=
  { dg with deps := fun j =>
      if j = i then some ⟨Value.zero, c, 0, []⟩ else dg.deps j }

/-- The method `AddStatic`; `t` is `reflect.TypeOf(dep)` and `v` is
`reflect.ValueOf(dep)`. -/
def AddStatic (dg : DependencyGraph) (t : Ident) (v : Value) : DependencyGraph :=
  { dg with static := fun j => if j = t then some v else dg.static j }

/-! ## Reading a node map -/

/-- The field `needs` of the node registered under `k` (0 when there is none). -/
def needsOf (deps : DepMap) (k : Ident) : Int :=
  match deps k with
  | some d => d.needs
  | none => 0

/-- The field `neededBy` of the node registered under `k`. -/
def neededByOf (deps : DepMap) (k : Ident) : List Ident :=
  match deps k with
  | some d => d.neededBy
  | none => []

/-- The field `Interface` of the node registered under `k`. -/
def interfaceOf (deps : DepMap) (k : Ident) : Value :=
  match deps k with
  | some d => d.Interface
  | none => Value.zero

/-- The field `Constructor` of the node registered under `k`. -/
def constructorOf (deps : DepMap) (k : Ident) : Option Func :=
  (deps k).map (fun d => d.Constructor)

/-- The parameter types of the constructor registered under `k`. -/
def insOf (deps : DepMap) (k : Ident) : List Ident :=
  match deps k with
  | some d => d.Constructor.ins
  | none => []

/-! ## Test graphs of `tsi_test.go` -/

/-- A constructor with the given parameter types that returns one value. -/
def unary (ins : List Ident) (r : Nat) : Func := ⟨ins, fun _ => [r]⟩

/-- Graph 1 of the test: static 100; dep0(static), dep1(dep0), dep2(dep0),
dep3(dep1, dep2). -/
def graph1 : DependencyGraph :=
  AddDep (AddDep (AddDep (AddDep (AddStatic New 100 (Value.valid 7))
    0 (unary [100] 10)) 1 (unary [0] 11)) 2 (unary [0] 12)) 3 (unary [1, 2] 13)

/-- Cycle 1 of the test: dep0(dep1), dep1(dep2), dep2(dep3), dep3(dep0). -/
def cycle1 : DependencyGraph :=
  AddDep (AddDep (AddDep (AddDep New
    1 (unary [2] 11)) 0 (unary [1] 10)) 3 (unary [0] 13)) 2 (unary [3] 12)

/-! ## Specification vocabulary -/

/-- The parameter types in `l` that are not in the static map. -/
def nonStatic (s : StaticMap) (l : List Ident) : List Ident :=
  l.filter (fun a => (s a).isNone)

/-- The list `o` is an iteration order of the node map: it visits every
registered key exactly once. -/
def IterOrder (deps : DepMap) (o : List Ident) : Prop :=
  o.Nodup ∧ ∀ k, k ∈ o ↔ (deps k).isSome

/-- The node map is freshly registered: every node has `needs = 0` and no
`neededBy` entries, as `AddDep` leaves it. -/
def Fresh (deps : DepMap) : Prop :=
  ∀ k, needsOf deps k = 0 ∧ neededByOf deps k = []

/-- Every parameter type of every registered constructor is static or
registered. -/
def Complete (dg : DependencyGraph) : Prop :=
  ∀ k, ∀ a ∈ insOf dg.deps k, (dg.static a).isSome ∨ (dg.deps a).isSome

/-- The edge "node `x` requires node `y`": `y` is a parameter type of the
constructor registered under `x`, is not static, and is registered. -/
def Requires (dg : DependencyGraph) (x y : Ident) : Prop :=
  y ∈ insOf dg.deps x ∧ dg.static y = none ∧ (dg.deps y).isSome

/-- The non-static requirement edges contain no cycle. -/
def Acyclic (dg : DependencyGraph) : Prop :=
  ∀ x, ¬ Relation.TransGen (Requires dg) x x

/-- Every registered constructor returns exactly one value. -/
def AllUnary (deps : DepMap) : Prop :=
  ∀ k d args, deps k = some d → (d.Constructor.call args).length = 1

/-- The prerequisites of the node `k`: the non-static parameter types of its
constructor, in declaration order and with repetitions. -/
def prereqs (dg : DependencyGraph) (k : Ident) : List Ident :=
  nonStatic dg.static (insOf dg.deps k)

/-- The node map `deps1` is the graph `dg` with all of its edges recorded:
`needs` counts the non-static parameter positions and `neededBy` holds every
requiring node once per position. -/
structure Linked (dg : DependencyGraph) (deps1 : DepMap) : Prop where
  ctor : ∀ i, constructorOf deps1 i = constructorOf dg.deps i
  iface : ∀ i, interfaceOf deps1 i = interfaceOf dg.deps i
  needs : ∀ i, needsOf deps1 i = ((prereqs dg i).length : Int)
  nb : ∀ i x, (neededByOf deps1 i).count x = (prereqs dg x).count i

/-- The loop invariant of `traverse`, with worklist `S` and output `L`, for a
run started from the linked node map `deps1`. -/
structure TraverseInv (dg : DependencyGraph) (deps1 deps : DepMap) (S L : List Ident) :
    Prop where
  ctor : ∀ i, constructorOf deps i = constructorOf dg.deps i
  iface : ∀ i, interfaceOf deps i = interfaceOf dg.deps i
  needs : ∀ i, needsOf deps i
    = ((((prereqs dg i).filter (fun y => decide (y ∉ L))).length : Nat) : Int)
  nb : ∀ i, neededByOf deps i = if i ∈ L then [] else neededByOf deps1 i
  nodup : (L ++ S).Nodup
  mem : ∀ x, x ∈ L ++ S ↔ (dg.deps x).isSome ∧ ∀ y ∈ prereqs dg x, y ∈ L
  order : ∀ x ∈ L, ∀ y ∈ prereqs dg x, L.indexOf y < L.indexOf x

/-- The call `e` is well-argued with respect to the calls `pre` made before
it: it has one argument per parameter; in a static position the argument is
the static value; in a non-static position the argument is the valid value
that the constructor of the required node returned in one of the calls of
`pre`. -/
def CallOK (dg : DependencyGraph) (pre : List Call) (e : Call) : Prop :=
  e.2.length = (insOf dg.deps e.1).length ∧
  ∀ (i : Nat) (a : Ident), (insOf dg.deps e.1)[i]? = some a →
    (∀ v, dg.static a = some v → e.2[i]? = some v) ∧
    (dg.static a = none →
      ∃ c args v, constructorOf dg.deps a = some c ∧ (a, args) ∈ pre ∧
        c.call args = [v] ∧ e.2[i]? = some (Value.valid v))

/-- Every call of the trace is well-argued with respect to the calls before it. -/
def TraceOK (dg : DependencyGraph) (calls : List Call) : Prop :=
  ∀ j (h : j < calls.length), CallOK dg (calls.take j) (calls.get ⟨j, h⟩)

/-- The list `L` can be built after `done`: every node of `L` has all its
prerequisites in `done` or earlier in `L`. -/
def Ready (dg : DependencyGraph) : List Ident → List Ident → Prop
  | _, [] => True
  | done, k :: L => (∀ a ∈ prereqs dg k, a ∈ done) ∧ Ready dg (done ++ [k]) L

/-! ## Further example graphs -/

/-- A constructor with the given parameter types that returns no value. -/
def nullary (ins : List Ident) : Func := ⟨ins, fun _ => []⟩

/-- A node that requires its own identity. -/
def selfLoop : DependencyGraph :=
  AddDep New 0 (unary [0] 10)

/-- A graph with a cycle (0 and 1 require each other) and a node (2) that
requires the unregistered, non-static identity 9. -/
def cycleAndMissing : DependencyGraph :=
  AddDep (AddDep (AddDep New 0 (unary [1] 10)) 1 (unary [0] 11)) 2 (unary [9] 12)

/-- The identity 1 is both static and registered; node 0 requires it and node 1
requires node 0. -/
def staticAndNode : DependencyGraph :=
  AddDep (AddDep (AddStatic New 1 (Value.valid 7)) 0 (unary [1] 10)) 1 (unary [0] 11)

/-- A constructor that returns no value, in a graph with a missing requirement. -/
def nullaryAndMissing : DependencyGraph :=
  AddDep New 0 (nullary [9])

/-- A chain 0, 1, 2 in which the constructor of node 1 returns no value. -/
def nullaryInChain : DependencyGraph :=
  AddDep (AddDep (AddDep New 0 (unary [] 10)) 1 (nullary [0])) 2 (unary [1] 12)

/-- Two independent nodes; the constructor of node 0 returns no value. -/
def nullaryAndUnary : DependencyGraph :=
  AddDep (AddDep New 0 (nullary [])) 1 (unary [] 11)

/-- Node 0 requires node 1, and node 1 requires the unregistered identity 5. -/
def edgeThenMissing : DependencyGraph :=
  AddDep (AddDep New 0 (unary [1] 10)) 1 (unary [5] 11)

/-- A rank for `graph1`: every node ranks above its prerequisites. -/
def rank1 (k : Ident) : Nat := k

/-- Node 1 requires node 0 in both of its parameter positions. -/
def doubleEdge : DependencyGraph :=
  AddDep (AddDep New 0 (unary [] 10)) 1 (unary [0, 0] 11)

/-- A node that requires its own identity and whose constructor returns no
value. -/
def nullaryLoop : DependencyGraph :=
  AddDep New 0 (nullary [0])

/-- A cycle between the nodes 0 and 1, next to the node 2, which requires
nothing and is the only start node. -/
def cycleAndFree : DependencyGraph :=
  AddDep (AddDep (AddDep New 0 (unary [1] 10)) 1 (unary [0] 11)) 2 (unary [] 12)

/-- One iteration of the `for` loop of `traverse` (lines 98-110) on the node
map, the worklist `S` and the output `L`; `none` when the worklist is empty
and the loop breaks. -/
def traverseStep : DepMap × List Ident × List Ident → Option (DepMap × List Ident × List Ident)
  | (_, [], _) => none
  | (deps, n :: S, L) =>
    match deps n with
    | none => some (deps, S, L ++ [n])
    | some d =>
      match relax d.neededBy deps S with
      | (deps1, S1) => some (setNode deps1 n clearNeededBy, S1, L ++ [n])

/-- The total number of occurrences of the node `k` in the `neededBy` lists of
the nodes `o`. -/
def occurrences (deps : DepMap) (o : List Ident) (k : Ident) : Nat :=
  (o.map (fun y => (neededByOf deps y).count k)).sum

/-- The edge-count invariant: the `needs` of every node is the number of its
occurrences in the `neededBy` lists of the nodes `o`. -/
def EdgeCount (deps : DepMap) (o : List Ident) : Prop :=
  ∀ k, needsOf deps k = ((occurrences deps o k : Nat) : Int)

/-- The argument list that a constructor with parameter types `ins` gets when
every node `a` holds the value `res a`: the static value in a static
position, the value of the node otherwise. -/
def argsFrom (s : StaticMap) (res : Ident → Nat) (ins : List Ident) : List Value :=
  ins.map (fun a =>
    match s a with
    | some w => w
    | none => Value.valid (res a))

/-- The assignment `res` of values to nodes is consistent with the
constructors: every registered constructor, called on the arguments taken
from `res`, returns exactly the value `res` gives to its node. -/
def GoodVals (dg : DependencyGraph) (res : Ident → Nat) : Prop :=
  ∀ k c, constructorOf dg.deps k = some c → c.call (argsFrom dg.static res c.ins) = [res k]

/-- The payload of a value (0 for the zero Value). -/
def payload : Value → Nat
  | Value.zero => 0
  | Value.valid v => v

/-! ## States left by earlier calls -/

/-- The list `o` is an iteration order of the node map in a state that may
hold replaced nodes (nodes that `AddDep` replaced under their key while a
`neededBy` list still pointed at them): `o` visits every bound key once, every
bound key has a node, and a parameter type that has a node is a bound key,
since the name under which a replaced node is kept is no `reflect.Type`.
Every `IterOrder` is a `KeyOrder`. -/
def KeyOrder (deps : DepMap) (o : List Ident) : Prop :=
  o.Nodup ∧ (∀ k ∈ o, (deps k).isSome) ∧
  ∀ k, ∀ a ∈ insOf deps k, (deps a).isSome → a ∈ o

/-- The pointer `i` replaced by the pointer `p` in the `neededBy` list of a
node. -/
def repoint (i p : Ident) (d : Dependency) : Dependency :=
  { d with neededBy := d.neededBy.map (fun m => if m = i then p else m) }

/-- The method `AddDep` on a key `i` that is already bound, in a state in which
`neededBy` lists still hold pointers to the node bound to `i`.  Go binds `i`
to a newly allocated node; the replaced node stays where it is and the
pointers to it are not touched, so that it is no longer in the node map but is
still reached from the `neededBy` lists.  Here, where a node is named by a
key, the replaced node is kept under the name `p`, which must not be used
otherwise, and every `neededBy` entry `i` becomes `p`.  When no `neededBy`
list holds `i`, the replaced node cannot be reached any more and `AddDep`
above describes the call exactly. -/
def AddDepOver (dg : DependencyGraph) (i : Ident) (c : Func) (p : Ident) : DependencyGraph :=
  { dg with deps := fun j =>
      if j = i then some ⟨Value.zero, c, 0, []⟩
      else if j = p then (dg.deps i).map (repoint i p)
      else (dg.deps j).map (repoint i p) }

/-- The invariant of the loop of `traverse`, with worklist `S` and output `L`,
for a run started from any node map `deps1` over the bound keys `o1`: the
nodes of `L ++ S` are distinct nodes with `needs ≤ 0`, a bound key with
`needs = 0` is in `L ++ S`, the `needs` of a node has dropped by the number of
its occurrences in the `neededBy` lists of the nodes of `L`, and when a node
entered `L` those occurrences had already used up its `needs`. -/
structure SortInv (deps1 deps : DepMap) (o1 S L : List Ident) : Prop where
  ctor : ∀ i, constructorOf deps i = constructorOf deps1 i
  iface : ∀ i, interfaceOf deps i = interfaceOf deps1 i
  nodup : (L ++ S).Nodup
  alloc : ∀ x ∈ L ++ S, (deps1 x).isSome
  nonpos : ∀ x ∈ L ++ S, needsOf deps x ≤ 0
  zero_mem : ∀ k ∈ o1, needsOf deps k = 0 → k ∈ L ++ S
  nb : ∀ i, neededByOf deps i = if i ∈ L then [] else neededByOf deps1 i
  needs : ∀ x, (deps1 x).isSome →
    needsOf deps x = needsOf deps1 x - ((occurrences deps1 L x : Nat) : Int)
  early : ∀ l1 x l2, L = l1 ++ x :: l2 →
    needsOf deps1 x - ((occurrences deps1 l1 x : Nat) : Int) ≤ 0

/-- The graph that a run of `Build` leaves (the graph itself when the run does
not return). -/
def graphAfterBuild (fuel : Nat) (o1 o2 : List Ident) (dg : DependencyGraph) :
    DependencyGraph :=
  match Build fuel o1 o2 dg with
  | some r => r.graph
  | none => dg

/-- The graph `edgeThenMissing` after a `Build` that visited node 0 first and
stopped at the missing identity 5: node 0 is left with `needs = 1` and node 1
with `neededBy = [0]`. -/
def afterFailedBuild : DependencyGraph :=
  graphAfterBuild 5 [0, 1] [0, 1] edgeThenMissing

/-- The graph `afterFailedBuild` once key 0 has been registered again, with a
constructor that requires nothing, and the missing identity 5 has been
supplied as a static value.  The node that was bound to 0 is replaced; node 1
still holds it in `neededBy`, and it is kept under the name 100.  In Go:
`AddDep(T0, f)` with `f : func(T1) T0`, `AddDep(T1, g)` with
`g : func(T5) T1`, `Build()` visiting `T0` first (`ErrIncompleteDependencyGraph`),
then `AddDep(T0, h)` with `h : func() T0` and `AddStatic` of a `T5`. -/
def reRegistered : DependencyGraph :=
  AddStatic (AddDepOver afterFailedBuild 0 (unary [] 20) 100) 5 (Value.valid 7)

/-- The graph `reRegistered` with one more node, 2, which requires node 1. -/
def reRegisteredMore : DependencyGraph :=
  AddDep reRegistered 2 (unary [1] 12)

/-- The graph `reRegistered` with one more node, 2, which requires node 1 and
whose constructor returns no value. -/
def reRegisteredNullary : DependencyGraph :=
  AddDep reRegistered 2 (nullary [1])

/-- A constructor `func(T0) T5` whose value depends on its argument. -/
def plusFive : Func := ⟨[0], fun args => [payload (args.headD Value.zero) + 5]⟩

/-- Three nodes: 0 and 1 require nothing, 5 requires 0. -/
def threeNodes : DependencyGraph :=
  AddDep (AddDep (AddDep New 0 (unary [] 10)) 1 (unary [] 11)) 5 plusFive

/-- The graph `threeNodes` after a successful `Build`: the nodes hold the
values 10, 11 and 15, and no `neededBy` list holds a pointer. -/
def builtOnce : DependencyGraph :=
  graphAfterBuild 4 [0, 1, 5] [0, 1, 5] threeNodes

/-- The graph `builtOnce` with key 0 registered again, for a constructor
`func(T1, T9, T5) T0`; the identity 9 is missing. -/
def changed : DependencyGraph :=
  AddDep builtOnce 0 (unary [1, 9, 5] 20)

/-- The graph `changed` after a `Build` that visited key 0 first: it recorded
the edge from node 1 to node 0 and stopped at the missing identity 9, before
it looked at the parameter type 5. -/
def failedAgain : DependencyGraph :=
  graphAfterBuild 4 [0, 1, 5] [0, 1, 5] changed

/-- The graph `failedAgain` once key 0 has been registered a third time, for a
constructor that requires nothing, and a static value for the identity 9 has
been added.  The replaced node, the `func(T1, T9, T5) T0` one, is kept under
the name 100; node 1 still holds it in `neededBy`. -/
def changedBack : DependencyGraph :=
  AddStatic (AddDepOver failedAgain 0 (unary [] 30) 100) 9 (Value.valid 7)

/-! ## Reading after a write -/

theorem isSome_setNode (deps : DepMap) (k : Ident) (f : Dependency → Dependency) (i : Ident) :
    (setNode deps k f i).isSome = (deps i).isSome := by
  unfold setNode
  split <;> simp

theorem constructorOf_setNode (deps : DepMap) (k : Ident) (f : Dependency → Dependency)
    (hf : ∀ d, (f d).Constructor = d.Constructor) (i : Ident) :
    constructorOf (setNode deps k f) i = constructorOf deps i := by
  by_cases h : i = k
  · subst h
    cases hd : deps i <;> simp [constructorOf, setNode, hd, hf]
  · simp [constructorOf, setNode, h]

theorem interfaceOf_setNode (deps : DepMap) (k : Ident) (f : Dependency → Dependency)
    (hf : ∀ d, (f d).Interface = d.Interface) (i : Ident) :
    interfaceOf (setNode deps k f) i = interfaceOf deps i := by
  by_cases h : i = k
  · subst h
    cases hd : deps i <;> simp [interfaceOf, setNode, hd, hf]
  · simp [interfaceOf, setNode, h]

theorem needsOf_setNode (deps : DepMap) (k : Ident) (f : Dependency → Dependency)
    (hf : ∀ d, (f d).needs = d.needs) (i : Ident) :
    needsOf (setNode deps k f) i = needsOf deps i := by
  by_cases h : i = k
  · subst h
    cases hd : deps i <;> simp [needsOf, setNode, hd, hf]
  · simp [needsOf, setNode, h]

theorem neededByOf_setNode (deps : DepMap) (k : Ident) (f : Dependency → Dependency)
    (hf : ∀ d, (f d).neededBy = d.neededBy) (i : Ident) :
    neededByOf (setNode deps k f) i = neededByOf deps i := by
  by_cases h : i = k
  · subst h
    cases hd : deps i <;> simp [neededByOf, setNode, hd, hf]
  · simp [neededByOf, setNode, h]

@[simp] theorem constructorOf_push (deps : DepMap) (k x i : Ident) :
    constructorOf (setNode deps k (pushNeededBy x)) i = constructorOf deps i :=
  constructorOf_setNode deps k (pushNeededBy x) (fun _ => rfl) i

@[simp] theorem constructorOf_inc (deps : DepMap) (k i : Ident) :
    constructorOf (setNode deps k incNeeds) i = constructorOf deps i :=
  constructorOf_setNode deps k incNeeds (fun _ => rfl) i

@[simp] theorem constructorOf_dec (deps : DepMap) (k i : Ident) :
    constructorOf (setNode deps k decNeeds) i = constructorOf deps i :=
  constructorOf_setNode deps k decNeeds (fun _ => rfl) i

@[simp] theorem constructorOf_clear (deps : DepMap) (k i : Ident) :
    constructorOf (setNode deps k clearNeededBy) i = constructorOf deps i :=
  constructorOf_setNode deps k clearNeededBy (fun _ => rfl) i

@[simp] theorem constructorOf_setInterface (deps : DepMap) (k : Ident) (v : Value) (i : Ident) :
    constructorOf (setNode deps k (setInterface v)) i = constructorOf deps i :=
  constructorOf_setNode deps k (setInterface v) (fun _ => rfl) i

@[simp] theorem interfaceOf_push (deps : DepMap) (k x i : Ident) :
    interfaceOf (setNode deps k (pushNeededBy x)) i = interfaceOf deps i :=
  interfaceOf_setNode deps k (pushNeededBy x) (fun _ => rfl) i

@[simp] theorem interfaceOf_inc (deps : DepMap) (k i : Ident) :
    interfaceOf (setNode deps k incNeeds) i = interfaceOf deps i :=
  interfaceOf_setNode deps k incNeeds (fun _ => rfl) i

@[simp] theorem interfaceOf_dec (deps : DepMap) (k i : Ident) :
    interfaceOf (setNode deps k decNeeds) i = interfaceOf deps i :=
  interfaceOf_setNode deps k decNeeds (fun _ => rfl) i

@[simp] theorem interfaceOf_clear (deps : DepMap) (k i : Ident) :
    interfaceOf (setNode deps k clearNeededBy) i = interfaceOf deps i :=
  interfaceOf_setNode deps k clearNeededBy (fun _ => rfl) i

@[simp] theorem needsOf_push (deps : DepMap) (k x i : Ident) :
    needsOf (setNode deps k (pushNeededBy x)) i = needsOf deps i :=
  needsOf_setNode deps k (pushNeededBy x) (fun _ => rfl) i

@[simp] theorem needsOf_clear (deps : DepMap) (k i : Ident) :
    needsOf (setNode deps k clearNeededBy) i = needsOf deps i :=
  needsOf_setNode deps k clearNeededBy (fun _ => rfl) i

@[simp] theorem needsOf_setInterface (deps : DepMap) (k : Ident) (v : Value) (i : Ident) :
    needsOf (setNode deps k (setInterface v)) i = needsOf deps i :=
  needsOf_setNode deps k (setInterface v) (fun _ => rfl) i

@[simp] theorem neededByOf_inc (deps : DepMap) (k i : Ident) :
    neededByOf (setNode deps k incNeeds) i = neededByOf deps i :=
  neededByOf_setNode deps k incNeeds (fun _ => rfl) i

@[simp] theorem neededByOf_dec (deps : DepMap) (k i : Ident) :
    neededByOf (setNode deps k decNeeds) i = neededByOf deps i :=
  neededByOf_setNode deps k decNeeds (fun _ => rfl) i

@[simp] theorem neededByOf_setInterface (deps : DepMap) (k : Ident) (v : Value) (i : Ident) :
    neededByOf (setNode deps k (setInterface v)) i = neededByOf deps i :=
  neededByOf_setNode deps k (setInterface v) (fun _ => rfl) i

theorem needsOf_inc (deps : DepMap) (k i : Ident) (hk : (deps k).isSome) :
    needsOf (setNode deps k incNeeds) i = needsOf deps i + if i = k then 1 else 0 := by
  by_cases h : i = k
  · subst h
    cases hd : deps i with
    | none => simp [hd] at hk
    | some d => simp [needsOf, setNode, hd, incNeeds]
  · simp [needsOf, setNode, h]

theorem needsOf_dec (deps : DepMap) (k i : Ident) (hk : (deps k).isSome) :
    needsOf (setNode deps k decNeeds) i = needsOf deps i - if i = k then 1 else 0 := by
  by_cases h : i = k
  · subst h
    cases hd : deps i with
    | none => simp [hd] at hk
    | some d => simp [needsOf, setNode, hd, decNeeds]
  · simp [needsOf, setNode, h]

theorem neededByOf_push (deps : DepMap) (k x i : Ident) (hk : (deps k).isSome) :
    neededByOf (setNode deps k (pushNeededBy x)) i
      = neededByOf deps i ++ if i = k then [x] else [] := by
  by_cases h : i = k
  · subst h
    cases hd : deps i with
    | none => simp [hd] at hk
    | some d => simp [neededByOf, setNode, hd, pushNeededBy]
  · simp [neededByOf, setNode, h]

theorem neededByOf_clear (deps : DepMap) (k i : Ident) :
    neededByOf (setNode deps k clearNeededBy) i = if i = k then [] else neededByOf deps i := by
  by_cases h : i = k
  · subst h
    cases hd : deps i <;> simp [neededByOf, setNode, hd, clearNeededBy]
  · simp [neededByOf, setNode, h]

theorem interfaceOf_setInterface (deps : DepMap) (k : Ident) (v : Value) (i : Ident)
    (hk : (deps k).isSome) :
    interfaceOf (setNode deps k (setInterface v)) i
      = if i = k then v else interfaceOf deps i := by
  by_cases h : i = k
  · subst h
    cases hd : deps i with
    | none => simp [hd] at hk
    | some d => simp [interfaceOf, setNode, hd, setInterface]
  · simp [interfaceOf, setNode, h]

theorem isSome_of_constructorOf {deps deps1 : DepMap}
    (h : ∀ i, constructorOf deps1 i = constructorOf deps i) (i : Ident) :
    (deps1 i).isSome = (deps i).isSome := by
  have := h i
  unfold constructorOf at this
  cases h1 : deps1 i <;> cases h2 : deps i <;> simp [h1, h2] at this ⊢

theorem insOf_eq_constructorOf (deps : DepMap) (i : Ident) :
    insOf deps i = match constructorOf deps i with | some c => c.ins | none => [] := by
  unfold insOf constructorOf
  cases deps i <;> rfl

theorem insOf_of_constructorOf {deps deps1 : DepMap}
    (h : ∀ i, constructorOf deps1 i = constructorOf deps i) (i : Ident) :
    insOf deps1 i = insOf deps i := by
  rw [insOf_eq_constructorOf, insOf_eq_constructorOf, h]

/-! ## The inner loop of `buildGraph` -/

theorem nonStatic_cons_static (s : StaticMap) (a : Ident) (l : List Ident)
    (h : (s a).isSome) : nonStatic s (a :: l) = nonStatic s l := by
  cases hs : s a <;> simp [nonStatic, hs] at h ⊢

theorem nonStatic_cons_nonstatic (s : StaticMap) (a : Ident) (l : List Ident)
    (h : ¬ (s a).isSome) : nonStatic s (a :: l) = a :: nonStatic s l := by
  cases hs : s a <;> simp [nonStatic, hs] at h ⊢

theorem mem_nonStatic (s : StaticMap) (a : Ident) (l : List Ident) :
    a ∈ nonStatic s l ↔ a ∈ l ∧ s a = none := by
  simp [nonStatic]

/-- The inner loop records, for the prefix `pre` of the parameter types it got
through, one edge per non-static position; it succeeds exactly when every
parameter type is static or registered. -/
theorem buildGraphParams_spec (s : StaticMap) (k : Ident) :
    ∀ (ps : List Ident) (deps : DepMap), (deps k).isSome →
      ∃ pre, pre <+: ps ∧
        ((buildGraphParams s k ps deps).2 = true → pre = ps) ∧
        ((buildGraphParams s k ps deps).2 = true ↔
          ∀ a ∈ ps, (s a).isSome ∨ (deps a).isSome) ∧
        (∀ i, constructorOf (buildGraphParams s k ps deps).1 i = constructorOf deps i) ∧
        (∀ i, interfaceOf (buildGraphParams s k ps deps).1 i = interfaceOf deps i) ∧
        (∀ i, needsOf (buildGraphParams s k ps deps).1 i
          = needsOf deps i + if i = k then ((nonStatic s pre).length : Int) else 0) ∧
        (∀ i, neededByOf (buildGraphParams s k ps deps).1 i
          = neededByOf deps i ++ List.replicate ((nonStatic s pre).count i) k) := by
  intro ps
  induction ps with
  | nil =>
    intro deps _
    exact ⟨[], List.prefix_refl _, fun _ => rfl, by simp [buildGraphParams],
      fun _ => rfl, fun _ => rfl, by simp [buildGraphParams, nonStatic],
      by simp [buildGraphParams, nonStatic]⟩
  | cons a rest ih =>
    intro deps hk
    by_cases hs : (s a).isSome
    · obtain ⟨pre, hpre, hok, hiff, hc, hi, hn, hb⟩ := ih deps hk
      have e : buildGraphParams s k (a :: rest) deps = buildGraphParams s k rest deps := by
        simp [buildGraphParams, hs]
      rw [e]
      refine ⟨a :: pre, ?_, ?_, ?_, hc, hi, ?_, ?_⟩
      · exact (List.prefix_cons_inj a).2 hpre
      · intro h; rw [hok h]
      · rw [hiff]; simp [hs]
      · rw [nonStatic_cons_static s a pre hs]; exact hn
      · rw [nonStatic_cons_static s a pre hs]; exact hb
    · by_cases ha : (deps a).isSome
      · have hk1 : (setNode (setNode deps a (pushNeededBy k)) k incNeeds k).isSome := by
          rw [isSome_setNode, isSome_setNode]; exact hk
        obtain ⟨pre, hpre, hok, hiff, hc, hi, hn, hb⟩ := ih _ hk1
        have e : buildGraphParams s k (a :: rest) deps
            = buildGraphParams s k rest
                (setNode (setNode deps a (pushNeededBy k)) k incNeeds) := by
          simp [buildGraphParams, hs, ha]
        rw [e]
        refine ⟨a :: pre, ?_, ?_, ?_, ?_, ?_, ?_, ?_⟩
        · exact (List.prefix_cons_inj a).2 hpre
        · intro h; rw [hok h]
        · rw [hiff]
          simp only [isSome_setNode, List.mem_cons, forall_eq_or_imp, ha, or_true, true_and]
        · intro i; rw [hc]; simp
        · intro i; rw [hi]; simp
        · intro i
          rw [hn, needsOf_inc _ _ _ (by rw [isSome_setNode]; exact hk), needsOf_push,
            nonStatic_cons_nonstatic s a pre hs]
          by_cases h : i = k <;> simp [h]
          ring
        · intro i
          rw [hb, neededByOf_inc, neededByOf_push _ _ _ _ ha,
            nonStatic_cons_nonstatic s a pre hs, List.count_cons]
          by_cases h : i = a
          · subst h
            simp [List.replicate_succ, List.append_assoc]
          · have h' : ¬ a = i := fun e => h e.symm
            simp [h, h']
      · have e : buildGraphParams s k (a :: rest) deps = (deps, false) := by
          simp [buildGraphParams, hs, ha]
        rw [e]
        refine ⟨[], List.nil_prefix, by simp, ?_, fun _ => rfl, fun _ => rfl,
          by simp [nonStatic], by simp [nonStatic]⟩
        simp only [Bool.false_eq_true, false_iff, not_forall]
        exact ⟨a, List.mem_cons_self _ _, by simp [hs, ha]⟩

/-! ## The outer loop of `buildGraph` -/

theorem insOf_eq_of_some {deps : DepMap} {k : Ident} {d : Dependency} (h : deps k = some d) :
    insOf deps k = d.Constructor.ins := by
  simp [insOf, h]

theorem needsOf_eq_of_some {deps : DepMap} {k : Ident} {d : Dependency} (h : deps k = some d) :
    needsOf deps k = d.needs := by
  simp [needsOf, h]

theorem neededByOf_eq_of_some {deps : DepMap} {k : Ident} {d : Dependency}
    (h : deps k = some d) : neededByOf deps k = d.neededBy := by
  simp [neededByOf, h]

/-- The outer loop never changes a constructor or a constructed value. -/
theorem buildGraphLoop_frame (s : StaticMap) :
    ∀ (ks : List Ident) (deps : DepMap) (start : List Ident),
      (∀ i, constructorOf (buildGraphLoop s ks deps start).1 i = constructorOf deps i) ∧
      (∀ i, interfaceOf (buildGraphLoop s ks deps start).1 i = interfaceOf deps i) := by
  intro ks
  induction ks with
  | nil => intro deps start; simp [buildGraphLoop]
  | cons k ks ih =>
    intro deps start
    cases hd : deps k with
    | none => simpa [buildGraphLoop, hd] using ih deps start
    | some d =>
      obtain ⟨pre, -, -, -, hc, hi, -, -⟩ :=
        buildGraphParams_spec s k d.Constructor.ins deps (by simp [hd])
      rcases hp : buildGraphParams s k d.Constructor.ins deps with ⟨deps1, b⟩
      rw [hp] at hc hi
      cases b with
      | false => simpa [buildGraphLoop, hd, hp] using ⟨hc, hi⟩
      | true =>
        cases hd1 : deps1 k with
        | none =>
          have := ih deps1 start
          simp only [buildGraphLoop, hd, hp, hd1]
          exact ⟨fun i => (this.1 i).trans (hc i), fun i => (this.2 i).trans (hi i)⟩
        | some d1 =>
          simp only [buildGraphLoop, hd, hp, hd1]
          split
          · have := ih deps1 (start ++ [k])
            exact ⟨fun i => (this.1 i).trans (hc i), fun i => (this.2 i).trans (hi i)⟩
          · have := ih deps1 start
            exact ⟨fun i => (this.1 i).trans (hc i), fun i => (this.2 i).trans (hi i)⟩

/-- The outer loop fails as soon as some visited node has a parameter type
that is neither static nor registered. -/
theorem buildGraphLoop_error (s : StaticMap) :
    ∀ (ks : List Ident) (deps : DepMap) (start : List Ident),
      (∃ k ∈ ks, ∃ a ∈ insOf deps k, s a = none ∧ deps a = none) →
      (buildGraphLoop s ks deps start).2 = .error BuildError.ErrIncompleteDependencyGraph := by
  intro ks
  induction ks with
  | nil => intro deps start h; simp at h
  | cons k ks ih =>
    intro deps start h
    have next : ∀ deps1 : DepMap, (∀ i, constructorOf deps1 i = constructorOf deps i) →
        (∃ k1 ∈ k :: ks, ∃ a ∈ insOf deps k1, s a = none ∧ deps a = none) →
        (¬ ∃ a ∈ insOf deps k, s a = none ∧ deps a = none) →
        ∃ k1 ∈ ks, ∃ a ∈ insOf deps1 k1, s a = none ∧ deps1 a = none := by
      intro deps1 hc ⟨k1, hk1, a, ha, hsa, hda⟩ hnot
      rcases List.mem_cons.1 hk1 with rfl | hk1
      · exact absurd ⟨a, ha, hsa, hda⟩ hnot
      · refine ⟨k1, hk1, a, ?_, hsa, ?_⟩
        · rw [insOf_of_constructorOf hc]; exact ha
        · have := isSome_of_constructorOf hc a
          rw [hda] at this
          simpa using this
    cases hd : deps k with
    | none =>
      simp only [buildGraphLoop, hd]
      apply ih
      apply next deps (fun _ => rfl) h
      simp [insOf, hd]
    | some d =>
      obtain ⟨pre, -, -, hiff, hc, -, -, -⟩ :=
        buildGraphParams_spec s k d.Constructor.ins deps (by simp [hd])
      rcases hp : buildGraphParams s k d.Constructor.ins deps with ⟨deps1, b⟩
      rw [hp] at hc hiff
      cases b with
      | false => simp [buildGraphLoop, hd, hp]
      | true =>
        have hall := hiff.1 rfl
        have hnot : ¬ ∃ a ∈ insOf deps k, s a = none ∧ deps a = none := by
          rintro ⟨a, ha, hsa, hda⟩
          rw [insOf_eq_of_some hd] at ha
          have := hall a ha
          simp [hsa, hda] at this
        have h1 := next deps1 hc h hnot
        cases hd1 : deps1 k with
        | none =>
          simp only [buildGraphLoop, hd, hp, hd1]
          exact ih deps1 start h1
        | some d1 =>
          simp only [buildGraphLoop, hd, hp, hd1]
          split
          · exact ih deps1 _ h1
          · exact ih deps1 _ h1

/-- On a complete graph the outer loop succeeds: every visited node `i` has
its `needs` raised by the number of its non-static parameter positions, every
`neededBy` list gains each visited node `x` once per position of `x` that
names it, and the start nodes are the visited nodes left with `needs = 0`. -/
theorem buildGraphLoop_ok (s : StaticMap) :
    ∀ (ks : List Ident) (deps : DepMap) (start : List Ident),
      ks.Nodup → (∀ k ∈ ks, (deps k).isSome) →
      (∀ k ∈ ks, ∀ a ∈ insOf deps k, (s a).isSome ∨ (deps a).isSome) →
      ∃ deps1, buildGraphLoop s ks deps start
          = (deps1, .ok (start ++ ks.filter (fun k =>
              decide (needsOf deps k + ((nonStatic s (insOf deps k)).length : Int) = 0)))) ∧
        (∀ i, needsOf deps1 i
          = needsOf deps i + if i ∈ ks then ((nonStatic s (insOf deps i)).length : Int) else 0) ∧
        (∀ i x, (neededByOf deps1 i).count x
          = (neededByOf deps i).count x
            + if x ∈ ks then (nonStatic s (insOf deps x)).count i else 0) := by
  intro ks
  induction ks with
  | nil => intro deps start _ _ _; exact ⟨deps, by simp [buildGraphLoop]⟩
  | cons k ks ih =>
    intro deps start hnd hreg hcomp
    have hk := hreg k (List.mem_cons_self _ _)
    obtain ⟨d, hd⟩ := Option.isSome_iff_exists.1 hk
    obtain ⟨pre, -, hok, hiff, hc, -, hn, hb⟩ :=
      buildGraphParams_spec s k d.Constructor.ins deps hk
    have hins := insOf_eq_of_some hd
    have hall : ∀ a ∈ d.Constructor.ins, (s a).isSome ∨ (deps a).isSome := by
      intro a ha; exact hcomp k (List.mem_cons_self _ _) a (hins ▸ ha)
    rcases hp : buildGraphParams s k d.Constructor.ins deps with ⟨deps1, b⟩
    rw [hp] at hc hn hb hiff hok
    have hb1 : b = true := hiff.2 hall
    subst hb1
    have hpre : pre = d.Constructor.ins := hok rfl
    subst hpre
    rw [← hins] at hn hb
    have hk1 : (deps1 k).isSome := by rw [isSome_of_constructorOf hc]; exact hk
    obtain ⟨d1, hd1⟩ := Option.isSome_iff_exists.1 hk1
    have hnd' := List.nodup_cons.1 hnd
    have hreg1 : ∀ j ∈ ks, (deps1 j).isSome := by
      intro j hj; rw [isSome_of_constructorOf hc]; exact hreg j (List.mem_cons_of_mem _ hj)
    have hcomp1 : ∀ j ∈ ks, ∀ a ∈ insOf deps1 j, (s a).isSome ∨ (deps1 a).isSome := by
      intro j hj a ha
      rw [insOf_of_constructorOf hc] at ha
      rw [isSome_of_constructorOf hc]
      exact hcomp j (List.mem_cons_of_mem _ hj) a ha
    have hfilter : ∀ st : List Ident,
        st ++ ks.filter (fun j =>
          decide (needsOf deps1 j + ((nonStatic s (insOf deps1 j)).length : Int) = 0))
        = st ++ ks.filter (fun j =>
          decide (needsOf deps j + ((nonStatic s (insOf deps j)).length : Int) = 0)) := by
      intro st
      congr 1
      apply List.filter_congr
      intro j hj
      have hjk : j ≠ k := fun e => hnd'.1 (e ▸ hj)
      rw [hn, insOf_of_constructorOf hc]
      simp [hjk]
    have hneeds : d1.needs = needsOf deps k + ((nonStatic s (insOf deps k)).length : Int) := by
      rw [← needsOf_eq_of_some hd1, hn]; simp
    have finish : ∀ st : List Ident, ∀ deps2,
        buildGraphLoop s ks deps1 st = (deps2, .ok (st ++ ks.filter (fun j =>
          decide (needsOf deps1 j + ((nonStatic s (insOf deps1 j)).length : Int) = 0)))) →
        (∀ i, needsOf deps2 i = needsOf deps1 i
          + if i ∈ ks then ((nonStatic s (insOf deps1 i)).length : Int) else 0) →
        (∀ i x, (neededByOf deps2 i).count x = (neededByOf deps1 i).count x
          + if x ∈ ks then (nonStatic s (insOf deps1 x)).count i else 0) →
        (∀ i, needsOf deps2 i = needsOf deps i
          + if i ∈ k :: ks then ((nonStatic s (insOf deps i)).length : Int) else 0) ∧
        (∀ i x, (neededByOf deps2 i).count x = (neededByOf deps i).count x
          + if x ∈ k :: ks then (nonStatic s (insOf deps x)).count i else 0) := by
      intro st deps2 _ h2 h3
      constructor
      · intro i
        rw [h2, hn, insOf_of_constructorOf hc]
        by_cases hik : i = k
        · subst hik; simp [hnd'.1]
        · simp [hik]
      · intro i x
        rw [h3, hb, insOf_of_constructorOf hc, List.count_append, List.count_replicate]
        by_cases hxk : x = k
        · subst hxk; simp [hnd'.1]
        · have : ¬ k = x := fun e => hxk e.symm
          simp [hxk, this]
    by_cases hz : d1.needs = 0
    · obtain ⟨deps2, h1, h2, h3⟩ := ih deps1 (start ++ [k]) hnd'.2 hreg1 hcomp1
      refine ⟨deps2, ?_, finish _ _ h1 h2 h3⟩
      simp only [buildGraphLoop, hd, hp, hd1, hz, if_true]
      rw [h1, hfilter]
      simp [List.filter_cons, ← hneeds, hz]
    · obtain ⟨deps2, h1, h2, h3⟩ := ih deps1 start hnd'.2 hreg1 hcomp1
      refine ⟨deps2, ?_, finish _ _ h1 h2 h3⟩
      simp only [buildGraphLoop, hd, hp, hd1, hz, if_false]
      rw [h1, hfilter]
      simp [List.filter_cons, ← hneeds, hz]

/-! ## The loops of `traverse` -/

/-- The loop over `n.neededBy`: every registered node loses one from `needs`
per occurrence in the list, and the nodes appended to the worklist are those
whose `needs` reached zero on the way, each once. -/
theorem relax_spec :
    ∀ (ms : List Ident) (deps : DepMap) (S : List Ident),
      ∃ N, (relax ms deps S).2 = S ++ N ∧ N.Nodup ∧
        (∀ x, x ∈ N ↔ (deps x).isSome ∧ 1 ≤ needsOf deps x ∧ needsOf deps x ≤ (ms.count x : Int)) ∧
        (∀ i, constructorOf (relax ms deps S).1 i = constructorOf deps i) ∧
        (∀ i, interfaceOf (relax ms deps S).1 i = interfaceOf deps i) ∧
        (∀ i, neededByOf (relax ms deps S).1 i = neededByOf deps i) ∧
        (∀ i, needsOf (relax ms deps S).1 i
          = needsOf deps i - if (deps i).isSome then (ms.count i : Int) else 0) := by
  intro ms
  induction ms with
  | nil =>
    intro deps S
    refine ⟨[], by simp [relax], List.nodup_nil, ?_, fun _ => rfl, fun _ => rfl, fun _ => rfl,
      by simp [relax]⟩
    intro x
    simp only [List.not_mem_nil, List.count_nil, Nat.cast_zero, false_iff, not_and, not_le]
    intro _ h; omega
  | cons m ms ih =>
    intro deps S
    cases hd : deps m with
    | none =>
      obtain ⟨N, h1, h2, h3, h4, h5, h6, h7⟩ := ih deps S
      have e : relax (m :: ms) deps S = relax ms deps S := by simp [relax, hd]
      rw [e]
      have hne : ∀ x, (deps x).isSome → (m :: ms).count x = ms.count x := by
        intro x hx
        have : m ≠ x := by rintro rfl; simp [hd] at hx
        simp [List.count_cons, this]
      refine ⟨N, h1, h2, ?_, h4, h5, h6, ?_⟩
      · intro x
        rw [h3]
        constructor
        · rintro ⟨a, b, c⟩; exact ⟨a, b, by rw [hne x a]; exact c⟩
        · rintro ⟨a, b, c⟩; exact ⟨a, b, by rw [hne x a] at c; exact c⟩
      · intro i
        rw [h7]
        by_cases hi : (deps i).isSome
        · simp [hi, hne i hi]
        · simp [hi]
    | some d =>
      have hm : (deps m).isSome := by simp [hd]
      have hnm : needsOf deps m = d.needs := needsOf_eq_of_some hd
      have hreg : ∀ x, (setNode deps m decNeeds x).isSome = (deps x).isSome :=
        fun x => isSome_setNode _ _ _ x
      by_cases hz : d.needs - 1 = 0
      · obtain ⟨N, h1, h2, h3, h4, h5, h6, h7⟩ := ih (setNode deps m decNeeds) (S ++ [m])
        have e : relax (m :: ms) deps S = relax ms (setNode deps m decNeeds) (S ++ [m]) := by
          simp [relax, hd, hz]
        rw [e]
        have hmN : m ∉ N := by
          rw [h3, needsOf_dec _ _ _ hm]
          simp only [if_true, hnm]
          intro ⟨_, h, _⟩; omega
        refine ⟨m :: N, by rw [h1]; simp, List.nodup_cons.2 ⟨hmN, h2⟩, ?_, ?_, ?_, ?_, ?_⟩
        · intro x
          rw [List.mem_cons, h3, hreg, needsOf_dec _ _ _ hm, List.count_cons]
          by_cases hx : x = m
          · subst hx
            simp only [if_true, true_or, hm, true_and, hnm, beq_self_eq_true, Nat.cast_add,
              Nat.cast_one, true_iff]
            omega
          · have hx' : ¬ m = x := fun e => hx e.symm
            simp [hx, hx']
        · intro i; rw [h4]; simp
        · intro i; rw [h5]; simp
        · intro i; rw [h6]; simp
        · intro i
          rw [h7, hreg, needsOf_dec _ _ _ hm, List.count_cons]
          by_cases hi : i = m
          · subst hi; simp [hm]; omega
          · have hi' : ¬ m = i := fun e => hi e.symm
            simp [hi, hi']
      · obtain ⟨N, h1, h2, h3, h4, h5, h6, h7⟩ := ih (setNode deps m decNeeds) S
        have e : relax (m :: ms) deps S = relax ms (setNode deps m decNeeds) S := by
          simp [relax, hd, hz]
        rw [e]
        refine ⟨N, h1, h2, ?_, ?_, ?_, ?_, ?_⟩
        · intro x
          rw [h3, hreg, needsOf_dec _ _ _ hm, List.count_cons]
          by_cases hx : x = m
          · subst hx
            simp only [if_true, hm, true_and, hnm, beq_self_eq_true, Nat.cast_add, Nat.cast_one]
            omega
          · have hx' : ¬ m = x := fun e => hx e.symm
            simp [hx, hx']
        · intro i; rw [h4]; simp
        · intro i; rw [h5]; simp
        · intro i; rw [h6]; simp
        · intro i
          rw [h7, hreg, needsOf_dec _ _ _ hm, List.count_cons]
          by_cases hi : i = m
          · subst hi; simp [hm]; omega
          · have hi' : ¬ m = i := fun e => hi e.symm
            simp [hi, hi']

/-- The function `hasEdges` reports whether some visited node has `needs ≠ 0`. -/
theorem hasEdges_iff (deps : DepMap) :
    ∀ o : List Ident, hasEdges deps o = true ↔ ∃ k ∈ o, needsOf deps k ≠ 0 := by
  intro o
  induction o with
  | nil => simp [hasEdges]
  | cons k ks ih =>
    cases hd : deps k with
    | none => simp [hasEdges, hd, ih, needsOf]
    | some d =>
      by_cases hz : d.needs = 0
      · simp [hasEdges, hd, ih, needsOf, hz]
      · simp [hasEdges, hd, needsOf, hz]

/-! ## `buildGraph` on a freshly registered, complete graph -/

theorem prereqs_of_not_registered (dg : DependencyGraph) (k : Ident) (h : dg.deps k = none) :
    prereqs dg k = [] := by
  simp [prereqs, insOf, h, nonStatic]

theorem registered_of_mem_prereqs {dg : DependencyGraph} {x y : Ident}
    (h : y ∈ prereqs dg x) : (dg.deps x).isSome := by
  cases hd : dg.deps x with
  | none => rw [prereqs_of_not_registered dg x hd] at h; simp at h
  | some d => rfl

theorem requires_iff (dg : DependencyGraph) (hc : Complete dg) (x y : Ident) :
    Requires dg x y ↔ y ∈ prereqs dg x := by
  unfold Requires prereqs
  rw [mem_nonStatic]
  constructor
  · rintro ⟨a, b, _⟩; exact ⟨a, b⟩
  · rintro ⟨a, b⟩
    refine ⟨a, b, ?_⟩
    rcases hc x y a with h | h
    · simp [b] at h
    · exact h

/-- On a freshly registered complete graph `buildGraph` succeeds, leaves the
graph linked, and returns as start nodes the registered nodes without
prerequisites, each once. -/
theorem buildGraph_fresh (dg : DependencyGraph) (o1 : List Ident)
    (hf : Fresh dg.deps) (hc : Complete dg) (ho : IterOrder dg.deps o1) :
    ∃ deps1 start, buildGraph dg.deps dg.static o1 = (deps1, .ok start) ∧
      Linked dg deps1 ∧ start.Nodup ∧
      start = o1.filter (fun k => decide (prereqs dg k = [])) := by
  obtain ⟨deps1, h1, h2, h3⟩ := buildGraphLoop_ok dg.static o1 dg.deps [] ho.1
    (fun k hk => (ho.2 k).1 hk) (fun k _ a ha => hc k a ha)
  have hfr := buildGraphLoop_frame dg.static o1 dg.deps []
  rw [h1] at hfr
  have hfil : o1.filter (fun k => decide (needsOf dg.deps k
        + ((nonStatic dg.static (insOf dg.deps k)).length : Int) = 0))
      = o1.filter (fun k => decide (prereqs dg k = [])) := by
    apply List.filter_congr
    intro k _
    simp [(hf k).1, prereqs]
  refine ⟨deps1, _, h1, ⟨hfr.1, hfr.2, ?_, ?_⟩, ?_, ?_⟩
  · intro i
    rw [h2, (hf i).1]
    by_cases hi : i ∈ o1
    · simp [hi, prereqs]
    · have : dg.deps i = none := by
        have := (ho.2 i).not.1 hi
        simpa using this
      simp [hi, prereqs_of_not_registered dg i this]
  · intro i x
    rw [h3, (hf i).2]
    by_cases hx : x ∈ o1
    · simp [hx, prereqs]
    · have : dg.deps x = none := by
        have := (ho.2 x).not.1 hx
        simpa using this
      simp [hx, prereqs_of_not_registered dg x this]
  · simp only [List.nil_append]
    exact ho.1.filter _
  · simp only [List.nil_append]
    exact hfil

/-! ## The invariant of `traverse` -/

theorem filter_notin_snoc (L : List Ident) (n : Ident) (hn : n ∉ L) :
    ∀ l : List Ident, (l.filter (fun y => decide (y ∉ L))).length
      = (l.filter (fun y => decide (y ∉ L ++ [n]))).length + l.count n := by
  intro l
  induction l with
  | nil => simp
  | cons a l ih =>
    simp only [List.mem_append, List.mem_singleton, not_or, Bool.decide_and, decide_not] at ih ⊢
    by_cases ha : a = n
    · subst ha
      simp [List.filter_cons, hn]
      omega
    · by_cases haL : a ∈ L
      · simp [List.filter_cons, haL, List.count_cons, ha]
        omega
      · simp [List.filter_cons, haL, List.count_cons, ha]
        omega

theorem filter_notin_length_eq_zero (L l : List Ident) :
    (l.filter (fun y => decide (y ∉ L))).length = 0 ↔ ∀ y ∈ l, y ∈ L := by
  rw [List.length_eq_zero, List.filter_eq_nil_iff]
  simp

/-- The invariant holds when `traverse` starts on a linked graph. -/
theorem traverseInv_init (dg : DependencyGraph) (deps1 : DepMap) (o1 : List Ident)
    (ho : IterOrder dg.deps o1) (hl : Linked dg deps1) :
    TraverseInv dg deps1 deps1 (o1.filter (fun k => decide (prereqs dg k = []))) [] := by
  refine ⟨hl.ctor, hl.iface, ?_, ?_, ?_, ?_, ?_⟩
  · intro i; rw [hl.needs]; simp
  · intro i; simp
  · simpa using ho.1.filter _
  · intro x
    simp only [List.nil_append, List.mem_filter, decide_eq_true_eq, List.not_mem_nil]
    rw [ho.2 x]
    constructor
    · rintro ⟨a, b⟩; exact ⟨a, by simp [b]⟩
    · rintro ⟨a, b⟩; exact ⟨a, List.eq_nil_iff_forall_not_mem.2 (fun y hy => b y hy)⟩
  · intro x hx; simp at hx

theorem registered_iff_of_ctor {dg : DependencyGraph} {deps : DepMap}
    (h : ∀ i, constructorOf deps i = constructorOf dg.deps i) (i : Ident) :
    (deps i).isSome = (dg.deps i).isSome :=
  isSome_of_constructorOf h i

/-- One iteration of the `for` loop of `traverse` keeps the invariant. -/
theorem traverseInv_step (dg : DependencyGraph) (deps1 deps : DepMap) (n : Ident)
    (S L : List Ident) (hl : Linked dg deps1) (hinv : TraverseInv dg deps1 deps (n :: S) L) :
    ∃ d, deps n = some d ∧
      TraverseInv dg deps1 (setNode (relax d.neededBy deps S).1 n clearNeededBy)
        (relax d.neededBy deps S).2 (L ++ [n]) := by
  have hnmem : n ∈ L ++ n :: S := by simp
  have hnreg : (dg.deps n).isSome := ((hinv.mem n).1 hnmem).1
  have hnpre : ∀ y ∈ prereqs dg n, y ∈ L := ((hinv.mem n).1 hnmem).2
  have hnd := List.nodup_append.1 hinv.nodup
  have hnL : n ∉ L := fun h => hnd.2.2 h (List.mem_cons_self _ _)
  have hnS : n ∉ S := (List.nodup_cons.1 hnd.2.1).1
  have hreg := registered_iff_of_ctor hinv.ctor
  obtain ⟨d, hd⟩ := Option.isSome_iff_exists.1 ((hreg n).trans hnreg)
  refine ⟨d, hd, ?_⟩
  have hms : d.neededBy = neededByOf deps1 n := by
    rw [← neededByOf_eq_of_some hd, hinv.nb]; simp [hnL]
  obtain ⟨N, h1, h2, h3, h4, h5, h6, h7⟩ := relax_spec d.neededBy deps S
  have hcount : ∀ x, (d.neededBy.count x : Int) = ((prereqs dg x).count n : Nat) := by
    intro x; rw [hms, hl.nb]
  have hsplit : ∀ x, needsOf deps x
      = ((((prereqs dg x).filter (fun y => decide (y ∉ L ++ [n]))).length : Nat) : Int)
        + ((prereqs dg x).count n : Nat) := by
    intro x; rw [hinv.needs, filter_notin_snoc L n hnL]; push_cast; ring
  have hzero : ∀ x, (dg.deps x).isSome = false → (prereqs dg x).count n = 0 := by
    intro x hx
    have : dg.deps x = none := by simpa using hx
    simp [prereqs_of_not_registered dg x this]
  have hneeds : ∀ x, needsOf (relax d.neededBy deps S).1 x
      = ((((prereqs dg x).filter (fun y => decide (y ∉ L ++ [n]))).length : Nat) : Int) := by
    intro x
    rw [h7, hsplit, hcount, hreg]
    cases hx : (dg.deps x).isSome
    · simp [hzero x hx]
    · simp
  have hmemN : ∀ x, x ∈ N ↔ (dg.deps x).isSome ∧
      (((prereqs dg x).filter (fun y => decide (y ∉ L ++ [n]))).length = 0 ∧
        1 ≤ (prereqs dg x).count n) := by
    intro x
    rw [h3, hsplit, hcount, hreg]
    constructor
    · rintro ⟨a, b, c⟩; exact ⟨a, by omega, by omega⟩
    · rintro ⟨a, b, c⟩; exact ⟨a, by omega, by omega⟩
  have hmemLS : ∀ x, x ∈ L ++ n :: S ↔ (dg.deps x).isSome ∧
      (((prereqs dg x).filter (fun y => decide (y ∉ L ++ [n]))).length = 0 ∧
        (prereqs dg x).count n = 0) := by
    intro x
    rw [hinv.mem, ← filter_notin_length_eq_zero, filter_notin_snoc L n hnL]
    constructor
    · rintro ⟨a, b⟩; exact ⟨a, by omega, by omega⟩
    · rintro ⟨a, b, c⟩; exact ⟨a, by omega⟩
  have hS2 : (relax d.neededBy deps S).2 = S ++ N := h1
  refine ⟨?_, ?_, ?_, ?_, ?_, ?_, ?_⟩
  · intro i; rw [constructorOf_clear, h4]; exact hinv.ctor i
  · intro i; rw [interfaceOf_clear, h5]; exact hinv.iface i
  · intro i; rw [needsOf_clear]; exact hneeds i
  · intro i
    rw [neededByOf_clear, h6, hinv.nb]
    by_cases hi : i = n
    · simp [hi]
    · simp [hi]
  · rw [hS2]
    have e : L ++ [n] ++ (S ++ N) = (L ++ n :: S) ++ N := by simp
    rw [e, List.nodup_append]
    refine ⟨hinv.nodup, h2, ?_⟩
    intro x hx hxN
    have a := (hmemLS x).1 hx
    have b := (hmemN x).1 hxN
    omega
  · intro x
    rw [hS2]
    have e : L ++ [n] ++ (S ++ N) = (L ++ n :: S) ++ N := by simp
    rw [e, List.mem_append, hmemLS, hmemN, ← filter_notin_length_eq_zero]
    constructor
    · rintro (⟨a, b, _⟩ | ⟨a, b, _⟩) <;> exact ⟨a, b⟩
    · rintro ⟨a, b⟩
      by_cases hc : (prereqs dg x).count n = 0
      · exact Or.inl ⟨a, b, hc⟩
      · exact Or.inr ⟨a, b, by omega⟩
  · intro x hx y hy
    rcases List.mem_append.1 hx with hxL | hxn
    · have hlt := hinv.order x hxL y hy
      have hyL : y ∈ L := by
        apply List.indexOf_lt_length.1
        have := List.indexOf_le_length (a := x) (l := L)
        omega
      rw [List.indexOf_append_of_mem hyL, List.indexOf_append_of_mem hxL]
      exact hlt
    · have hxn' : x = n := by simpa using hxn
      subst hxn'
      have hyL : y ∈ L := hnpre y hy
      rw [List.indexOf_append_of_mem hyL, List.indexOf_append_of_not_mem hnL]
      have := List.indexOf_lt_length.2 hyL
      omega

theorem traverseInv_length_le (dg : DependencyGraph) (deps1 deps : DepMap) (o S L : List Ident)
    (ho : IterOrder dg.deps o) (hinv : TraverseInv dg deps1 deps S L) :
    (L ++ S).length ≤ o.length := by
  apply List.Subperm.length_le
  apply List.subperm_of_subset hinv.nodup
  intro x hx
  exact (ho.2 x).2 ((hinv.mem x).1 hx).1

/-- With more fuel than there are registered nodes still to output, the loop
of `traverse` runs to the end, and the invariant holds there with an empty
worklist. -/
theorem traverseLoop_inv (dg : DependencyGraph) (deps1 : DepMap) (o : List Ident)
    (hl : Linked dg deps1) (ho : IterOrder dg.deps o) :
    ∀ (fuel : Nat) (deps : DepMap) (S L : List Ident),
      TraverseInv dg deps1 deps S L → o.length + 1 ≤ fuel + L.length →
      ∃ deps2 L2, traverseLoop fuel deps S L = some (deps2, L2) ∧
        TraverseInv dg deps1 deps2 [] L2 := by
  intro fuel
  induction fuel with
  | zero =>
    intro deps S L hinv hfuel
    have := traverseInv_length_le dg deps1 deps o S L ho hinv
    simp only [List.length_append] at this
    omega
  | succ fuel ih =>
    intro deps S L hinv hfuel
    cases S with
    | nil => exact ⟨deps, L, by simp [traverseLoop], hinv⟩
    | cons n S =>
      obtain ⟨d, hd, hstep⟩ := traverseInv_step dg deps1 deps n S L hl hinv
      have hlen := traverseInv_length_le dg deps1 deps o (n :: S) L ho hinv
      have hfuel2 : o.length + 1 ≤ fuel + (L ++ [n]).length := by
        simp only [List.length_append, List.length_singleton]
        omega
      obtain ⟨deps2, L2, h1, h2⟩ := ih _ _ _ hstep hfuel2
      refine ⟨deps2, L2, ?_, h2⟩
      simp only [traverseLoop, hd]
      exact h1

/-- When the worklist is empty, the nodes that still have `needs ≠ 0` are the
registered nodes that were not output. -/
theorem traverseInv_needs_ne_zero (dg : DependencyGraph) (deps1 deps : DepMap) (L : List Ident)
    (hinv : TraverseInv dg deps1 deps [] L) (k : Ident) :
    needsOf deps k ≠ 0 ↔ (dg.deps k).isSome ∧ k ∉ L := by
  have hm := hinv.mem k
  simp only [List.append_nil] at hm
  rw [hinv.needs, hm, ← filter_notin_length_eq_zero]
  cases hk : (dg.deps k).isSome
  · have : dg.deps k = none := by simpa using hk
    simp [prereqs_of_not_registered dg k this]
  · simp

/-- The output of `traverse` never contains a node that lies on a cycle. -/
theorem traverseInv_not_mem_of_cycle (dg : DependencyGraph) (hc : Complete dg)
    (deps1 deps : DepMap) (L : List Ident) (hinv : TraverseInv dg deps1 deps [] L)
    (x : Ident) (hx : Relation.TransGen (Requires dg) x x) : x ∉ L := by
  have key : ∀ a b, Relation.TransGen (Requires dg) a b → a ∈ L →
      b ∈ L ∧ L.indexOf b < L.indexOf a := by
    intro a b hab
    induction hab with
    | single h =>
      intro ha
      have hb := (requires_iff dg hc _ _).1 h
      have hm := ((hinv.mem a).1 (by simpa using ha)).2 _ hb
      exact ⟨hm, hinv.order a ha _ hb⟩
    | tail _ h ih =>
      intro ha
      obtain ⟨hbL, hlt⟩ := ih ha
      have hb := (requires_iff dg hc _ _).1 h
      have hm := ((hinv.mem _).1 (by simpa using hbL)).2 _ hb
      exact ⟨hm, lt_trans (hinv.order _ hbL _ hb) hlt⟩
  intro h
  exact lt_irrefl _ (key x x hx h).2

/-- On an acyclic graph the output of `traverse` contains every registered
node. -/
theorem traverseInv_mem_of_acyclic (dg : DependencyGraph) (hc : Complete dg) (ha : Acyclic dg)
    (o : List Ident) (ho : IterOrder dg.deps o)
    (deps1 deps : DepMap) (L : List Ident) (hinv : TraverseInv dg deps1 deps [] L) :
    ∀ k, (dg.deps k).isSome → k ∈ L := by
  let r : {k // k ∈ o} → {k // k ∈ o} → Prop :=
    fun a b => Relation.TransGen (Requires dg) b.1 a.1
  haveI : IsTrans {k // k ∈ o} r := ⟨fun a b c hab hbc => Relation.TransGen.trans hbc hab⟩
  haveI : IsIrrefl {k // k ∈ o} r := ⟨fun a h => ha a.1 h⟩
  haveI : Finite {k // k ∈ o} := Finite.of_fintype _
  have wf : WellFounded r := Finite.wellFounded_of_trans_of_irrefl r
  by_contra hcon
  push_neg at hcon
  obtain ⟨k, hk, hkL⟩ := hcon
  let U : Set {k // k ∈ o} := {a | a.1 ∉ L}
  have hU : U.Nonempty := ⟨⟨k, (ho.2 k).2 hk⟩, hkL⟩
  obtain ⟨m, hmU, hmin⟩ := wf.has_min U hU
  have hmreg : (dg.deps m.1).isSome := (ho.2 m.1).1 m.2
  have hm := hinv.mem m.1
  simp only [List.append_nil] at hm
  have : ¬ ∀ y ∈ prereqs dg m.1, y ∈ L := fun h => hmU (hm.2 ⟨hmreg, h⟩)
  push_neg at this
  obtain ⟨y, hy, hyL⟩ := this
  have hreq := (requires_iff dg hc m.1 y).2 hy
  have hyo : y ∈ o := (ho.2 y).2 hreq.2.2
  exact hmin ⟨y, hyo⟩ hyL (Relation.TransGen.single hreq)

/-! ## The function `build` -/

theorem buildArgs_length (deps : DepMap) (s : StaticMap) :
    ∀ l : List Ident, (buildArgs deps s l).length = l.length := by
  intro l
  induction l with
  | nil => rfl
  | cons a l ih => simp [buildArgs, ih]

theorem buildArgs_getElem? (deps : DepMap) (s : StaticMap) :
    ∀ (l : List Ident) (i : Nat) (a : Ident), l[i]? = some a →
      (buildArgs deps s l)[i]? = some (match s a with
        | some dv => dv
        | none => interfaceOf deps a) := by
  intro l
  induction l with
  | nil => intro i a h; simp at h
  | cons b l ih =>
    intro i a h
    cases i with
    | zero =>
      simp only [List.getElem?_cons_zero, Option.some.injEq] at h
      subst h
      simp only [buildArgs, List.getElem?_cons_zero, interfaceOf]
    | succ i =>
      simp only [List.getElem?_cons_succ] at h
      simp only [buildArgs, List.getElem?_cons_succ]
      exact ih i a h

/-- The shape of a run of `build` over a duplicate-free list of registered
nodes: the nodes of a prefix `P` are called and each keeps the value its
constructor returned; then either the list is exhausted and there is no
error, or the next node `f` is called, returns a number of values other than
one, and the run stops there with `ErrUnexpectedConstructorContext`. -/
theorem build_shape (s : StaticMap) :
    ∀ (L : List Ident) (deps : DepMap) (calls : List Call),
      L.Nodup → (∀ k ∈ L, (deps k).isSome) →
      ∃ P R new, L = P ++ R ∧ (build s L deps calls).2.1 = calls ++ new ∧
        new.map Prod.fst = P ++ R.take 1 ∧
        (∀ k ∈ P, ∃ c args v, constructorOf deps k = some c ∧ (k, args) ∈ new ∧
          c.call args = [v] ∧ interfaceOf (build s L deps calls).1 k = Value.valid v) ∧
        (∀ y, y ∉ P → interfaceOf (build s L deps calls).1 y = interfaceOf deps y) ∧
        (∀ i, constructorOf (build s L deps calls).1 i = constructorOf deps i) ∧
        (∀ i, needsOf (build s L deps calls).1 i = needsOf deps i) ∧
        (∀ i, neededByOf (build s L deps calls).1 i = neededByOf deps i) ∧
        (((build s L deps calls).2.2 = none ∧ R = []) ∨
          ((build s L deps calls).2.2 = some BuildError.ErrUnexpectedConstructorContext ∧
            ∃ f c args, R.head? = some f ∧ constructorOf deps f = some c ∧
              new.getLast? = some (f, args) ∧ (c.call args).length ≠ 1)) := by
  intro L
  induction L with
  | nil =>
    intro deps calls _ _
    exact ⟨[], [], [], rfl, by simp [build], rfl, by simp, fun _ _ => rfl, fun _ => rfl,
      fun _ => rfl, fun _ => rfl, Or.inl ⟨rfl, rfl⟩⟩
  | cons k L ih =>
    intro deps calls hnd hreg
    have hk := hreg k (List.mem_cons_self _ _)
    obtain ⟨d, hd⟩ := Option.isSome_iff_exists.1 hk
    have hnd' := List.nodup_cons.1 hnd
    have hctor : constructorOf deps k = some d.Constructor := by simp [constructorOf, hd]
    by_cases hone : ∃ r, d.Constructor.call (buildArgs deps s d.Constructor.ins) = [r]
    · obtain ⟨r, hr⟩ := hone
      have e : build s (k :: L) deps calls
          = build s L (setNode deps k (setInterface (Value.valid r)))
              (calls ++ [(k, buildArgs deps s d.Constructor.ins)]) := by
        simp only [build, hd, hr]
      have hreg1 : ∀ j ∈ L, (setNode deps k (setInterface (Value.valid r)) j).isSome := by
        intro j hj; rw [isSome_setNode]; exact hreg j (List.mem_cons_of_mem _ hj)
      obtain ⟨P, R, new, h1, h2, h3, h4, h5, h6, h7, h8, h9⟩ :=
        ih (setNode deps k (setInterface (Value.valid r)))
          (calls ++ [(k, buildArgs deps s d.Constructor.ins)]) hnd'.2 hreg1
      rw [e]
      have hkP : k ∉ P := fun h => hnd'.1 (h1 ▸ List.mem_append_left _ h)
      refine ⟨k :: P, R, (k, buildArgs deps s d.Constructor.ins) :: new, by simp [h1],
        by rw [h2]; simp, by simp [h3], ?_, ?_, ?_, ?_, ?_, ?_⟩
      · intro j hj
        rcases List.mem_cons.1 hj with rfl | hj
        · refine ⟨d.Constructor, _, r, hctor, List.mem_cons_self _ _, hr, ?_⟩
          rw [h5 j hkP, interfaceOf_setInterface _ _ _ _ hk]
          simp
        · obtain ⟨c, args, v, a1, a2, a3, a4⟩ := h4 j hj
          rw [constructorOf_setInterface] at a1
          exact ⟨c, args, v, a1, List.mem_cons_of_mem _ a2, a3, a4⟩
      · intro y hy
        have hyk : y ≠ k := fun e => hy (e ▸ List.mem_cons_self _ _)
        have hyP : y ∉ P := fun h => hy (List.mem_cons_of_mem _ h)
        rw [h5 y hyP, interfaceOf_setInterface _ _ _ _ hk]
        simp [hyk]
      · intro i; rw [h6]; simp
      · intro i; rw [h7]; simp
      · intro i; rw [h8]; simp
      · rcases h9 with h9 | ⟨h9, f, c, args, b1, b2, b3, b4⟩
        · exact Or.inl h9
        · refine Or.inr ⟨h9, f, c, args, b1, ?_, ?_, b4⟩
          · rw [constructorOf_setInterface] at b2; exact b2
          · rw [List.getLast?_cons]
            simp [b3]
    · have e : build s (k :: L) deps calls
          = (deps, calls ++ [(k, buildArgs deps s d.Constructor.ins)],
              some BuildError.ErrUnexpectedConstructorContext) := by
        simp only [build, hd]
        split
        · rename_i r hr; exact absurd ⟨r, hr⟩ hone
        · rfl
      rw [e]
      refine ⟨[], k :: L, [(k, buildArgs deps s d.Constructor.ins)], rfl, rfl, by simp, by simp,
        fun _ _ => rfl, fun _ => rfl, fun _ => rfl, fun _ => rfl, Or.inr ⟨rfl, k, d.Constructor,
          _, rfl, hctor, rfl, ?_⟩⟩
      intro hlen
      obtain ⟨r, hr⟩ := List.length_eq_one.1 hlen
      exact hone ⟨r, hr⟩

theorem traceOK_snoc (dg : DependencyGraph) (calls : List Call) (e : Call)
    (h : TraceOK dg calls) (he : CallOK dg calls e) : TraceOK dg (calls ++ [e]) := by
  intro j hj
  by_cases hlt : j < calls.length
  · have h1 : (calls ++ [e]).take j = calls.take j := by
      rw [List.take_append_of_le_length (Nat.le_of_lt hlt)]
    have h2 : (calls ++ [e]).get ⟨j, hj⟩ = calls.get ⟨j, hlt⟩ := by
      simp only [List.get_eq_getElem]
      exact List.getElem_append_left hlt
    rw [h1, h2]
    exact h j hlt
  · have hj' : j = calls.length := by
      simp only [List.length_append, List.length_singleton] at hj
      omega
    subst hj'
    have h1 : (calls ++ [e]).take calls.length = calls := by simp
    have h2 : (calls ++ [e]).get ⟨calls.length, hj⟩ = e := by
      simp only [List.get_eq_getElem]
      simp
    rw [h1, h2]
    exact he

/-- The call made by `build` for a node whose prerequisites have all been
called, each with one value returned and recorded, is well-argued. -/
theorem callOK_buildArgs (dg : DependencyGraph) (deps : DepMap) (calls : List Call)
    (k : Ident)
    (hpre : ∀ a ∈ prereqs dg k, a ∈ calls.map Prod.fst)
    (hval : ∀ y ∈ calls.map Prod.fst, ∃ c args v, constructorOf dg.deps y = some c ∧
      (y, args) ∈ calls ∧ c.call args = [v] ∧ interfaceOf deps y = Value.valid v) :
    CallOK dg calls (k, buildArgs deps dg.static (insOf dg.deps k)) := by
  refine ⟨buildArgs_length _ _ _, ?_⟩
  intro i a hia
  have hget := buildArgs_getElem? deps dg.static _ i a hia
  constructor
  · intro v hv
    simp only at hget ⊢
    rw [hget, hv]
  · intro hs
    have hmem : a ∈ prereqs dg k := by
      unfold prereqs
      rw [mem_nonStatic]
      exact ⟨List.getElem?_mem hia, hs⟩
    obtain ⟨c, args, v, a1, a2, a3, a4⟩ := hval a (hpre a hmem)
    refine ⟨c, args, v, a1, a2, a3, ?_⟩
    simp only at hget ⊢
    rw [hget, hs, a4]

/-- A run of `build` over a list in which every node comes after its
prerequisites makes only well-argued calls. -/
theorem build_traceOK (dg : DependencyGraph) :
    ∀ (L : List Ident) (deps : DepMap) (calls : List Call),
      (∀ i, constructorOf deps i = constructorOf dg.deps i) →
      (∀ k ∈ L, (deps k).isSome) →
      Ready dg (calls.map Prod.fst) L →
      (∀ y ∈ calls.map Prod.fst, ∃ c args v, constructorOf dg.deps y = some c ∧
        (y, args) ∈ calls ∧ c.call args = [v] ∧ interfaceOf deps y = Value.valid v) →
      TraceOK dg calls → TraceOK dg (build dg.static L deps calls).2.1 := by
  intro L
  induction L with
  | nil => intro deps calls _ _ _ _ h; simpa [build] using h
  | cons k L ih =>
    intro deps calls hctor hreg hready hval htr
    have hk := hreg k (List.mem_cons_self _ _)
    obtain ⟨d, hd⟩ := Option.isSome_iff_exists.1 hk
    have hins : d.Constructor.ins = insOf dg.deps k := by
      rw [← insOf_of_constructorOf hctor, insOf_eq_of_some hd]
    have hcall := callOK_buildArgs dg deps calls k hready.1 hval
    have htr1 := traceOK_snoc dg calls _ htr hcall
    by_cases hone : ∃ r, d.Constructor.call (buildArgs deps dg.static d.Constructor.ins) = [r]
    · obtain ⟨r, hr⟩ := hone
      have e : build dg.static (k :: L) deps calls
          = build dg.static L (setNode deps k (setInterface (Value.valid r)))
              (calls ++ [(k, buildArgs deps dg.static d.Constructor.ins)]) := by
        simp only [build, hd, hr]
      rw [e]
      apply ih
      · intro i; rw [constructorOf_setInterface]; exact hctor i
      · intro j hj; rw [isSome_setNode]; exact hreg j (List.mem_cons_of_mem _ hj)
      · simpa using hready.2
      · intro y hy
        by_cases hyk : y = k
        · subst hyk
          refine ⟨d.Constructor, _, r, ?_, List.mem_append_right _ (List.mem_singleton_self _),
            hr, ?_⟩
          · rw [← hctor]; simp [constructorOf, hd]
          · rw [interfaceOf_setInterface _ _ _ _ hk]; simp
        · have hy' : y ∈ calls.map Prod.fst := by
            simp only [List.map_append, List.map_cons, List.map_nil, List.mem_append,
              List.mem_singleton] at hy
            rcases hy with hy | hy
            · exact hy
            · exact absurd hy hyk
          obtain ⟨c, args, v, a1, a2, a3, a4⟩ := hval y hy'
          refine ⟨c, args, v, a1, List.mem_append_left _ a2, a3, ?_⟩
          rw [interfaceOf_setInterface _ _ _ _ hk]
          simp [hyk, a4]
      · rw [hins]; exact htr1
    · have e : build dg.static (k :: L) deps calls
          = (deps, calls ++ [(k, buildArgs deps dg.static d.Constructor.ins)],
              some BuildError.ErrUnexpectedConstructorContext) := by
        simp only [build, hd]
        split
        · rename_i r hr; exact absurd ⟨r, hr⟩ hone
        · rfl
      rw [e, hins]
      exact htr1

/-- A list in which every node comes after its prerequisites is ready to be
built from nothing. -/
theorem ready_of_order (dg : DependencyGraph) :
    ∀ (L done : List Ident),
      (∀ x ∈ L, ∀ y ∈ prereqs dg x, (done ++ L).indexOf y < (done ++ L).indexOf x) →
      L.Nodup → (∀ x ∈ L, x ∉ done) → Ready dg done L := by
  intro L
  induction L with
  | nil => intro done _ _ _; trivial
  | cons k L ih =>
    intro done hord hnd hdis
    have hnd' := List.nodup_cons.1 hnd
    have hkd : k ∉ done := hdis k (List.mem_cons_self _ _)
    refine ⟨?_, ?_⟩
    · intro a ha
      have hlt := hord k (List.mem_cons_self _ _) a ha
      rw [List.indexOf_append_of_not_mem hkd, List.indexOf_cons_self] at hlt
      by_contra hnot
      rw [List.indexOf_append_of_not_mem hnot] at hlt
      omega
    · apply ih
      · intro x hx y hy
        have := hord x (List.mem_cons_of_mem _ hx) y hy
        simpa using this
      · exact hnd'.2
      · intro x hx hxd
        rcases List.mem_append.1 hxd with h | h
        · exact hdis x (List.mem_cons_of_mem _ hx) h
        · have : x = k := by simpa using h
          exact hnd'.1 (this ▸ hx)

/-! ## Putting `Build` together -/

theorem traverseLoop_mono :
    ∀ (fuel : Nat) (deps : DepMap) (S L : List Ident) (res : DepMap × List Ident),
      traverseLoop fuel deps S L = some res →
      ∀ fuel2, fuel ≤ fuel2 → traverseLoop fuel2 deps S L = some res := by
  intro fuel
  induction fuel with
  | zero => intro deps S L res h; simp [traverseLoop] at h
  | succ fuel ih =>
    intro deps S L res h fuel2 hle
    obtain ⟨f2, rfl⟩ : ∃ f2, fuel2 = f2 + 1 := ⟨fuel2 - 1, by omega⟩
    cases S with
    | nil => simpa [traverseLoop] using h
    | cons n S =>
      cases hd : deps n with
      | none =>
        simp only [traverseLoop, hd] at h ⊢
        exact ih _ _ _ _ h f2 (by omega)
      | some d =>
        simp only [traverseLoop, hd] at h ⊢
        exact ih _ _ _ _ h f2 (by omega)

/-- If `buildGraph` succeeds when it visits every registered node, the graph
is complete. -/
theorem complete_of_buildGraph_ok (dg : DependencyGraph) (o1 : List Ident)
    (ho : IterOrder dg.deps o1) (deps1 : DepMap) (start : List Ident)
    (h : buildGraph dg.deps dg.static o1 = (deps1, .ok start)) : Complete dg := by
  intro k a ha
  by_contra hcon
  have hs : dg.static a = none := by
    cases hsa : dg.static a with
    | none => rfl
    | some v => exact absurd (Or.inl (by simp [hsa])) hcon
  have hda : dg.deps a = none := by
    cases hd : dg.deps a with
    | none => rfl
    | some v => exact absurd (Or.inr (by simp [hd])) hcon
  have hk : k ∈ o1 := by
    rw [ho.2]
    cases hd : dg.deps k with
    | none => simp [insOf, hd] at ha
    | some d => rfl
  have := buildGraphLoop_error dg.static o1 dg.deps [] ⟨k, hk, a, ha, hs, hda⟩
  unfold buildGraph at h
  rw [h] at this
  simp at this

/-- On a freshly registered graph, whenever `buildGraph` succeeds and the loop
of `traverse` returns, the loop invariant holds for what it returns. -/
theorem sorted_of_fresh (dg : DependencyGraph) (o1 : List Ident) (fuel : Nat)
    (hf : Fresh dg.deps) (ho : IterOrder dg.deps o1)
    (deps1 deps2 : DepMap) (start L : List Ident)
    (hbg : buildGraph dg.deps dg.static o1 = (deps1, .ok start))
    (htl : traverseLoop fuel deps1 start [] = some (deps2, L)) :
    Complete dg ∧ Linked dg deps1 ∧ TraverseInv dg deps1 deps2 [] L := by
  have hc := complete_of_buildGraph_ok dg o1 ho deps1 start hbg
  obtain ⟨deps1', start', h1, h2, -, h4⟩ := buildGraph_fresh dg o1 hf hc ho
  rw [hbg] at h1
  simp only [Prod.mk.injEq, Except.ok.injEq] at h1
  obtain ⟨rfl, rfl⟩ := h1
  refine ⟨hc, h2, ?_⟩
  have hinit := traverseInv_init dg deps1 o1 ho h2
  rw [← h4] at hinit
  obtain ⟨deps3, L3, h5, h6⟩ := traverseLoop_inv dg deps1 o1 h2 ho (fuel + o1.length + 1)
    deps1 start [] hinit (by simp only [List.length_nil]; omega)
  have := traverseLoop_mono fuel deps1 start [] _ htl (fuel + o1.length + 1) (by omega)
  rw [this] at h5
  simp only [Option.some.injEq, Prod.mk.injEq] at h5
  obtain ⟨rfl, rfl⟩ := h5
  exact h6

/-- On a freshly registered complete graph, with more fuel than registered
nodes, `buildGraph` succeeds and the loop of `traverse` returns. -/
theorem sorts_of_fresh_complete (dg : DependencyGraph) (o1 : List Ident) (fuel : Nat)
    (hf : Fresh dg.deps) (hc : Complete dg) (ho : IterOrder dg.deps o1)
    (hfuel : o1.length < fuel) :
    ∃ deps1 start deps2 L, buildGraph dg.deps dg.static o1 = (deps1, .ok start) ∧
      traverseLoop fuel deps1 start [] = some (deps2, L) ∧
      Linked dg deps1 ∧ TraverseInv dg deps1 deps2 [] L := by
  obtain ⟨deps1, start, h1, h2, -, h4⟩ := buildGraph_fresh dg o1 hf hc ho
  have hinit := traverseInv_init dg deps1 o1 ho h2
  rw [← h4] at hinit
  obtain ⟨deps2, L, h5, h6⟩ := traverseLoop_inv dg deps1 o1 h2 ho fuel
    deps1 start [] hinit (by simp only [List.length_nil]; omega)
  exact ⟨deps1, start, deps2, L, h1, h5, h2, h6⟩

/-- The output of a finished `traverse` loop is duplicate-free, holds only
registered nodes, and is ready to be built. -/
theorem order_facts (dg : DependencyGraph) (deps1 deps2 : DepMap) (L : List Ident)
    (hinv : TraverseInv dg deps1 deps2 [] L) :
    L.Nodup ∧ (∀ k ∈ L, (deps2 k).isSome) ∧ Ready dg [] L := by
  have hnd : L.Nodup := by simpa using hinv.nodup
  refine ⟨hnd, ?_, ?_⟩
  · intro k hk
    rw [registered_iff_of_ctor hinv.ctor]
    exact ((hinv.mem k).1 (by simpa using hk)).1
  · apply ready_of_order dg L [] _ hnd (fun _ _ => by simp)
    intro x hx y hy
    simpa using hinv.order x hx y hy

/-- When `hasEdges` finds nothing after the loop, every registered node is in
the output. -/
theorem perm_of_no_edges (dg : DependencyGraph) (o1 o2 : List Ident)
    (ho1 : IterOrder dg.deps o1) (ho2 : IterOrder dg.deps o2)
    (deps1 deps2 : DepMap) (L : List Ident)
    (hinv : TraverseInv dg deps1 deps2 [] L) (hno : hasEdges deps2 o2 = false) :
    L.Perm o1 := by
  have hnd : L.Nodup := by simpa using hinv.nodup
  rw [List.perm_ext_iff_of_nodup hnd ho1.1]
  intro k
  constructor
  · intro hk
    exact (ho1.2 k).2 ((hinv.mem k).1 (by simpa using hk)).1
  · intro hk
    by_contra hkL
    have hreg := (ho1.2 k).1 hk
    have hne := (traverseInv_needs_ne_zero dg deps1 deps2 L hinv k).2 ⟨hreg, hkL⟩
    have : hasEdges deps2 o2 = true := (hasEdges_iff deps2 o2).2 ⟨k, (ho2.2 k).2 hreg, hne⟩
    rw [hno] at this
    simp at this

/-! ## Facts about registration, used for the example graphs -/

theorem fresh_New : Fresh New.deps := by
  intro k; simp [New, needsOf, neededByOf]

theorem fresh_AddDep (dg : DependencyGraph) (i : Ident) (c : Func) (h : Fresh dg.deps) :
    Fresh (AddDep dg i c).deps := by
  intro k
  by_cases hk : k = i
  · simp [AddDep, needsOf, neededByOf, hk]
  · have := h k
    simpa [AddDep, needsOf, neededByOf, hk] using this

theorem fresh_AddStatic (dg : DependencyGraph) (t : Ident) (v : Value) (h : Fresh dg.deps) :
    Fresh (AddStatic dg t v).deps := h

theorem allUnary_New : AllUnary New.deps := by
  intro k d args h; simp [New] at h

theorem allUnary_AddDep (dg : DependencyGraph) (i : Ident) (ins : List Ident) (r : Nat)
    (h : AllUnary dg.deps) : AllUnary (AddDep dg i (unary ins r)).deps := by
  intro k d args hd
  by_cases hk : k = i
  · simp only [AddDep, hk, if_true, Option.some.injEq] at hd
    subst hd
    rfl
  · simp only [AddDep, hk, if_false] at hd
    exact h k d args hd

theorem allUnary_AddStatic (dg : DependencyGraph) (t : Ident) (v : Value)
    (h : AllUnary dg.deps) : AllUnary (AddStatic dg t v).deps := h

/-- Completeness can be checked on the keys of an iteration order. -/
theorem complete_of_forall_mem (dg : DependencyGraph) (o : List Ident)
    (ho : IterOrder dg.deps o)
    (h : ∀ k ∈ o, ∀ a ∈ insOf dg.deps k, (dg.static a).isSome ∨ (dg.deps a).isSome) :
    Complete dg := by
  intro k a ha
  apply h k _ a ha
  rw [ho.2]
  cases hd : dg.deps k with
  | none => simp [insOf, hd] at ha
  | some d => rfl

/-- A graph is acyclic when some rank decreases along every requirement edge. -/
theorem acyclic_of_rank (dg : DependencyGraph) (rank : Ident → Nat) (o : List Ident)
    (ho : IterOrder dg.deps o)
    (h : ∀ k ∈ o, ∀ a ∈ insOf dg.deps k, dg.static a = none → (dg.deps a).isSome →
      rank a < rank k) : Acyclic dg := by
  have step : ∀ x y, Requires dg x y → rank y < rank x := by
    intro x y ⟨h1, h2, h3⟩
    apply h x _ y h1 h2 h3
    rw [ho.2]
    cases hd : dg.deps x with
    | none => simp [insOf, hd] at h1
    | some d => rfl
  have trans : ∀ x y, Relation.TransGen (Requires dg) x y → rank y < rank x := by
    intro x y hxy
    induction hxy with
    | single h => exact step _ _ h
    | tail _ h ih => exact lt_trans (step _ _ h) ih
  intro x hx
  exact lt_irrefl _ (trans x x hx)

/-- Any rearrangement of an iteration order is an iteration order. -/
theorem iterOrder_perm {deps : DepMap} {o o2 : List Ident} (h : IterOrder deps o)
    (p : o.Perm o2) : IterOrder deps o2 :=
  ⟨p.nodup_iff.1 h.1, fun k => (p.mem_iff.symm).trans (h.2 k)⟩

theorem iterOrder_graph1 : IterOrder graph1.deps [0, 1, 2, 3] := by
  refine ⟨by decide, fun k => ?_⟩
  simp only [graph1, AddDep, AddStatic, New]
  by_cases h3 : k = 3
  · simp [h3]
  by_cases h2 : k = 2
  · simp [h2]
  by_cases h1 : k = 1
  · simp [h1]
  by_cases h0 : k = 0
  · simp [h0]
  simp [h0, h1, h2, h3]

theorem iterOrder_graph1_rev : IterOrder graph1.deps [3, 2, 1, 0] :=
  iterOrder_perm iterOrder_graph1 (by decide)

theorem fresh_graph1 : Fresh graph1.deps :=
  fresh_AddDep _ _ _ (fresh_AddDep _ _ _ (fresh_AddDep _ _ _ (fresh_AddDep _ _ _
    (fresh_AddStatic _ _ _ fresh_New))))

theorem allUnary_graph1 : AllUnary graph1.deps :=
  allUnary_AddDep _ _ _ _ (allUnary_AddDep _ _ _ _ (allUnary_AddDep _ _ _ _
    (allUnary_AddDep _ _ _ _ (allUnary_AddStatic _ _ _ allUnary_New))))

theorem complete_graph1 : Complete graph1 :=
  complete_of_forall_mem graph1 [0, 1, 2, 3] iterOrder_graph1 (by decide)

theorem acyclic_graph1 : Acyclic graph1 :=
  acyclic_of_rank graph1 rank1 [0, 1, 2, 3] iterOrder_graph1 (by decide)

/-! ## Unfolding `Build` -/

theorem Build_of_buildGraph_error (fuel : Nat) (o1 o2 : List Ident) (dg : DependencyGraph)
    (deps1 : DepMap) (e : BuildError)
    (hbg : buildGraph dg.deps dg.static o1 = (deps1, .error e)) :
    Build fuel o1 o2 dg = some ⟨⟨deps1, dg.static⟩, [], some e⟩ := by
  simp [Build, hbg]

theorem Build_of_edges (fuel : Nat) (o1 o2 : List Ident) (dg : DependencyGraph)
    (deps1 deps2 : DepMap) (start L : List Ident)
    (hbg : buildGraph dg.deps dg.static o1 = (deps1, .ok start))
    (htl : traverseLoop fuel deps1 start [] = some (deps2, L))
    (hed : hasEdges deps2 o2 = true) :
    Build fuel o1 o2 dg = some ⟨⟨deps2, dg.static⟩, [], some BuildError.ErrNotDAG⟩ := by
  simp [Build, hbg, traverse, htl, hed]

theorem Build_of_no_edges (fuel : Nat) (o1 o2 : List Ident) (dg : DependencyGraph)
    (deps1 deps2 : DepMap) (start L : List Ident)
    (hbg : buildGraph dg.deps dg.static o1 = (deps1, .ok start))
    (htl : traverseLoop fuel deps1 start [] = some (deps2, L))
    (hed : hasEdges deps2 o2 = false) :
    Build fuel o1 o2 dg = some ⟨⟨(build dg.static L deps2 []).1, dg.static⟩,
      (build dg.static L deps2 []).2.1, (build dg.static L deps2 []).2.2⟩ ∧
    traverse fuel deps1 o2 start = some (deps2, .ok L) := by
  simp [Build, hbg, traverse, htl, hed]

/-- The three ways in which `Build` returns. -/
theorem Build_cases (fuel : Nat) (o1 o2 : List Ident) (dg : DependencyGraph) (r : BuildResult)
    (h : Build fuel o1 o2 dg = some r) :
    (∃ deps1 e, buildGraph dg.deps dg.static o1 = (deps1, .error e) ∧
      r = ⟨⟨deps1, dg.static⟩, [], some e⟩) ∨
    (∃ deps1 start deps2 L, buildGraph dg.deps dg.static o1 = (deps1, .ok start) ∧
      traverseLoop fuel deps1 start [] = some (deps2, L) ∧
      ((hasEdges deps2 o2 = true ∧
          r = ⟨⟨deps2, dg.static⟩, [], some BuildError.ErrNotDAG⟩) ∨
       (hasEdges deps2 o2 = false ∧
          traverse fuel deps1 o2 start = some (deps2, .ok L) ∧
          r = ⟨⟨(build dg.static L deps2 []).1, dg.static⟩,
            (build dg.static L deps2 []).2.1, (build dg.static L deps2 []).2.2⟩))) := by
  rcases hbg : buildGraph dg.deps dg.static o1 with ⟨deps1, res⟩
  cases res with
  | error e =>
    left
    rw [Build_of_buildGraph_error fuel o1 o2 dg deps1 e hbg] at h
    exact ⟨deps1, e, rfl, (Option.some.inj h).symm⟩
  | ok start =>
    right
    cases htl : traverseLoop fuel deps1 start [] with
    | none => simp [Build, hbg, traverse, htl] at h
    | some p =>
      obtain ⟨deps2, L⟩ := p
      refine ⟨deps1, start, deps2, L, rfl, htl, ?_⟩
      cases hed : hasEdges deps2 o2 with
      | true =>
        left
        rw [Build_of_edges fuel o1 o2 dg deps1 deps2 start L hbg htl hed] at h
        exact ⟨rfl, (Option.some.inj h).symm⟩
      | false =>
        right
        have := Build_of_no_edges fuel o1 o2 dg deps1 deps2 start L hbg htl hed
        rw [this.1] at h
        exact ⟨rfl, this.2, (Option.some.inj h).symm⟩

/-- On a freshly registered, complete and acyclic graph `hasEdges` finds
nothing after the loop of `traverse`. -/
theorem no_edges_of_acyclic (dg : DependencyGraph) (hc : Complete dg) (ha : Acyclic dg)
    (o1 o2 : List Ident) (ho1 : IterOrder dg.deps o1)
    (deps1 deps2 : DepMap) (L : List Ident) (hinv : TraverseInv dg deps1 deps2 [] L) :
    hasEdges deps2 o2 = false := by
  cases hed : hasEdges deps2 o2 with
  | false => rfl
  | true =>
    obtain ⟨k, -, hk⟩ := (hasEdges_iff deps2 o2).1 hed
    have := (traverseInv_needs_ne_zero dg deps1 deps2 L hinv k).1 hk
    exact absurd (traverseInv_mem_of_acyclic dg hc ha o1 ho1 deps1 deps2 L hinv k this.1) this.2

theorem registered_of_mem_insOf {deps : DepMap} {k a : Ident} (h : a ∈ insOf deps k) :
    (deps k).isSome := by
  cases hd : deps k with
  | none => simp [insOf, hd] at h
  | some d => rfl

theorem exists_of_constructorOf {deps : DepMap} {k : Ident} {c : Func}
    (h : constructorOf deps k = some c) : ∃ d, deps k = some d ∧ d.Constructor = c := by
  unfold constructorOf at h
  cases hd : deps k with
  | none => simp [hd] at h
  | some d => exact ⟨d, rfl, by simpa [hd] using h⟩

/-- If `y` is found strictly before `x` in `L`, then `L` splits around them. -/
theorem split_of_indexOf_lt (x y : Ident) :
    ∀ L : List Ident, x ∈ L → L.indexOf y < L.indexOf x →
      ∃ l1 l2 l3, L = l1 ++ y :: (l2 ++ x :: l3) := by
  intro L
  induction L with
  | nil => intro h; simp at h
  | cons a t ih =>
    intro hx hlt
    have hax : a ≠ x := by
      rintro rfl
      simp at hlt
    have hxt : x ∈ t := by
      rcases List.mem_cons.1 hx with h | h
      · exact absurd h.symm hax
      · exact h
    by_cases hay : a = y
    · subst hay
      obtain ⟨l2, l3, h⟩ := List.append_of_mem hxt
      exact ⟨[], l2, l3, by simp [h]⟩
    · rw [List.indexOf_cons_ne _ hay, List.indexOf_cons_ne _ hax] at hlt
      obtain ⟨l1, l2, l3, h⟩ := ih hxt (by omega)
      exact ⟨a :: l1, l2, l3, by simp [h]⟩

/-! ## The claims -/

/-- C1: on a freshly registered graph whose required identities are all static
or registered, whose non-static requirement edges are acyclic and whose
constructors all return exactly one value, `Build` returns no error for every
iteration order of the node map, and afterwards every registered node holds
the value its constructor returned. -/
theorem build_succeeds_on_complete_acyclic (dg : DependencyGraph) (o1 o2 : List Ident)
    (fuel : Nat) (hfresh : Fresh dg.deps) (hcomp : Complete dg) (hacyc : Acyclic dg)
    (hun : AllUnary dg.deps) (ho1 : IterOrder dg.deps o1) (hfuel : o1.length < fuel) :
    ∃ r, Build fuel o1 o2 dg = some r ∧ r.err = none ∧
      ∀ k, (dg.deps k).isSome →
        ∃ c args v, constructorOf dg.deps k = some c ∧ (k, args) ∈ r.calls ∧
          c.call args = [v] ∧ interfaceOf r.graph.deps k = Value.valid v := by
  obtain ⟨deps1, start, deps2, L, hbg, htl, -, hinv⟩ :=
    sorts_of_fresh_complete dg o1 fuel hfresh hcomp ho1 hfuel
  have hed := no_edges_of_acyclic dg hcomp hacyc o1 o2 ho1 deps1 deps2 L hinv
  obtain ⟨hB, -⟩ := Build_of_no_edges fuel o1 o2 dg deps1 deps2 start L hbg htl hed
  obtain ⟨hnd, hreg, -⟩ := order_facts dg deps1 deps2 L hinv
  obtain ⟨P, R, new, h1, h2, -, h4, -, -, -, -, h9⟩ := build_shape dg.static L deps2 [] hnd hreg
  refine ⟨_, hB, ?_, ?_⟩
  · rcases h9 with h9 | ⟨-, f, c, args, -, b2, -, b4⟩
    · exact h9.1
    · rw [hinv.ctor] at b2
      obtain ⟨d, hd, rfl⟩ := exists_of_constructorOf b2
      exact absurd (hun f d args hd) b4
  · intro k hk
    have hkL := traverseInv_mem_of_acyclic dg hcomp hacyc o1 ho1 deps1 deps2 L hinv k hk
    have hR : R = [] := by
      rcases h9 with h9 | ⟨-, f, c, args, -, b2, -, b4⟩
      · exact h9.2
      · rw [hinv.ctor] at b2
        obtain ⟨d, hd, rfl⟩ := exists_of_constructorOf b2
        exact absurd (hun f d args hd) b4
    have hkP : k ∈ P := by simpa [h1, hR] using hkL
    obtain ⟨c, args, v, a1, a2, a3, a4⟩ := h4 k hkP
    rw [hinv.ctor] at a1
    refine ⟨c, args, v, a1, ?_, a3, a4⟩
    simp only [h2, List.nil_append]
    exact a2

theorem build_succeeds_on_complete_acyclic_witness :
    (Fresh graph1.deps ∧ Complete graph1 ∧ Acyclic graph1 ∧ AllUnary graph1.deps ∧
      IterOrder graph1.deps [0, 1, 2, 3]) ∧
    ∃ r, Build 5 [0, 1, 2, 3] [3, 2, 1, 0] graph1 = some r ∧ r.err = none ∧
      ∀ k, (graph1.deps k).isSome →
        ∃ c args v, constructorOf graph1.deps k = some c ∧ (k, args) ∈ r.calls ∧
          c.call args = [v] ∧ interfaceOf r.graph.deps k = Value.valid v :=
  ⟨⟨fresh_graph1, complete_graph1, acyclic_graph1, allUnary_graph1, iterOrder_graph1⟩,
    build_succeeds_on_complete_acyclic graph1 [0, 1, 2, 3] [3, 2, 1, 0] 5 fresh_graph1
      complete_graph1 acyclic_graph1 allUnary_graph1 iterOrder_graph1 (by decide)⟩

theorem iterOrder_New : IterOrder New.deps [] :=
  ⟨List.nodup_nil, fun k => by simp [New]⟩

theorem iterOrder_AddDep {dg : DependencyGraph} {o : List Ident} (i : Ident) (c : Func)
    (h : IterOrder dg.deps o) (hi : i ∉ o) : IterOrder (AddDep dg i c).deps (i :: o) := by
  refine ⟨List.nodup_cons.2 ⟨hi, h.1⟩, fun k => ?_⟩
  by_cases hk : k = i
  · simp [AddDep, hk]
  · simp [AddDep, hk, h.2 k]

theorem iterOrder_cycle1 : IterOrder cycle1.deps [2, 3, 0, 1] :=
  iterOrder_AddDep _ _ (iterOrder_AddDep _ _ (iterOrder_AddDep _ _
    (iterOrder_AddDep _ _ iterOrder_New (by decide)) (by decide)) (by decide)) (by decide)

theorem fresh_cycle1 : Fresh cycle1.deps :=
  fresh_AddDep _ _ _ (fresh_AddDep _ _ _ (fresh_AddDep _ _ _ (fresh_AddDep _ _ _ fresh_New)))

theorem complete_cycle1 : Complete cycle1 :=
  complete_of_forall_mem cycle1 [2, 3, 0, 1] iterOrder_cycle1 (by decide)

theorem iterOrder_selfLoop : IterOrder selfLoop.deps [0] :=
  iterOrder_AddDep _ _ iterOrder_New (by decide)

theorem iterOrder_cycleAndMissing : IterOrder cycleAndMissing.deps [2, 1, 0] :=
  iterOrder_AddDep _ _ (iterOrder_AddDep _ _ (iterOrder_AddDep _ _ iterOrder_New
    (by decide)) (by decide)) (by decide)

/-- C3: on a freshly registered graph whose required identities are all static
or registered and in which some node reaches itself along non-static
requirement edges (a ring of nodes, or a node that requires its own
identity), `Build` fails with `ErrNotDAG` for every iteration order of the
node map. -/
theorem build_fails_on_cycle (dg : DependencyGraph) (o1 o2 : List Ident) (fuel : Nat)
    (hfresh : Fresh dg.deps) (hcomp : Complete dg) (x : Ident)
    (hcyc : Relation.TransGen (Requires dg) x x)
    (ho1 : IterOrder dg.deps o1) (ho2 : IterOrder dg.deps o2) (hfuel : o1.length < fuel) :
    ∃ r, Build fuel o1 o2 dg = some r ∧ r.err = some BuildError.ErrNotDAG := by
  obtain ⟨deps1, start, deps2, L, hbg, htl, -, hinv⟩ :=
    sorts_of_fresh_complete dg o1 fuel hfresh hcomp ho1 hfuel
  have hxL := traverseInv_not_mem_of_cycle dg hcomp deps1 deps2 L hinv x hcyc
  have hxreg : (dg.deps x).isSome := by
    rcases Relation.TransGen.head'_iff.1 hcyc with ⟨y, hy, -⟩
    exact registered_of_mem_insOf hy.1
  have hne := (traverseInv_needs_ne_zero dg deps1 deps2 L hinv x).2 ⟨hxreg, hxL⟩
  have hed : hasEdges deps2 o2 = true :=
    (hasEdges_iff deps2 o2).2 ⟨x, (ho2.2 x).2 hxreg, hne⟩
  exact ⟨_, Build_of_edges fuel o1 o2 dg deps1 deps2 start L hbg htl hed, rfl⟩

theorem build_fails_on_cycle_witness :
    (Fresh cycle1.deps ∧ Complete cycle1 ∧ Relation.TransGen (Requires cycle1) 0 0 ∧
      IterOrder cycle1.deps [2, 3, 0, 1] ∧ IterOrder cycle1.deps [0, 1, 2, 3]) ∧
    ∃ r, Build 5 [2, 3, 0, 1] [0, 1, 2, 3] cycle1 = some r ∧
      r.err = some BuildError.ErrNotDAG :=
  have h01 : Requires cycle1 0 1 := by unfold Requires; decide
  have h12 : Requires cycle1 1 2 := by unfold Requires; decide
  have h23 : Requires cycle1 2 3 := by unfold Requires; decide
  have h30 : Requires cycle1 3 0 := by unfold Requires; decide
  have hc : Relation.TransGen (Requires cycle1) 0 0 :=
    (((Relation.TransGen.single h01).tail h12).tail h23).tail h30
  ⟨⟨fresh_cycle1, complete_cycle1, hc, iterOrder_cycle1,
      iterOrder_perm iterOrder_cycle1 (by decide)⟩,
    build_fails_on_cycle cycle1 [2, 3, 0, 1] [0, 1, 2, 3] 5 fresh_cycle1 complete_cycle1 0 hc
      iterOrder_cycle1 (iterOrder_perm iterOrder_cycle1 (by decide)) (by decide)⟩

/-- C4: on every graph in which some registered constructor has a parameter
type that is neither static nor registered, `Build` fails with
`ErrIncompleteDependencyGraph` for every iteration order of the node map,
calls no constructor and changes no node's value, whether or not the graph
also has a cycle. -/
theorem build_fails_on_missing (dg : DependencyGraph) (o1 o2 : List Ident) (fuel : Nat)
    (ho1 : IterOrder dg.deps o1) (k a : Ident) (hka : a ∈ insOf dg.deps k)
    (hs : dg.static a = none) (hd : dg.deps a = none) :
    ∃ r, Build fuel o1 o2 dg = some r ∧
      r.err = some BuildError.ErrIncompleteDependencyGraph ∧ r.calls = [] ∧
      ∀ i, interfaceOf r.graph.deps i = interfaceOf dg.deps i := by
  have hk : k ∈ o1 := (ho1.2 k).2 (registered_of_mem_insOf hka)
  have herr := buildGraphLoop_error dg.static o1 dg.deps [] ⟨k, hk, a, hka, hs, hd⟩
  have hfr := (buildGraphLoop_frame dg.static o1 dg.deps []).2
  rcases hbg : buildGraph dg.deps dg.static o1 with ⟨deps1, res⟩
  unfold buildGraph at hbg
  rw [hbg] at herr hfr
  simp only at herr
  subst herr
  exact ⟨_, Build_of_buildGraph_error fuel o1 o2 dg deps1 _ hbg, rfl, rfl, hfr⟩

theorem build_fails_on_missing_witness :
    (IterOrder cycleAndMissing.deps [0, 1, 2] ∧ 9 ∈ insOf cycleAndMissing.deps 2 ∧
      cycleAndMissing.static 9 = none ∧ cycleAndMissing.deps 9 = none ∧
      Relation.TransGen (Requires cycleAndMissing) 0 0) ∧
    ∃ r, Build 0 [0, 1, 2] [] cycleAndMissing = some r ∧
      r.err = some BuildError.ErrIncompleteDependencyGraph ∧ r.calls = [] ∧
      ∀ i, interfaceOf r.graph.deps i = interfaceOf cycleAndMissing.deps i :=
  have h01 : Requires cycleAndMissing 0 1 := by unfold Requires; decide
  have h10 : Requires cycleAndMissing 1 0 := by unfold Requires; decide
  ⟨⟨iterOrder_perm iterOrder_cycleAndMissing (by decide), by decide, by decide, rfl,
      (Relation.TransGen.single h01).tail h10⟩,
    build_fails_on_missing cycleAndMissing [0, 1, 2] [] 0
      (iterOrder_perm iterOrder_cycleAndMissing (by decide)) 2 9 (by decide) (by decide)
      rfl⟩

theorem traverse_ok_inv (fuel : Nat) (deps1 deps2 : DepMap) (o2 start order : List Ident)
    (h : traverse fuel deps1 o2 start = some (deps2, .ok order)) :
    traverseLoop fuel deps1 start [] = some (deps2, order) ∧ hasEdges deps2 o2 = false := by
  unfold traverse at h
  cases htl : traverseLoop fuel deps1 start [] with
  | none => simp [htl] at h
  | some p =>
    obtain ⟨d, L⟩ := p
    cases hed : hasEdges d o2 with
    | true => simp [htl, hed] at h
    | false =>
      simp only [htl, hed, Bool.false_eq_true, if_false, Option.some.injEq, Prod.mk.injEq,
        Except.ok.injEq] at h
      obtain ⟨rfl, rfl⟩ := h
      exact ⟨rfl, hed⟩

/-- The counterexample to C5 as stated: graph construction and sorting succeed
on a freshly registered graph with the two nodes 0 and 1, but `Build` calls
only the constructor of node 0, which returns no value, and never that of
node 1. -/
theorem not_every_constructor_called :
    Fresh nullaryAndUnary.deps ∧ IterOrder nullaryAndUnary.deps [0, 1] ∧
    (buildGraph nullaryAndUnary.deps nullaryAndUnary.static [0, 1]).2 = .ok [0, 1] ∧
    (traverse 5 (buildGraph nullaryAndUnary.deps nullaryAndUnary.static [0, 1]).1 [0, 1]
      [0, 1]).map Prod.snd = some (.ok [0, 1]) ∧
    (Build 5 [0, 1] [0, 1] nullaryAndUnary).map (fun r => (r.err, r.calls.map Prod.fst))
      = some (some BuildError.ErrUnexpectedConstructorContext, [0]) :=
  ⟨fresh_AddDep _ _ _ (fresh_AddDep _ _ _ fresh_New),
    iterOrder_perm (iterOrder_AddDep _ _ (iterOrder_AddDep _ _ iterOrder_New (by decide))
      (by decide)) (by decide),
    rfl, rfl, by decide⟩

/-- C5, amended: on a freshly registered graph on which graph construction and
sorting succeed, the order returned by `traverse` is a rearrangement of the
registered keys (every node exactly once, also when a constructor names the
same non-static identity in several parameter positions); `Build` calls the
constructors along a prefix of that order, hence each at most once, and along
the whole order, hence each exactly once, when it returns no error. -/
theorem order_is_permutation (dg : DependencyGraph) (o1 o2 : List Ident) (fuel : Nat)
    (deps1 deps2 : DepMap) (start order : List Ident)
    (hfresh : Fresh dg.deps) (ho1 : IterOrder dg.deps o1) (ho2 : IterOrder dg.deps o2)
    (hbg : buildGraph dg.deps dg.static o1 = (deps1, .ok start))
    (htr : traverse fuel deps1 o2 start = some (deps2, .ok order)) :
    order.Perm o1 ∧
    ∃ r, Build fuel o1 o2 dg = some r ∧ r.calls.map Prod.fst <+: order ∧
      (r.err = none → r.calls.map Prod.fst = order) := by
  obtain ⟨htl, hed⟩ := traverse_ok_inv fuel deps1 deps2 o2 start order htr
  obtain ⟨-, -, hinv⟩ := sorted_of_fresh dg o1 fuel hfresh ho1 deps1 deps2 start order hbg htl
  obtain ⟨hnd, hreg, -⟩ := order_facts dg deps1 deps2 order hinv
  obtain ⟨P, R, new, h1, h2, h3, -, -, -, -, -, h9⟩ :=
    build_shape dg.static order deps2 [] hnd hreg
  obtain ⟨hB, -⟩ := Build_of_no_edges fuel o1 o2 dg deps1 deps2 start order hbg htl hed
  refine ⟨perm_of_no_edges dg o1 o2 ho1 ho2 deps1 deps2 order hinv hed, _, hB, ?_, ?_⟩
  · simp only [h2, List.nil_append, h3]
    rw [h1]
    exact (List.prefix_append_right_inj P).2 (List.take_prefix 1 R)
  · intro herr
    simp only [h2, List.nil_append, h3]
    rcases h9 with h9 | ⟨h9, -⟩
    · simp [h1, h9.2]
    · simp only at herr; rw [h9] at herr; simp at herr

theorem order_is_permutation_witness :
    ∃ deps1 deps2,
      (Fresh doubleEdge.deps ∧ IterOrder doubleEdge.deps [1, 0] ∧
        IterOrder doubleEdge.deps [0, 1] ∧
        buildGraph doubleEdge.deps doubleEdge.static [1, 0] = (deps1, .ok [0]) ∧
        traverse 5 deps1 [0, 1] [0] = some (deps2, .ok [0, 1])) ∧
      ([0, 1].Perm [1, 0] ∧
        ∃ r, Build 5 [1, 0] [0, 1] doubleEdge = some r ∧ r.calls.map Prod.fst <+: [0, 1] ∧
          (r.err = none → r.calls.map Prod.fst = [0, 1])) :=
  have hf : Fresh doubleEdge.deps := fresh_AddDep _ _ _ (fresh_AddDep _ _ _ fresh_New)
  have ho : IterOrder doubleEdge.deps [1, 0] :=
    iterOrder_AddDep _ _ (iterOrder_AddDep _ _ iterOrder_New (by decide)) (by decide)
  ⟨(buildGraph doubleEdge.deps doubleEdge.static [1, 0]).1,
    ((traverse 5 (buildGraph doubleEdge.deps doubleEdge.static [1, 0]).1
      [0, 1] [0]).get (by decide)).1,
    ⟨hf, ho, iterOrder_perm ho (by decide), rfl, rfl⟩,
    order_is_permutation doubleEdge [1, 0] [0, 1] 5 _ _ [0] [0, 1] hf ho
      (iterOrder_perm ho (by decide)) rfl rfl⟩

/-- The outer loop of `buildGraph` never touches the `neededBy` list of a node
whose identity is static. -/
theorem buildGraphLoop_static_neededBy (s : StaticMap) (T : Ident) (hT : (s T).isSome) :
    ∀ (ks : List Ident) (deps : DepMap) (start : List Ident),
      neededByOf (buildGraphLoop s ks deps start).1 T = neededByOf deps T := by
  intro ks
  induction ks with
  | nil => intro deps start; simp [buildGraphLoop]
  | cons k ks ih =>
    intro deps start
    cases hd : deps k with
    | none => simpa [buildGraphLoop, hd] using ih deps start
    | some d =>
      obtain ⟨pre, -, -, -, -, -, -, hb⟩ :=
        buildGraphParams_spec s k d.Constructor.ins deps (by simp [hd])
      have hbT := hb T
      have hnot : T ∉ nonStatic s pre := by
        rw [mem_nonStatic]
        rintro ⟨-, h⟩
        simp [h] at hT
      rw [List.count_eq_zero_of_not_mem hnot] at hbT
      simp only [List.replicate_zero, List.append_nil] at hbT
      rcases hp : buildGraphParams s k d.Constructor.ins deps with ⟨deps1, b⟩
      rw [hp] at hbT
      cases b with
      | false => simpa [buildGraphLoop, hd, hp] using hbT
      | true =>
        cases hd1 : deps1 k with
        | none =>
          simp only [buildGraphLoop, hd, hp, hd1]
          exact (ih deps1 start).trans hbT
        | some d1 =>
          simp only [buildGraphLoop, hd, hp, hd1]
          split
          · exact (ih deps1 _).trans hbT
          · exact (ih deps1 _).trans hbT

/-- The loop of `traverse` never changes a constructor. -/
theorem traverseLoop_ctor :
    ∀ (fuel : Nat) (deps : DepMap) (S L : List Ident) (res : DepMap × List Ident),
      traverseLoop fuel deps S L = some res →
      ∀ i, constructorOf res.1 i = constructorOf deps i := by
  intro fuel
  induction fuel with
  | zero => intro deps S L res h; simp [traverseLoop] at h
  | succ fuel ih =>
    intro deps S L res h
    cases S with
    | nil =>
      simp only [traverseLoop, Option.some.injEq] at h
      subst h
      intro i; rfl
    | cons n S =>
      cases hd : deps n with
      | none =>
        simp only [traverseLoop, hd] at h
        exact ih _ _ _ _ h
      | some d =>
        simp only [traverseLoop, hd] at h
        obtain ⟨N, -, -, -, h4, -, -, -⟩ := relax_spec d.neededBy deps S
        intro i
        rw [ih _ _ _ _ h i, constructorOf_clear, h4]

/-- Every call made by `build` passes the static value in every parameter
position whose type is static. -/
theorem build_static_args (s : StaticMap) (deps0 : DepMap) (T : Ident) (v : Value)
    (hT : s T = some v) :
    ∀ (L : List Ident) (deps : DepMap) (calls : List Call),
      (∀ i, constructorOf deps i = constructorOf deps0 i) →
      (∀ e ∈ calls, ∀ i : Nat, (insOf deps0 e.1)[i]? = some T → e.2[i]? = some v) →
      ∀ e ∈ (build s L deps calls).2.1, ∀ i : Nat,
        (insOf deps0 e.1)[i]? = some T → e.2[i]? = some v := by
  intro L
  induction L with
  | nil => intro deps calls _ h; simpa [build] using h
  | cons k L ih =>
    intro deps calls hctor h
    cases hd : deps k with
    | none => simpa [build, hd] using ih deps calls hctor h
    | some d =>
      have hins : d.Constructor.ins = insOf deps0 k := by
        rw [← insOf_of_constructorOf hctor, insOf_eq_of_some hd]
      have hnew : ∀ e ∈ calls ++ [(k, buildArgs deps s d.Constructor.ins)], ∀ i : Nat,
          (insOf deps0 e.1)[i]? = some T → e.2[i]? = some v := by
        intro e he i hi
        rcases List.mem_append.1 he with he | he
        · exact h e he i hi
        · have : e = (k, buildArgs deps s d.Constructor.ins) := by simpa using he
          subst this
          simp only at hi ⊢
          rw [← hins] at hi
          rw [buildArgs_getElem? deps s _ i T hi, hT]
      by_cases hone : ∃ r, d.Constructor.call (buildArgs deps s d.Constructor.ins) = [r]
      · obtain ⟨r, hr⟩ := hone
        have e : build s (k :: L) deps calls
            = build s L (setNode deps k (setInterface (Value.valid r)))
                (calls ++ [(k, buildArgs deps s d.Constructor.ins)]) := by
          simp only [build, hd, hr]
        rw [e]
        apply ih _ _ _ hnew
        intro i; rw [constructorOf_setInterface]; exact hctor i
      · have e : build s (k :: L) deps calls
            = (deps, calls ++ [(k, buildArgs deps s d.Constructor.ins)],
                some BuildError.ErrUnexpectedConstructorContext) := by
          simp only [build, hd]
          split
          · rename_i r hr; exact absurd ⟨r, hr⟩ hone
          · rfl
        rw [e]
        exact hnew

/-- C7: static precedence.  When the identity `T` is static (whether or not it
also has a registered constructor), every call made by `Build` passes the
static value of `T` in every parameter position of type `T`; the loop of
`buildGraph` skips such a position without writing anything, and `buildGraph`
leaves the `neededBy` list of the node registered for `T` as it was, so no
edge and no ordering constraint comes from a requirement on `T`. -/
theorem static_value_takes_precedence (dg : DependencyGraph) (o1 o2 : List Ident) (fuel : Nat)
    (r : BuildResult) (T : Ident) (v : Value) (hs : dg.static T = some v)
    (hb : Build fuel o1 o2 dg = some r) :
    (∀ k args, (k, args) ∈ r.calls → ∀ i : Nat, (insOf dg.deps k)[i]? = some T →
      args[i]? = some v) ∧
    (∀ k rest deps, buildGraphParams dg.static k (T :: rest) deps
      = buildGraphParams dg.static k rest deps) ∧
    (∀ o, neededByOf (buildGraph dg.deps dg.static o).1 T = neededByOf dg.deps T) := by
  refine ⟨?_, ?_, ?_⟩
  · rcases Build_cases fuel o1 o2 dg r hb with ⟨deps1, e, -, hr⟩ |
      ⟨deps1, start, deps2, L, hbg, htl, ⟨-, hr⟩ | ⟨-, -, hr⟩⟩
    · subst hr; intro k args h; simp at h
    · subst hr; intro k args h; simp at h
    · have hc1 := (buildGraphLoop_frame dg.static o1 dg.deps []).1
      unfold buildGraph at hbg
      rw [hbg] at hc1
      have hc2 := traverseLoop_ctor fuel deps1 start [] _ htl
      have := build_static_args dg.static dg.deps T v hs L deps2 []
        (fun i => (hc2 i).trans (hc1 i)) (by intro e he; simp at he)
      subst hr
      intro k args h i hi
      exact this (k, args) h i hi
  · intro k rest deps
    simp [buildGraphParams, hs]
  · intro o
    exact buildGraphLoop_static_neededBy dg.static T (by simp [hs]) o dg.deps []

theorem static_value_takes_precedence_witness :
    ∃ r, (staticAndNode.static 1 = some (Value.valid 7) ∧
        (staticAndNode.deps 1).isSome ∧ 1 ∈ insOf staticAndNode.deps 0 ∧
        Build 5 [0, 1] [0, 1] staticAndNode = some r ∧
        r.calls = [(0, [Value.valid 7]), (1, [Value.valid 10])]) ∧
      ((∀ k args, (k, args) ∈ r.calls → ∀ i : Nat,
          (insOf staticAndNode.deps k)[i]? = some 1 → args[i]? = some (Value.valid 7)) ∧
        (∀ k rest deps, buildGraphParams staticAndNode.static k (1 :: rest) deps
          = buildGraphParams staticAndNode.static k rest deps) ∧
        (∀ o, neededByOf (buildGraph staticAndNode.deps staticAndNode.static o).1 1
          = neededByOf staticAndNode.deps 1)) :=
  ⟨(Build 5 [0, 1] [0, 1] staticAndNode).get (by decide),
    ⟨by decide, by decide, by decide, Option.eq_some_of_isSome _, by decide⟩,
    static_value_takes_precedence staticAndNode [0, 1] [0, 1] 5 _ 1 (Value.valid 7)
      (by decide) (Option.eq_some_of_isSome _)⟩

/-- The counterexample to C8 as stated: a constructor that returns no value
does not make `Build` fail with `ErrUnexpectedConstructorContext` when the
graph is incomplete (the result is `ErrIncompleteDependencyGraph`) or cyclic
(the result is `ErrNotDAG`). -/
theorem bad_arity_hidden_by_earlier_error :
    ((∃ d, nullaryAndMissing.deps 0 = some d ∧ ∀ args, (d.Constructor.call args).length ≠ 1) ∧
      (Build 5 [0] [0] nullaryAndMissing).map (fun r => r.err)
        = some (some BuildError.ErrIncompleteDependencyGraph)) ∧
    ((∃ d, nullaryLoop.deps 0 = some d ∧ ∀ args, (d.Constructor.call args).length ≠ 1) ∧
      (Build 5 [0] [0] nullaryLoop).map (fun r => r.err)
        = some (some BuildError.ErrNotDAG)) :=
  ⟨⟨⟨_, rfl, fun _ => by simp [nullary]⟩, by decide⟩, ⟨⟨_, rfl, fun _ => by simp [nullary]⟩, by decide⟩⟩

/-- C8, amended: on a freshly registered graph that is complete and acyclic,
so that graph construction and sorting succeed, and that contains a
constructor returning zero or several values, `Build` fails with
`ErrUnexpectedConstructorContext`, for every iteration order. -/
theorem build_fails_on_bad_arity (dg : DependencyGraph) (o1 o2 : List Ident) (fuel : Nat)
    (hfresh : Fresh dg.deps) (hcomp : Complete dg) (hacyc : Acyclic dg)
    (ho1 : IterOrder dg.deps o1) (hfuel : o1.length < fuel)
    (k : Ident) (d : Dependency) (hd : dg.deps k = some d)
    (hbad : ∀ args, (d.Constructor.call args).length ≠ 1) :
    ∃ r, Build fuel o1 o2 dg = some r ∧
      r.err = some BuildError.ErrUnexpectedConstructorContext := by
  obtain ⟨deps1, start, deps2, L, hbg, htl, -, hinv⟩ :=
    sorts_of_fresh_complete dg o1 fuel hfresh hcomp ho1 hfuel
  have hed := no_edges_of_acyclic dg hcomp hacyc o1 o2 ho1 deps1 deps2 L hinv
  obtain ⟨hB, -⟩ := Build_of_no_edges fuel o1 o2 dg deps1 deps2 start L hbg htl hed
  obtain ⟨hnd, hreg, -⟩ := order_facts dg deps1 deps2 L hinv
  obtain ⟨P, R, new, h1, -, -, h4, -, -, -, -, h9⟩ := build_shape dg.static L deps2 [] hnd hreg
  refine ⟨_, hB, ?_⟩
  rcases h9 with ⟨-, hR⟩ | ⟨h9, -⟩
  · have hkL := traverseInv_mem_of_acyclic dg hcomp hacyc o1 ho1 deps1 deps2 L hinv k
      (by simp [hd])
    have hkP : k ∈ P := by simpa [h1, hR] using hkL
    obtain ⟨c, args, v, a1, -, a3, -⟩ := h4 k hkP
    rw [hinv.ctor] at a1
    have : c = d.Constructor := by
      simp only [constructorOf, hd, Option.map_some', Option.some.injEq] at a1
      exact a1.symm
    subst this
    exact absurd (by rw [a3]; rfl) (hbad args)
  · exact h9

theorem build_fails_on_bad_arity_witness :
    (Fresh nullaryInChain.deps ∧ Complete nullaryInChain ∧ Acyclic nullaryInChain ∧
      IterOrder nullaryInChain.deps [2, 1, 0] ∧
      ∃ d, nullaryInChain.deps 1 = some d ∧ ∀ args, (d.Constructor.call args).length ≠ 1) ∧
    ∃ r, Build 4 [2, 1, 0] [0, 1, 2] nullaryInChain = some r ∧
      r.err = some BuildError.ErrUnexpectedConstructorContext :=
  have hf : Fresh nullaryInChain.deps :=
    fresh_AddDep _ _ _ (fresh_AddDep _ _ _ (fresh_AddDep _ _ _ fresh_New))
  have ho : IterOrder nullaryInChain.deps [2, 1, 0] :=
    iterOrder_AddDep _ _ (iterOrder_AddDep _ _ (iterOrder_AddDep _ _ iterOrder_New
      (by decide)) (by decide)) (by decide)
  have hc : Complete nullaryInChain := complete_of_forall_mem _ _ ho (by decide)
  have ha : Acyclic nullaryInChain := acyclic_of_rank _ rank1 _ ho (by decide)
  ⟨⟨hf, hc, ha, ho, _, rfl, fun _ => by simp [nullary]⟩,
    build_fails_on_bad_arity nullaryInChain [2, 1, 0] [0, 1, 2] 4 hf hc ha ho (by decide)
      1 _ rfl (fun _ => by simp [nullary])⟩

/-- The only error `build` returns is `ErrUnexpectedConstructorContext`. -/
theorem build_err (s : StaticMap) :
    ∀ (L : List Ident) (deps : DepMap) (calls : List Call),
      (build s L deps calls).2.2 = none ∨
      (build s L deps calls).2.2 = some BuildError.ErrUnexpectedConstructorContext := by
  intro L
  induction L with
  | nil => intro deps calls; simp [build]
  | cons k L ih =>
    intro deps calls
    cases hd : deps k with
    | none => simpa [build, hd] using ih deps calls
    | some d =>
      simp only [build, hd]
      split
      · exact ih _ _
      · right; rfl

/-- The state in which the outer loop of `buildGraph` stops on an error: the
nodes `done` visited before the failing node `f` have all their edges
recorded, and `f` has those of the parameter types `pre` it got through. -/
theorem buildGraphLoop_error_state (s : StaticMap) :
    ∀ (ks : List Ident) (deps : DepMap) (start : List Ident) (e : BuildError),
      ks.Nodup → (∀ k ∈ ks, (deps k).isSome) →
      (buildGraphLoop s ks deps start).2 = .error e →
      ∃ done f pre, (done ++ [f]) <+: ks ∧ pre <+: insOf deps f ∧
        (∀ i, needsOf (buildGraphLoop s ks deps start).1 i
          = needsOf deps i + if i ∈ done then ((nonStatic s (insOf deps i)).length : Int)
              else if i = f then ((nonStatic s pre).length : Int) else 0) ∧
        (∀ i x, (neededByOf (buildGraphLoop s ks deps start).1 i).count x
          = (neededByOf deps i).count x + if x ∈ done then (nonStatic s (insOf deps x)).count i
              else if x = f then (nonStatic s pre).count i else 0) := by
  intro ks
  induction ks with
  | nil => intro deps start e _ _ h; simp [buildGraphLoop] at h
  | cons k ks ih =>
    intro deps start e hnd hreg herr
    have hk := hreg k (List.mem_cons_self _ _)
    obtain ⟨d, hd⟩ := Option.isSome_iff_exists.1 hk
    obtain ⟨pre, hpre, hok, -, hc, -, hn, hb⟩ :=
      buildGraphParams_spec s k d.Constructor.ins deps hk
    have hins := insOf_eq_of_some hd
    have hnd' := List.nodup_cons.1 hnd
    rcases hp : buildGraphParams s k d.Constructor.ins deps with ⟨deps1, b⟩
    rw [hp] at hc hn hb hok
    cases b with
    | false =>
      have e1 : buildGraphLoop s (k :: ks) deps start
          = (deps1, .error BuildError.ErrIncompleteDependencyGraph) := by
        simp [buildGraphLoop, hd, hp]
      rw [e1]
      refine ⟨[], k, pre, by simp, by rw [hins]; exact hpre, ?_, ?_⟩
      · intro i; rw [hn]; simp
      · intro i x
        rw [hb, List.count_append, List.count_replicate]
        by_cases hxk : x = k
        · subst hxk; simp
        · have : ¬ k = x := fun e => hxk e.symm
          simp [hxk, this]
    | true =>
      have hpre2 : pre = d.Constructor.ins := hok rfl
      subst hpre2
      rw [← hins] at hn hb
      have hk1 : (deps1 k).isSome := by rw [isSome_of_constructorOf hc]; exact hk
      obtain ⟨d1, hd1⟩ := Option.isSome_iff_exists.1 hk1
      have hreg1 : ∀ j ∈ ks, (deps1 j).isSome := by
        intro j hj; rw [isSome_of_constructorOf hc]; exact hreg j (List.mem_cons_of_mem _ hj)
      have finish : ∀ st : List Ident,
          buildGraphLoop s (k :: ks) deps start = buildGraphLoop s ks deps1 st →
          ∃ done f pre, (done ++ [f]) <+: (k :: ks) ∧ pre <+: insOf deps f ∧
            (∀ i, needsOf (buildGraphLoop s (k :: ks) deps start).1 i
              = needsOf deps i + if i ∈ done then ((nonStatic s (insOf deps i)).length : Int)
                  else if i = f then ((nonStatic s pre).length : Int) else 0) ∧
            (∀ i x, (neededByOf (buildGraphLoop s (k :: ks) deps start).1 i).count x
              = (neededByOf deps i).count x
                + if x ∈ done then (nonStatic s (insOf deps x)).count i
                  else if x = f then (nonStatic s pre).count i else 0) := by
        intro st hst
        rw [hst] at herr ⊢
        obtain ⟨done, f, pre2, h1, h2, h3, h4⟩ := ih deps1 st e hnd'.2 hreg1 herr
        have hsub : ∀ y, y ∈ done ++ [f] → y ∈ ks := fun y hy => h1.subset hy
        have hkd : k ∉ done := fun h => hnd'.1 (hsub k (List.mem_append_left _ h))
        have hkf : k ≠ f := fun h => hnd'.1 (hsub k (by simp [h]))
        refine ⟨k :: done, f, pre2, ?_, ?_, ?_, ?_⟩
        · simpa using (List.prefix_cons_inj k).2 h1
        · rw [insOf_of_constructorOf hc] at h2; exact h2
        · intro i
          rw [h3, hn, insOf_of_constructorOf hc]
          by_cases hik : i = k
          · subst hik; simp [hkd, hkf]
          · simp [hik]
        · intro i x
          rw [h4, hb, insOf_of_constructorOf hc, List.count_append, List.count_replicate]
          by_cases hxk : x = k
          · subst hxk; simp [hkd, hkf]
          · have : ¬ k = x := fun e => hxk e.symm
            simp [hxk, this]
      by_cases hz : d1.needs = 0
      · exact finish (start ++ [k]) (by simp only [buildGraphLoop, hd, hp, hd1, hz, if_true])
      · exact finish start (by simp only [buildGraphLoop, hd, hp, hd1, hz, if_false])

/-- The counterexample to C10 as stated: on a freshly registered graph in which
node 0 requires node 1 and node 1 requires an unregistered identity, `Build`
visiting 0 before 1 returns `ErrIncompleteDependencyGraph` and leaves node 0
with `needs = 1` and node 1 with `neededBy = [0]`. -/
theorem partial_edges_survive_failure :
    Fresh edgeThenMissing.deps ∧ IterOrder edgeThenMissing.deps [0, 1] ∧
    (Build 5 [0, 1] [0, 1] edgeThenMissing).map
        (fun r => (r.err, needsOf r.graph.deps 0, neededByOf r.graph.deps 1))
      = some (some BuildError.ErrIncompleteDependencyGraph, 1, [0]) :=
  ⟨fresh_AddDep _ _ _ (fresh_AddDep _ _ _ fresh_New),
    iterOrder_perm (iterOrder_AddDep _ _ (iterOrder_AddDep _ _ iterOrder_New (by decide))
      (by decide)) (by decide),
    by decide⟩

/-! ## Registration, the initial frontier and the recorded edges -/

/-- C11: registration is last-write-wins and touches only its own key.  After
`AddDep dg i c` the node map binds `i` to a new node with constructor `c`,
`needs = 0` and no `neededBy` entries, whatever was registered under `i`
before; every other key of the node map and the whole static map are
unchanged.  After `AddStatic dg t v` the static map binds `t` to `v`, whatever
was bound before; every other static entry and the whole node map are
unchanged. -/
theorem registration_last_write_wins (dg : DependencyGraph) (i : Ident) (c : Func)
    (t : Ident) (v : Value) :
    ((AddDep dg i c).deps i = some ⟨Value.zero, c, 0, []⟩ ∧
      (∀ j, j ≠ i → (AddDep dg i c).deps j = dg.deps j) ∧
      (AddDep dg i c).static = dg.static) ∧
    ((AddStatic dg t v).static t = some v ∧
      (∀ j, j ≠ t → (AddStatic dg t v).static j = dg.static j) ∧
      (AddStatic dg t v).deps = dg.deps) := by
  refine ⟨⟨?_, ?_, rfl⟩, ⟨?_, ?_, rfl⟩⟩
  · simp [AddDep]
  · intro j hj; simp [AddDep, hj]
  · simp [AddStatic]
  · intro j hj; simp [AddStatic, hj]

theorem nonStatic_eq_nil_iff (s : StaticMap) (l : List Ident) :
    nonStatic s l = [] ↔ ∀ a ∈ l, (s a).isSome := by
  unfold nonStatic
  rw [List.filter_eq_nil_iff]
  constructor
  · intro h a ha
    have := h a ha
    cases hs : s a <;> simp [hs] at this ⊢
  · intro h a ha
    have := h a ha
    cases hs : s a <;> simp [hs] at this ⊢

/-- C12: on a freshly registered graph on which `buildGraph` succeeds, the
start nodes it returns are duplicate-free and are exactly the registered nodes
whose `needs` is 0 once all edges are recorded, which are exactly the
registered nodes all of whose parameter types are static; in particular every
registered node whose constructor takes no parameter is a start node. -/
theorem initial_frontier (dg : DependencyGraph) (o1 : List Ident) (deps1 : DepMap)
    (start : List Ident) (hfresh : Fresh dg.deps) (ho1 : IterOrder dg.deps o1)
    (hbg : buildGraph dg.deps dg.static o1 = (deps1, .ok start)) :
    start.Nodup ∧
    (∀ k, k ∈ start ↔ (dg.deps k).isSome ∧ needsOf deps1 k = 0) ∧
    (∀ k, k ∈ start ↔ (dg.deps k).isSome ∧ ∀ a ∈ insOf dg.deps k, (dg.static a).isSome) ∧
    (∀ k, (dg.deps k).isSome → insOf dg.deps k = [] → k ∈ start) := by
  have hc := complete_of_buildGraph_ok dg o1 ho1 deps1 start hbg
  obtain ⟨deps1b, startb, h1, h2, h3, h4⟩ := buildGraph_fresh dg o1 hfresh hc ho1
  rw [hbg] at h1
  simp only [Prod.mk.injEq, Except.ok.injEq] at h1
  obtain ⟨rfl, rfl⟩ := h1
  have hmem : ∀ k, k ∈ start ↔ (dg.deps k).isSome ∧ prereqs dg k = [] := by
    intro k
    rw [h4, List.mem_filter, ho1.2 k]
    simp
  refine ⟨h3, ?_, ?_, ?_⟩
  · intro k
    rw [hmem, h2.needs]
    simp
  · intro k
    rw [hmem]
    unfold prereqs
    rw [nonStatic_eq_nil_iff]
  · intro k hk hins
    rw [hmem]
    exact ⟨hk, by simp [prereqs, hins, nonStatic]⟩

theorem initial_frontier_witness :
    ∃ deps1,
      (Fresh graph1.deps ∧ IterOrder graph1.deps [3, 2, 1, 0] ∧
        buildGraph graph1.deps graph1.static [3, 2, 1, 0] = (deps1, .ok [0])) ∧
      ([0].Nodup ∧
        (∀ k, k ∈ [0] ↔ (graph1.deps k).isSome ∧ needsOf deps1 k = 0) ∧
        (∀ k, k ∈ [0] ↔ (graph1.deps k).isSome ∧
          ∀ a ∈ insOf graph1.deps k, (graph1.static a).isSome) ∧
        (∀ k, (graph1.deps k).isSome → insOf graph1.deps k = [] → k ∈ [0])) :=
  ⟨(buildGraph graph1.deps graph1.static [3, 2, 1, 0]).1,
    ⟨fresh_graph1, iterOrder_graph1_rev, rfl⟩,
    initial_frontier graph1 [3, 2, 1, 0] _ [0] fresh_graph1 iterOrder_graph1_rev rfl⟩

theorem count_nonStatic (s : StaticMap) (l : List Ident) (y : Ident) :
    (nonStatic s l).count y = l.countP (fun a => decide (a = y) && (s a).isNone) := by
  unfold nonStatic List.count
  rw [List.countP_filter]
  congr 1

theorem length_nonStatic (s : StaticMap) (l : List Ident) :
    (nonStatic s l).length = l.countP (fun a => (s a).isNone) := by
  unfold nonStatic
  rw [List.countP_eq_length_filter]

/-- C13: on a freshly registered complete graph `buildGraph` succeeds, and
afterwards every node `x` has `needs` equal to the number of parameter
positions of its constructor whose type is not static, and `x` occurs in the
`neededBy` of the node `y` as many times as the constructor of `x` has
parameter positions whose type is `y` and is not static. -/
theorem edges_recorded (dg : DependencyGraph) (o1 : List Ident)
    (hfresh : Fresh dg.deps) (hcomp : Complete dg) (ho1 : IterOrder dg.deps o1) :
    ∃ deps1 start, buildGraph dg.deps dg.static o1 = (deps1, .ok start) ∧
      (∀ x, needsOf deps1 x
        = (((insOf dg.deps x).countP (fun a => (dg.static a).isNone) : Nat) : Int)) ∧
      (∀ x y, (neededByOf deps1 y).count x
        = (insOf dg.deps x).countP (fun a => decide (a = y) && (dg.static a).isNone)) := by
  obtain ⟨deps1, start, h1, h2, -, -⟩ := buildGraph_fresh dg o1 hfresh hcomp ho1
  refine ⟨deps1, start, h1, ?_, ?_⟩
  · intro x
    rw [h2.needs, prereqs, length_nonStatic]
  · intro x y
    rw [h2.nb, prereqs, count_nonStatic]

theorem edges_recorded_witness :
    (Fresh doubleEdge.deps ∧ Complete doubleEdge ∧ IterOrder doubleEdge.deps [1, 0]) ∧
    ∃ deps1 start, buildGraph doubleEdge.deps doubleEdge.static [1, 0] = (deps1, .ok start) ∧
      (∀ x, needsOf deps1 x
        = (((insOf doubleEdge.deps x).countP
            (fun a => (doubleEdge.static a).isNone) : Nat) : Int)) ∧
      (∀ x y, (neededByOf deps1 y).count x
        = (insOf doubleEdge.deps x).countP
            (fun a => decide (a = y) && (doubleEdge.static a).isNone)) :=
  have hf : Fresh doubleEdge.deps := fresh_AddDep _ _ _ (fresh_AddDep _ _ _ fresh_New)
  have ho : IterOrder doubleEdge.deps [1, 0] :=
    iterOrder_AddDep _ _ (iterOrder_AddDep _ _ iterOrder_New (by decide)) (by decide)
  have hc : Complete doubleEdge := complete_of_forall_mem _ _ ho (by decide)
  ⟨⟨hf, hc, ho⟩, edges_recorded doubleEdge [1, 0] hf hc ho⟩

/-! ## Cycle reports, termination and the frame of a failed sort -/

/-- The loop of `traverse` never changes a constructed value. -/
theorem traverseLoop_iface :
    ∀ (fuel : Nat) (deps : DepMap) (S L : List Ident) (res : DepMap × List Ident),
      traverseLoop fuel deps S L = some res →
      ∀ i, interfaceOf res.1 i = interfaceOf deps i := by
  intro fuel
  induction fuel with
  | zero => intro deps S L res h; simp [traverseLoop] at h
  | succ fuel ih =>
    intro deps S L res h
    cases S with
    | nil =>
      simp only [traverseLoop, Option.some.injEq] at h
      subst h
      intro i; rfl
    | cons n S =>
      cases hd : deps n with
      | none =>
        simp only [traverseLoop, hd] at h
        exact ih _ _ _ _ h
      | some d =>
        simp only [traverseLoop, hd] at h
        obtain ⟨N, -, -, -, -, h5, -, -⟩ := relax_spec d.neededBy deps S
        intro i
        rw [ih _ _ _ _ h i, interfaceOf_clear, h5]

/-- The only error `buildGraph` returns is `ErrIncompleteDependencyGraph`. -/
theorem buildGraphLoop_error_eq (s : StaticMap) :
    ∀ (ks : List Ident) (deps : DepMap) (start : List Ident) (e : BuildError),
      (buildGraphLoop s ks deps start).2 = .error e →
      e = BuildError.ErrIncompleteDependencyGraph := by
  intro ks
  induction ks with
  | nil => intro deps start e h; simp [buildGraphLoop] at h
  | cons k ks ih =>
    intro deps start e h
    cases hd : deps k with
    | none =>
      simp only [buildGraphLoop, hd] at h
      exact ih _ _ _ h
    | some d =>
      rcases hp : buildGraphParams s k d.Constructor.ins deps with ⟨deps1, b⟩
      cases b with
      | false =>
        simp only [buildGraphLoop, hd, hp, Except.error.injEq] at h
        exact h.symm
      | true =>
        cases hd1 : deps1 k with
        | none =>
          simp only [buildGraphLoop, hd, hp, hd1] at h
          exact ih _ _ _ h
        | some d1 =>
          simp only [buildGraphLoop, hd, hp, hd1] at h
          split at h
          · exact ih _ _ _ h
          · exact ih _ _ _ h

/-- C19: when `Build` fails with `ErrNotDAG`, it has called no constructor and
no node's value has changed; this holds in every state and so also for the
nodes that were already placed in the partial order. -/
theorem no_call_on_cycle_error (dg : DependencyGraph) (o1 o2 : List Ident) (fuel : Nat)
    (r : BuildResult) (hb : Build fuel o1 o2 dg = some r)
    (herr : r.err = some BuildError.ErrNotDAG) :
    r.calls = [] ∧ ∀ k, interfaceOf r.graph.deps k = interfaceOf dg.deps k := by
  have hfr := (buildGraphLoop_frame dg.static o1 dg.deps []).2
  rcases Build_cases fuel o1 o2 dg r hb with ⟨deps1, e, hbg, hr⟩ |
    ⟨deps1, start, deps2, L, hbg, htl, ⟨-, hr⟩ | ⟨-, -, hr⟩⟩
  · unfold buildGraph at hbg
    rw [hbg] at hfr
    subst hr
    exact ⟨rfl, hfr⟩
  · unfold buildGraph at hbg
    rw [hbg] at hfr
    have h2 := traverseLoop_iface fuel deps1 start [] _ htl
    subst hr
    exact ⟨rfl, fun k => (h2 k).trans (hfr k)⟩
  · subst hr
    rcases build_err dg.static L deps2 [] with h | h
    · simp only at herr; rw [h] at herr; simp at herr
    · simp only at herr; rw [h] at herr; simp at herr

theorem no_call_on_cycle_error_witness :
    ∃ r, (Build 5 [2, 1, 0] [0, 1, 2] cycleAndFree = some r ∧
        r.err = some BuildError.ErrNotDAG) ∧
      (r.calls = [] ∧ ∀ k, interfaceOf r.graph.deps k = interfaceOf cycleAndFree.deps k) :=
  ⟨(Build 5 [2, 1, 0] [0, 1, 2] cycleAndFree).get (by decide),
    ⟨Option.eq_some_of_isSome _, by decide⟩,
    no_call_on_cycle_error cycleAndFree [2, 1, 0] [0, 1, 2] 5 _ (Option.eq_some_of_isSome _)
      (by decide)⟩

/-- In a finite set of nodes each of which has an edge into the set, some
node reaches itself along edges that stay inside the set. -/
theorem exists_cycle_of_successors (o : List Ident) (R : Ident → Ident → Prop)
    (U : Ident → Prop) (hU : ∀ a, U a → a ∈ o) (hsucc : ∀ a, U a → ∃ b, U b ∧ R a b)
    (hne : ∃ a, U a) :
    ∃ x, Relation.TransGen (fun a b => R a b ∧ U a ∧ U b) x x := by
  by_contra hcon
  push_neg at hcon
  let r : {k // k ∈ o} → {k // k ∈ o} → Prop :=
    fun a b => Relation.TransGen (fun a b => R a b ∧ U a ∧ U b) b.1 a.1
  haveI : IsTrans {k // k ∈ o} r := ⟨fun a b c hab hbc => Relation.TransGen.trans hbc hab⟩
  haveI : IsIrrefl {k // k ∈ o} r := ⟨fun a h => hcon a.1 h⟩
  haveI : Finite {k // k ∈ o} := Finite.of_fintype _
  have wf : WellFounded r := Finite.wellFounded_of_trans_of_irrefl r
  obtain ⟨a, ha⟩ := hne
  let V : Set {k // k ∈ o} := {b | U b.1}
  have hV : V.Nonempty := ⟨⟨a, hU a ha⟩, ha⟩
  obtain ⟨m, hmV, hmin⟩ := wf.has_min V hV
  obtain ⟨b, hb, hRb⟩ := hsucc m.1 hmV
  exact hmin ⟨b, hU b hb⟩ hb (Relation.TransGen.single ⟨hRb, hmV, hb⟩)

/-- C14: cycle reports are sound.  Whenever `Build` on a freshly registered
graph returns `ErrNotDAG`, some node reaches itself along non-static
requirement edges that run only through nodes left with `needs > 0`; and
`Build` never returns `ErrNotDAG` when the requirement edges are acyclic. -/
theorem cycle_report_sound (dg : DependencyGraph) (o1 o2 : List Ident) (fuel : Nat)
    (r : BuildResult) (hfresh : Fresh dg.deps) (ho1 : IterOrder dg.deps o1)
    (hb : Build fuel o1 o2 dg = some r) :
    (r.err = some BuildError.ErrNotDAG →
      ∃ x, Relation.TransGen (fun a b => Requires dg a b ∧
        0 < needsOf r.graph.deps a ∧ 0 < needsOf r.graph.deps b) x x) ∧
    (Acyclic dg → r.err ≠ some BuildError.ErrNotDAG) := by
  have main : r.err = some BuildError.ErrNotDAG →
      ∃ x, Relation.TransGen (fun a b => Requires dg a b ∧
        0 < needsOf r.graph.deps a ∧ 0 < needsOf r.graph.deps b) x x := by
    intro herr
    rcases Build_cases fuel o1 o2 dg r hb with ⟨deps1, e, hbg, hr⟩ |
      ⟨deps1, start, deps2, L, hbg, htl, ⟨hed, hr⟩ | ⟨-, -, hr⟩⟩
    · exfalso
      have h2 : (buildGraphLoop dg.static o1 dg.deps []).2 = .error e := by
        unfold buildGraph at hbg; rw [hbg]
      have := buildGraphLoop_error_eq dg.static o1 dg.deps [] e h2
      subst hr
      simp only [Option.some.injEq] at herr
      rw [this] at herr
      cases herr
    · obtain ⟨hcomp, -, hinv⟩ :=
        sorted_of_fresh dg o1 fuel hfresh ho1 deps1 deps2 start L hbg htl
      subst hr
      simp only
      have hpos : ∀ a, 0 < needsOf deps2 a ↔ (dg.deps a).isSome ∧ a ∉ L := by
        intro a
        rw [← traverseInv_needs_ne_zero dg deps1 deps2 L hinv a, hinv.needs]
        omega
      apply exists_cycle_of_successors o1 (Requires dg) (fun a => 0 < needsOf deps2 a)
      · intro a ha
        exact (ho1.2 a).2 ((hpos a).1 ha).1
      · intro a ha
        obtain ⟨hareg, haL⟩ := (hpos a).1 ha
        have hm := hinv.mem a
        simp only [List.append_nil] at hm
        have : ¬ ∀ y ∈ prereqs dg a, y ∈ L := fun h => haL (hm.2 ⟨hareg, h⟩)
        push_neg at this
        obtain ⟨y, hy, hyL⟩ := this
        have hreq := (requires_iff dg hcomp a y).2 hy
        exact ⟨y, (hpos y).2 ⟨hreq.2.2, hyL⟩, hreq⟩
      · obtain ⟨k, -, hk⟩ := (hasEdges_iff deps2 o2).1 hed
        exact ⟨k, (hpos k).2 ((traverseInv_needs_ne_zero dg deps1 deps2 L hinv k).1 hk)⟩
    · exfalso
      subst hr
      rcases build_err dg.static L deps2 [] with h | h
      · simp only at herr; rw [h] at herr; simp at herr
      · simp only at herr; rw [h] at herr; simp at herr
  refine ⟨main, ?_⟩
  intro hacyc herr
  obtain ⟨x, hx⟩ := main herr
  exact hacyc x (Relation.TransGen.mono (fun a b h => h.1) hx)

theorem cycle_report_sound_witness :
    ∃ r, (Fresh cycleAndFree.deps ∧ IterOrder cycleAndFree.deps [2, 1, 0] ∧
        Build 5 [2, 1, 0] [0, 1, 2] cycleAndFree = some r ∧
        r.err = some BuildError.ErrNotDAG) ∧
      ((r.err = some BuildError.ErrNotDAG →
        ∃ x, Relation.TransGen (fun a b => Requires cycleAndFree a b ∧
          0 < needsOf r.graph.deps a ∧ 0 < needsOf r.graph.deps b) x x) ∧
      (Acyclic cycleAndFree → r.err ≠ some BuildError.ErrNotDAG)) :=
  have hf : Fresh cycleAndFree.deps :=
    fresh_AddDep _ _ _ (fresh_AddDep _ _ _ (fresh_AddDep _ _ _ fresh_New))
  have ho : IterOrder cycleAndFree.deps [2, 1, 0] :=
    iterOrder_AddDep _ _ (iterOrder_AddDep _ _ (iterOrder_AddDep _ _ iterOrder_New
      (by decide)) (by decide)) (by decide)
  ⟨(Build 5 [2, 1, 0] [0, 1, 2] cycleAndFree).get (by decide),
    ⟨hf, ho, Option.eq_some_of_isSome _, by decide⟩,
    cycle_report_sound cycleAndFree [2, 1, 0] [0, 1, 2] 5 _ hf ho
      (Option.eq_some_of_isSome _)⟩

/-- The loop of `traverse` uses one unit of fuel per iteration and one more to
see the empty worklist: when it returns, it has output at most `fuel - 1`
further nodes, and any amount of fuel above that number gives the same
result. -/
theorem traverseLoop_fuel_exact :
    ∀ (fuel : Nat) (deps : DepMap) (S L0 : List Ident) (d : DepMap) (L : List Ident),
      traverseLoop fuel deps S L0 = some (d, L) →
      L0.length ≤ L.length ∧ L.length - L0.length < fuel ∧
      ∀ f2, L.length - L0.length < f2 → traverseLoop f2 deps S L0 = some (d, L) := by
  intro fuel
  induction fuel with
  | zero => intro deps S L0 d L h; simp [traverseLoop] at h
  | succ fuel ih =>
    intro deps S L0 d L h
    cases S with
    | nil =>
      simp only [traverseLoop, Option.some.injEq, Prod.mk.injEq] at h
      obtain ⟨rfl, rfl⟩ := h
      refine ⟨le_refl _, by omega, ?_⟩
      intro f2 hf2
      obtain ⟨f3, rfl⟩ : ∃ f3, f2 = f3 + 1 := ⟨f2 - 1, by omega⟩
      simp [traverseLoop]
    | cons n S =>
      have key : ∀ (deps2 : DepMap) (S2 : List Ident),
          traverseLoop fuel deps2 S2 (L0 ++ [n]) = some (d, L) →
          L0.length ≤ L.length ∧ L.length - L0.length < fuel + 1 ∧
          ∀ f2, L.length - L0.length < f2 → ∃ f3, f2 = f3 + 1 ∧
            traverseLoop f3 deps2 S2 (L0 ++ [n]) = some (d, L) := by
        intro deps2 S2 h2
        obtain ⟨a, b, c⟩ := ih deps2 S2 (L0 ++ [n]) d L h2
        simp only [List.length_append, List.length_singleton] at a b c
        refine ⟨by omega, by omega, ?_⟩
        intro f2 hf2
        exact ⟨f2 - 1, by omega, c (f2 - 1) (by omega)⟩
      cases hd : deps n with
      | none =>
        simp only [traverseLoop, hd] at h
        obtain ⟨a, b, c⟩ := key _ _ h
        refine ⟨a, b, ?_⟩
        intro f2 hf2
        obtain ⟨f3, rfl, h3⟩ := c f2 hf2
        simp only [traverseLoop, hd]
        exact h3
      | some dn =>
        simp only [traverseLoop, hd] at h
        obtain ⟨a, b, c⟩ := key _ _ h
        refine ⟨a, b, ?_⟩
        intro f2 hf2
        obtain ⟨f3, rfl, h3⟩ := c f2 hf2
        simp only [traverseLoop, hd]
        exact h3

/-! ## Building a second time -/

theorem requires_congr (dg g2 : DependencyGraph) (hs : g2.static = dg.static)
    (hc : ∀ i, constructorOf g2.deps i = constructorOf dg.deps i) (x y : Ident) :
    Requires g2 x y ↔ Requires dg x y := by
  unfold Requires
  rw [insOf_of_constructorOf hc, hs, isSome_of_constructorOf hc]

theorem complete_congr (dg g2 : DependencyGraph) (hs : g2.static = dg.static)
    (hc : ∀ i, constructorOf g2.deps i = constructorOf dg.deps i) (h : Complete dg) :
    Complete g2 := by
  intro k a ha
  rw [insOf_of_constructorOf hc] at ha
  rw [hs, isSome_of_constructorOf hc]
  exact h k a ha

theorem acyclic_congr (dg g2 : DependencyGraph) (hs : g2.static = dg.static)
    (hc : ∀ i, constructorOf g2.deps i = constructorOf dg.deps i) (h : Acyclic dg) :
    Acyclic g2 := by
  intro x hx
  exact h x (Relation.TransGen.mono (fun a b hab => (requires_congr dg g2 hs hc a b).1 hab) hx)

theorem allUnary_congr (deps deps2 : DepMap)
    (hc : ∀ i, constructorOf deps2 i = constructorOf deps i) (h : AllUnary deps) :
    AllUnary deps2 := by
  intro k d args hd
  have h1 : constructorOf deps2 k = some d.Constructor := by simp [constructorOf, hd]
  rw [hc] at h1
  obtain ⟨d0, hd0, he⟩ := exists_of_constructorOf h1
  rw [← he]
  exact h k d0 args hd0

theorem iterOrder_congr (deps deps2 : DepMap) (o : List Ident)
    (hc : ∀ i, constructorOf deps2 i = constructorOf deps i) (h : IterOrder deps o) :
    IterOrder deps2 o :=
  ⟨h.1, fun k => (h.2 k).trans (by rw [isSome_of_constructorOf hc])⟩

/-- When the loop of `traverse` has output every registered node, every node
is back to `needs = 0` and an empty `neededBy`. -/
theorem fresh_of_sorted (dg : DependencyGraph) (hcomp : Complete dg)
    (deps1 deps2 : DepMap) (L : List Ident) (hinv : TraverseInv dg deps1 deps2 [] L)
    (hall : ∀ k, (dg.deps k).isSome → k ∈ L) : Fresh deps2 := by
  intro k
  constructor
  · rw [hinv.needs]
    have : (prereqs dg k).filter (fun y => decide (y ∉ L)) = [] := by
      rw [List.filter_eq_nil_iff]
      intro y hy
      have := hall y ((requires_iff dg hcomp k y).2 hy).2.2
      simpa using this
    rw [this]
    rfl
  · rw [hinv.nb]
    by_cases hk : k ∈ L
    · simp [hk]
    · simp only [hk, if_false]
      have hreg : ¬ (dg.deps k).isSome := fun h => hk (hall k h)
      have : deps2 k = none := by
        have := registered_iff_of_ctor hinv.ctor k
        cases hd : deps2 k with
        | none => rfl
        | some d => rw [hd] at this; exact absurd this.symm hreg
      have h1 : neededByOf deps2 k = [] := by simp [neededByOf, this]
      rw [hinv.nb] at h1
      simpa [hk] using h1

/-- A traverse order that holds every registered node rules out a cycle. -/
theorem acyclic_of_sorted (dg : DependencyGraph) (hcomp : Complete dg)
    (deps1 deps2 : DepMap) (L : List Ident) (hinv : TraverseInv dg deps1 deps2 [] L)
    (hall : ∀ k, (dg.deps k).isSome → k ∈ L) : Acyclic dg := by
  intro x hx
  have hxreg : (dg.deps x).isSome := by
    rcases Relation.TransGen.head'_iff.1 hx with ⟨y, hy, -⟩
    exact registered_of_mem_insOf hy.1
  exact traverseInv_not_mem_of_cycle dg hcomp deps1 deps2 L hinv x hx (hall x hxreg)

/-- The whole of a successful `Build`: on a freshly registered, complete and
acyclic graph whose constructors all return one value, `Build` returns no
error, calls every registered constructor exactly once, each after its
prerequisites, leaves constructors and statics as they were and every node
with `needs = 0` and an empty `neededBy`. -/
theorem build_ok_full (dg : DependencyGraph) (o1 o2 : List Ident) (fuel : Nat)
    (hfresh : Fresh dg.deps) (hcomp : Complete dg) (hacyc : Acyclic dg)
    (hun : AllUnary dg.deps) (ho1 : IterOrder dg.deps o1) (hfuel : o1.length < fuel) :
    ∃ r, Build fuel o1 o2 dg = some r ∧ r.err = none ∧
      (r.calls.map Prod.fst).Perm o1 ∧
      (∀ x y, Requires dg x y → ∃ l1 l2 l3, r.calls.map Prod.fst = l1 ++ y :: (l2 ++ x :: l3)) ∧
      Fresh r.graph.deps ∧
      (∀ i, constructorOf r.graph.deps i = constructorOf dg.deps i) ∧
      r.graph.static = dg.static := by
  obtain ⟨deps1, start, deps2, L, hbg, htl, -, hinv⟩ :=
    sorts_of_fresh_complete dg o1 fuel hfresh hcomp ho1 hfuel
  have hed := no_edges_of_acyclic dg hcomp hacyc o1 o2 ho1 deps1 deps2 L hinv
  obtain ⟨hB, -⟩ := Build_of_no_edges fuel o1 o2 dg deps1 deps2 start L hbg htl hed
  obtain ⟨hnd, hreg, -⟩ := order_facts dg deps1 deps2 L hinv
  have hall := traverseInv_mem_of_acyclic dg hcomp hacyc o1 ho1 deps1 deps2 L hinv
  obtain ⟨P, R, new, h1, h2, h3, -, -, h6, h7, h8, h9⟩ :=
    build_shape dg.static L deps2 [] hnd hreg
  have hR : R = [] ∧ (build dg.static L deps2 []).2.2 = none := by
    rcases h9 with h9 | ⟨-, f, c, args, -, b2, -, b4⟩
    · exact ⟨h9.2, h9.1⟩
    · rw [hinv.ctor] at b2
      obtain ⟨d, hd, rfl⟩ := exists_of_constructorOf b2
      exact absurd (hun f d args hd) b4
  have hcalls : (build dg.static L deps2 []).2.1.map Prod.fst = L := by
    simp only [h2, List.nil_append, h3, hR.1, List.take_nil, List.append_nil]
    simp [h1, hR.1]
  have hfr2 := fresh_of_sorted dg hcomp deps1 deps2 L hinv hall
  refine ⟨_, hB, hR.2, ?_, ?_, ?_, ?_, rfl⟩
  · simp only [hcalls]
    rw [List.perm_ext_iff_of_nodup hnd ho1.1]
    intro k
    constructor
    · intro hk
      exact (ho1.2 k).2 ((hinv.mem k).1 (by simpa using hk)).1
    · intro hk
      exact hall k ((ho1.2 k).1 hk)
  · intro x y hreq
    simp only [hcalls]
    have hxL : x ∈ L := hall x (registered_of_mem_insOf hreq.1)
    have hy := (requires_iff dg hcomp x y).1 hreq
    exact split_of_indexOf_lt x y L hxL (hinv.order x hxL y hy)
  · intro k
    simp only
    rw [h7, h8]
    exact hfr2 k
  · intro i
    simp only
    rw [h6, hinv.ctor]

/-- C18: a successful sort leaves the transient state reset.  When `traverse`
returns an order on a freshly registered graph, every node has `needs = 0`
and an empty `neededBy`, and so has every node after the `Build`; hence, when
the constructors all return exactly one value, a second `Build` on the
resulting graph returns no error for every iteration order and calls every
registered constructor exactly once, each after the constructors of the
nodes it requires. -/
theorem sort_resets_state (dg : DependencyGraph) (o1 o2 : List Ident) (fuel : Nat)
    (deps1 deps2 : DepMap) (start order : List Ident)
    (hfresh : Fresh dg.deps) (ho1 : IterOrder dg.deps o1) (ho2 : IterOrder dg.deps o2)
    (hbg : buildGraph dg.deps dg.static o1 = (deps1, .ok start))
    (htr : traverse fuel deps1 o2 start = some (deps2, .ok order)) :
    Fresh deps2 ∧
    ∃ r, Build fuel o1 o2 dg = some r ∧ Fresh r.graph.deps ∧
      (AllUnary dg.deps → r.err = none ∧
        ∀ (o3 o4 : List Ident) (fuel2 : Nat), IterOrder r.graph.deps o3 → o3.length < fuel2 →
          ∃ r2, Build fuel2 o3 o4 r.graph = some r2 ∧ r2.err = none ∧
            (r2.calls.map Prod.fst).Perm o3 ∧
            ∀ x y, Requires r.graph x y →
              ∃ l1 l2 l3, r2.calls.map Prod.fst = l1 ++ y :: (l2 ++ x :: l3)) := by
  obtain ⟨htl, hed⟩ := traverse_ok_inv fuel deps1 deps2 o2 start order htr
  obtain ⟨hcomp, -, hinv⟩ :=
    sorted_of_fresh dg o1 fuel hfresh ho1 deps1 deps2 start order hbg htl
  have hperm := perm_of_no_edges dg o1 o2 ho1 ho2 deps1 deps2 order hinv hed
  have hall : ∀ k, (dg.deps k).isSome → k ∈ order :=
    fun k hk => hperm.mem_iff.2 ((ho1.2 k).2 hk)
  have hacyc := acyclic_of_sorted dg hcomp deps1 deps2 order hinv hall
  have hfr2 := fresh_of_sorted dg hcomp deps1 deps2 order hinv hall
  obtain ⟨hB, -⟩ := Build_of_no_edges fuel o1 o2 dg deps1 deps2 start order hbg htl hed
  obtain ⟨hnd, hreg, -⟩ := order_facts dg deps1 deps2 order hinv
  obtain ⟨P, R, new, -, -, -, -, -, h6, h7, h8, h9⟩ :=
    build_shape dg.static order deps2 [] hnd hreg
  have hfr3 : Fresh (build dg.static order deps2 []).1 := by
    intro k
    rw [h7, h8]
    exact hfr2 k
  have hctor : ∀ i, constructorOf (build dg.static order deps2 []).1 i
      = constructorOf dg.deps i := fun i => (h6 i).trans (hinv.ctor i)
  refine ⟨hfr2, _, hB, hfr3, ?_⟩
  intro hun
  constructor
  · rcases h9 with h9 | ⟨-, f, c, args, -, b2, -, b4⟩
    · exact h9.1
    · rw [hinv.ctor] at b2
      obtain ⟨d, hd, rfl⟩ := exists_of_constructorOf b2
      exact absurd (hun f d args hd) b4
  · intro o3 o4 fuel2 ho3 hfuel2
    obtain ⟨r2, a1, a2, a3, a4, -, -, -⟩ :=
      build_ok_full ⟨(build dg.static order deps2 []).1, dg.static⟩ o3 o4 fuel2 hfr3
        (complete_congr dg _ rfl hctor hcomp) (acyclic_congr dg _ rfl hctor hacyc)
        (allUnary_congr dg.deps _ hctor hun) ho3 hfuel2
    exact ⟨r2, a1, a2, a3, a4⟩

theorem sort_resets_state_witness :
    ∃ deps1 deps2,
      (Fresh graph1.deps ∧ IterOrder graph1.deps [0, 1, 2, 3] ∧
        IterOrder graph1.deps [3, 2, 1, 0] ∧
        buildGraph graph1.deps graph1.static [0, 1, 2, 3] = (deps1, .ok [0]) ∧
        traverse 5 deps1 [3, 2, 1, 0] [0] = some (deps2, .ok [0, 1, 2, 3])) ∧
      (Fresh deps2 ∧
        ∃ r, Build 5 [0, 1, 2, 3] [3, 2, 1, 0] graph1 = some r ∧ Fresh r.graph.deps ∧
          (AllUnary graph1.deps → r.err = none ∧
            ∀ (o3 o4 : List Ident) (fuel2 : Nat), IterOrder r.graph.deps o3 →
              o3.length < fuel2 →
              ∃ r2, Build fuel2 o3 o4 r.graph = some r2 ∧ r2.err = none ∧
                (r2.calls.map Prod.fst).Perm o3 ∧
                ∀ x y, Requires r.graph x y →
                  ∃ l1 l2 l3, r2.calls.map Prod.fst = l1 ++ y :: (l2 ++ x :: l3))) :=
  ⟨(buildGraph graph1.deps graph1.static [0, 1, 2, 3]).1,
    ((traverse 5 (buildGraph graph1.deps graph1.static [0, 1, 2, 3]).1
      [3, 2, 1, 0] [0]).get (by decide)).1,
    ⟨fresh_graph1, iterOrder_graph1, iterOrder_graph1_rev, rfl, rfl⟩,
    sort_resets_state graph1 [0, 1, 2, 3] [3, 2, 1, 0] 5 _ _ [0] [0, 1, 2, 3] fresh_graph1
      iterOrder_graph1 iterOrder_graph1_rev rfl rfl⟩

/-! ## The edge-count invariant -/

/-- The loop of `traverse` is the iteration of `traverseStep`. -/
theorem traverseLoop_step (fuel : Nat) (deps : DepMap) (S L : List Ident) :
    traverseLoop (fuel + 1) deps S L
      = match traverseStep (deps, S, L) with
        | none => some (deps, L)
        | some (d, S2, L2) => traverseLoop fuel d S2 L2 := by
  cases S with
  | nil => simp [traverseLoop, traverseStep]
  | cons n S =>
    cases hd : deps n with
    | none => simp [traverseLoop, traverseStep, hd]
    | some d => simp [traverseLoop, traverseStep, hd]

theorem sum_map_indicator (a : Ident) (c : Nat) :
    ∀ o : List Ident, o.Nodup → a ∈ o → (o.map (fun y => if y = a then c else 0)).sum = c := by
  intro o
  induction o with
  | nil => intro _ h; simp at h
  | cons b o ih =>
    intro hnd ha
    have hnd2 := List.nodup_cons.1 hnd
    by_cases hb : b = a
    · subst hb
      have hz : (o.map (fun y => if y = b then c else 0)).sum = 0 := by
        apply List.sum_eq_zero
        intro x hx
        obtain ⟨y, hy, rfl⟩ := List.mem_map.1 hx
        have : y ≠ b := fun e => hnd2.1 (e ▸ hy)
        simp [this]
      simp [hz]
    · have hao : a ∈ o := by
        rcases List.mem_cons.1 ha with h | h
        · exact absurd h.symm hb
        · exact h
      simp [hb, ih hnd2.2 hao]

theorem sum_map_count_filter (o : List Ident) (hnd : o.Nodup) (p : Ident → Bool) :
    ∀ l : List Ident, (∀ a ∈ l, a ∈ o) →
      (o.map (fun y => if p y then l.count y else 0)).sum = (l.filter p).length := by
  intro l
  induction l with
  | nil => intro _; simp
  | cons a l ih =>
    intro hl
    have ha : a ∈ o := hl a (List.mem_cons_self _ _)
    have ih2 := ih (fun b hb => hl b (List.mem_cons_of_mem _ hb))
    have hsplit : (fun y => if p y then (a :: l).count y else 0)
        = fun y => (if p y then l.count y else 0) + (if y = a then (if p a then 1 else 0) else 0) := by
      funext y
      by_cases hy : y = a
      · subst hy
        by_cases hp : p y <;> simp [hp, List.count_cons]
      · have hy2 : ¬ a = y := fun e => hy e.symm
        by_cases hp : p y <;> simp [hp, hy, hy2, List.count_cons]
    rw [hsplit, List.sum_map_add, ih2, sum_map_indicator a _ o hnd ha]
    by_cases hp : p a <;> simp [List.filter_cons, hp]

theorem edgeCount_of_fresh (deps : DepMap) (o : List Ident) (h : Fresh deps) :
    EdgeCount deps o := by
  intro k
  rw [(h k).1]
  have : occurrences deps o k = 0 := by
    unfold occurrences
    apply List.sum_eq_zero
    intro x hx
    obtain ⟨y, -, rfl⟩ := List.mem_map.1 hx
    simp [(h y).2]
  rw [this]
  rfl

/-- Recording one edge (lines 72 and 74) keeps the edge-count invariant. -/
theorem edgeCount_edge (deps : DepMap) (o : List Ident) (hnd : o.Nodup) (a k : Ident)
    (ha : (deps a).isSome) (hao : a ∈ o) (hk : (deps k).isSome) (h : EdgeCount deps o) :
    EdgeCount (setNode (setNode deps a (pushNeededBy k)) k incNeeds) o := by
  intro i
  have hk2 : (setNode deps a (pushNeededBy k) k).isSome := by rw [isSome_setNode]; exact hk
  rw [needsOf_inc _ _ _ hk2, needsOf_push, h i]
  have hocc : occurrences (setNode (setNode deps a (pushNeededBy k)) k incNeeds) o i
      = occurrences deps o i + if i = k then 1 else 0 := by
    unfold occurrences
    have hfun : (fun y => (neededByOf (setNode (setNode deps a (pushNeededBy k)) k incNeeds)
          y).count i)
        = fun y => (neededByOf deps y).count i + (if y = a then (if i = k then 1 else 0) else 0) := by
      funext y
      rw [neededByOf_inc, neededByOf_push _ _ _ _ ha, List.count_append]
      by_cases hy : y = a
      · by_cases hik : i = k
        · simp [hy, hik]
        · have : ¬ k = i := fun e => hik e.symm
          simp [hy, hik, this]
      · simp [hy]
    rw [hfun, List.sum_map_add, sum_map_indicator a _ o hnd hao]
  rw [hocc]
  by_cases hik : i = k <;> simp [hik]

/-- The inner loop of `buildGraph` keeps the edge-count invariant, on every
list of parameter types and whether or not it ends in an error. -/
theorem edgeCount_buildGraphParams (s : StaticMap) (o : List Ident) (hnd : o.Nodup)
    (k : Ident) :
    ∀ (ps : List Ident) (deps : DepMap), (deps k).isSome → (∀ i, (deps i).isSome → i ∈ o) →
      EdgeCount deps o → EdgeCount (buildGraphParams s k ps deps).1 o := by
  intro ps
  induction ps with
  | nil => intro deps _ _ h; simpa [buildGraphParams] using h
  | cons a rest ih =>
    intro deps hk hreg h
    by_cases hs : (s a).isSome
    · simpa [buildGraphParams, hs] using ih deps hk hreg h
    · by_cases ha : (deps a).isSome
      · have e : buildGraphParams s k (a :: rest) deps
            = buildGraphParams s k rest
                (setNode (setNode deps a (pushNeededBy k)) k incNeeds) := by
          simp [buildGraphParams, hs, ha]
        rw [e]
        apply ih
        · rw [isSome_setNode, isSome_setNode]; exact hk
        · intro i hi
          rw [isSome_setNode, isSome_setNode] at hi
          exact hreg i hi
        · exact edgeCount_edge deps o hnd a k ha (hreg a ha) hk h
      · simpa [buildGraphParams, hs, ha] using h

/-- The outer loop of `buildGraph` keeps the edge-count invariant, on every
list of keys and whether or not it ends in an error. -/
theorem edgeCount_buildGraphLoop (s : StaticMap) (o : List Ident) (hnd : o.Nodup) :
    ∀ (ks : List Ident) (deps : DepMap) (start : List Ident),
      (∀ i, (deps i).isSome → i ∈ o) → EdgeCount deps o →
      EdgeCount (buildGraphLoop s ks deps start).1 o := by
  intro ks
  induction ks with
  | nil => intro deps start _ h; simpa [buildGraphLoop] using h
  | cons k ks ih =>
    intro deps start hreg h
    cases hd : deps k with
    | none => simpa [buildGraphLoop, hd] using ih deps start hreg h
    | some d =>
      have hk : (deps k).isSome := by simp [hd]
      have h1 := edgeCount_buildGraphParams s o hnd k d.Constructor.ins deps hk hreg h
      obtain ⟨pre, -, -, -, hc, -, -, -⟩ := buildGraphParams_spec s k d.Constructor.ins deps hk
      rcases hp : buildGraphParams s k d.Constructor.ins deps with ⟨deps1, b⟩
      rw [hp] at h1 hc
      have hreg1 : ∀ i, (deps1 i).isSome → i ∈ o := by
        intro i hi
        rw [isSome_of_constructorOf hc] at hi
        exact hreg i hi
      cases b with
      | false => simpa [buildGraphLoop, hd, hp] using h1
      | true =>
        cases hd1 : deps1 k with
        | none =>
          simp only [buildGraphLoop, hd, hp, hd1]
          exact ih deps1 start hreg1 h1
        | some d1 =>
          simp only [buildGraphLoop, hd, hp, hd1]
          split
          · exact ih deps1 _ hreg1 h1
          · exact ih deps1 _ hreg1 h1

/-- The invariant of `traverse` implies the edge-count invariant. -/
theorem edgeCount_of_traverseInv (dg : DependencyGraph) (o : List Ident)
    (ho : IterOrder dg.deps o) (hcomp : Complete dg) (deps1 deps : DepMap) (S L : List Ident)
    (hl : Linked dg deps1) (hinv : TraverseInv dg deps1 deps S L) : EdgeCount deps o := by
  intro i
  rw [hinv.needs]
  have hfun : (fun y => (neededByOf deps y).count i)
      = fun y => if (fun z => decide (z ∉ L)) y then (prereqs dg i).count y else 0 := by
    funext y
    rw [hinv.nb]
    by_cases hy : y ∈ L
    · simp [hy]
    · simp [hy, hl.nb]
  have hsub : ∀ a ∈ prereqs dg i, a ∈ o := by
    intro a ha
    exact (ho.2 a).2 ((requires_iff dg hcomp i a).2 ha).2.2
  unfold occurrences
  rw [hfun, sum_map_count_filter o ho.1 (fun z => decide (z ∉ L)) (prereqs dg i) hsub]

/-- Every state that the loop of `traverse` reaches from the result of
`buildGraph` on a freshly registered graph satisfies the loop invariant. -/
theorem traverseInv_of_reachable (dg : DependencyGraph) (o1 : List Ident)
    (hfresh : Fresh dg.deps) (ho1 : IterOrder dg.deps o1) (deps1 : DepMap) (start : List Ident)
    (hbg : buildGraph dg.deps dg.static o1 = (deps1, .ok start))
    (st : DepMap × List Ident × List Ident)
    (hreach : Relation.ReflTransGen (fun a b => traverseStep a = some b) (deps1, start, []) st) :
    Complete dg ∧ Linked dg deps1 ∧ TraverseInv dg deps1 st.1 st.2.1 st.2.2 := by
  have hc := complete_of_buildGraph_ok dg o1 ho1 deps1 start hbg
  obtain ⟨deps1b, startb, h1, h2, -, h4⟩ := buildGraph_fresh dg o1 hfresh hc ho1
  rw [hbg] at h1
  simp only [Prod.mk.injEq, Except.ok.injEq] at h1
  obtain ⟨rfl, rfl⟩ := h1
  refine ⟨hc, h2, ?_⟩
  induction hreach with
  | refl =>
    have hinit := traverseInv_init dg deps1 o1 ho1 h2
    rw [← h4] at hinit
    exact hinit
  | @tail b c _ hstep ih =>
    obtain ⟨deps, S, L⟩ := b
    cases S with
    | nil => simp [traverseStep] at hstep
    | cons n S =>
      obtain ⟨d, hd, hinv⟩ := traverseInv_step dg deps1 deps n S L h2 ih
      simp only [traverseStep, hd, Option.some.injEq] at hstep
      subst hstep
      exact hinv

/-- C15: the edge-count invariant.  Starting from a freshly registered graph,
the `needs` of every node equals the number of its occurrences in all
`neededBy` lists after `buildGraph` has visited any prefix of the keys (in
particular when it stops on `ErrIncompleteDependencyGraph`), after it has
then visited any prefix of the parameter types of the next key, and in every
state the loop of `traverse` reaches from the result of a successful
`buildGraph`; consequently `needs` is never negative, and the output followed
by the worklist never holds a node twice, so no node is appended to the
worklist twice. -/
theorem edge_count_invariant (dg : DependencyGraph) (o1 : List Ident)
    (hfresh : Fresh dg.deps) (ho1 : IterOrder dg.deps o1) :
    (∀ ks, ks <+: o1 → EdgeCount (buildGraphLoop dg.static ks dg.deps []).1 o1) ∧
    (∀ ks k ps, (ks ++ [k]) <+: o1 → ps <+: insOf dg.deps k →
      EdgeCount (buildGraphParams dg.static k ps
        (buildGraphLoop dg.static ks dg.deps []).1).1 o1) ∧
    (∀ deps1 start, buildGraph dg.deps dg.static o1 = (deps1, .ok start) →
      ∀ st, Relation.ReflTransGen (fun a b => traverseStep a = some b) (deps1, start, []) st →
        EdgeCount st.1 o1 ∧ (st.2.2 ++ st.2.1).Nodup) ∧
    (∀ deps, EdgeCount deps o1 → ∀ k, 0 ≤ needsOf deps k) := by
  have hreg : ∀ i, (dg.deps i).isSome → i ∈ o1 := fun i hi => (ho1.2 i).2 hi
  have h0 := edgeCount_of_fresh dg.deps o1 hfresh
  have hloop : ∀ ks, EdgeCount (buildGraphLoop dg.static ks dg.deps []).1 o1 :=
    fun ks => edgeCount_buildGraphLoop dg.static o1 ho1.1 ks dg.deps [] hreg h0
  refine ⟨fun ks _ => hloop ks, ?_, ?_, ?_⟩
  · intro ks k ps hk _
    have hc := (buildGraphLoop_frame dg.static ks dg.deps []).1
    have hko : k ∈ o1 := hk.subset (by simp)
    apply edgeCount_buildGraphParams dg.static o1 ho1.1 k ps _ _ _ (hloop ks)
    · rw [isSome_of_constructorOf hc]; exact (ho1.2 k).1 hko
    · intro i hi
      rw [isSome_of_constructorOf hc] at hi
      exact hreg i hi
  · intro deps1 start hbg st hreach
    obtain ⟨hc, hl, hinv⟩ :=
      traverseInv_of_reachable dg o1 hfresh ho1 deps1 start hbg st hreach
    exact ⟨edgeCount_of_traverseInv dg o1 ho1 hc deps1 st.1 st.2.1 st.2.2 hl hinv, hinv.nodup⟩
  · intro deps h k
    rw [h k]
    exact Int.natCast_nonneg _

theorem edge_count_invariant_witness :
    (Fresh edgeThenMissing.deps ∧ IterOrder edgeThenMissing.deps [0, 1]) ∧
    ((∀ ks, ks <+: [0, 1] →
      EdgeCount (buildGraphLoop edgeThenMissing.static ks edgeThenMissing.deps []).1 [0, 1]) ∧
    (∀ ks k ps, (ks ++ [k]) <+: [0, 1] → ps <+: insOf edgeThenMissing.deps k →
      EdgeCount (buildGraphParams edgeThenMissing.static k ps
        (buildGraphLoop edgeThenMissing.static ks edgeThenMissing.deps []).1).1 [0, 1]) ∧
    (∀ deps1 start,
      buildGraph edgeThenMissing.deps edgeThenMissing.static [0, 1] = (deps1, .ok start) →
      ∀ st, Relation.ReflTransGen (fun a b => traverseStep a = some b) (deps1, start, []) st →
        EdgeCount st.1 [0, 1] ∧ (st.2.2 ++ st.2.1).Nodup) ∧
    (∀ deps, EdgeCount deps [0, 1] → ∀ k, 0 ≤ needsOf deps k)) :=
  have hf : Fresh edgeThenMissing.deps := fresh_AddDep _ _ _ (fresh_AddDep _ _ _ fresh_New)
  have ho : IterOrder edgeThenMissing.deps [0, 1] :=
    iterOrder_perm (iterOrder_AddDep _ _ (iterOrder_AddDep _ _ iterOrder_New (by decide))
      (by decide)) (by decide)
  ⟨⟨hf, ho⟩, edge_count_invariant edgeThenMissing [0, 1] hf ho⟩

/-! ## Independence of the iteration order -/

theorem buildArgs_congr (s : StaticMap) (D D2 : DepMap) :
    ∀ ins : List Ident, (∀ a ∈ ins, s a = none → interfaceOf D a = interfaceOf D2 a) →
      buildArgs D s ins = buildArgs D2 s ins := by
  intro ins
  induction ins with
  | nil => intro _; rfl
  | cons a rest ih =>
    intro h
    have hrest := ih (fun b hb => h b (List.mem_cons_of_mem _ hb))
    have ha := h a (List.mem_cons_self _ _)
    cases hs : s a with
    | some w => simp only [buildArgs, hs, hrest]
    | none =>
      have := ha hs
      unfold interfaceOf at this
      simp only [buildArgs, hs, hrest, this]

theorem buildArgs_eq_argsFrom (s : StaticMap) (D : DepMap) (res : Ident → Nat) :
    ∀ ins : List Ident, (∀ a ∈ ins, s a = none → interfaceOf D a = Value.valid (res a)) →
      buildArgs D s ins = argsFrom s res ins := by
  intro ins
  induction ins with
  | nil => intro _; rfl
  | cons a rest ih =>
    intro h
    have hrest := ih (fun b hb => h b (List.mem_cons_of_mem _ hb))
    have ha := h a (List.mem_cons_self _ _)
    unfold argsFrom at hrest ⊢
    cases hs : s a with
    | some w => simp only [buildArgs, hs, hrest, List.map_cons]
    | none =>
      have := ha hs
      unfold interfaceOf at this
      simp only [buildArgs, hs, hrest, List.map_cons, this]

/-- The function `build` leaves the value of every node outside its list
untouched. -/
theorem build_iface_frame (s : StaticMap) (L : List Ident) (deps : DepMap) (calls : List Call)
    (hnd : L.Nodup) (hreg : ∀ k ∈ L, (deps k).isSome) (y : Ident) (hy : y ∉ L) :
    interfaceOf (build s L deps calls).1 y = interfaceOf deps y := by
  obtain ⟨P, R, new, h1, -, -, -, h5, -, -, -, -⟩ := build_shape s L deps calls hnd hreg
  apply h5
  intro hP
  exact hy (h1 ▸ List.mem_append_left _ hP)

/-- With a consistent assignment of values, `build` over a list in which every
node comes after its prerequisites returns no error. -/
theorem build_ok_of_goodVals (dg : DependencyGraph) (res : Ident → Nat)
    (hgood : GoodVals dg res) :
    ∀ (L : List Ident) (deps : DepMap) (calls : List Call) (done : List Ident),
      (∀ i, constructorOf deps i = constructorOf dg.deps i) →
      (∀ k ∈ L, (deps k).isSome) → Ready dg done L →
      (∀ y ∈ done, interfaceOf deps y = Value.valid (res y)) →
      (build dg.static L deps calls).2.2 = none := by
  intro L
  induction L with
  | nil => intro deps calls done _ _ _ _; simp [build]
  | cons k L ih =>
    intro deps calls done hctor hreg hready hval
    have hk := hreg k (List.mem_cons_self _ _)
    obtain ⟨d, hd⟩ := Option.isSome_iff_exists.1 hk
    have hc : constructorOf dg.deps k = some d.Constructor := by
      rw [← hctor]; simp [constructorOf, hd]
    have hins : d.Constructor.ins = insOf dg.deps k := by
      rw [← insOf_of_constructorOf hctor, insOf_eq_of_some hd]
    have hargs : buildArgs deps dg.static d.Constructor.ins
        = argsFrom dg.static res d.Constructor.ins := by
      apply buildArgs_eq_argsFrom
      intro a ha hs
      apply hval
      apply hready.1
      unfold prereqs
      rw [mem_nonStatic, ← hins]
      exact ⟨ha, hs⟩
    have hcall := hgood k d.Constructor hc
    rw [← hargs] at hcall
    have e : build dg.static (k :: L) deps calls
        = build dg.static L (setNode deps k (setInterface (Value.valid (res k))))
            (calls ++ [(k, buildArgs deps dg.static d.Constructor.ins)]) := by
      simp only [build, hd, hcall]
    rw [e]
    apply ih _ _ (done ++ [k])
    · intro i; rw [constructorOf_setInterface]; exact hctor i
    · intro j hj; rw [isSome_setNode]; exact hreg j (List.mem_cons_of_mem _ hj)
    · exact hready.2
    · intro y hy
      rw [interfaceOf_setInterface _ _ _ _ hk]
      by_cases hyk : y = k
      · simp [hyk]
      · simp only [hyk, if_false]
        rcases List.mem_append.1 hy with h | h
        · exact hval y h
        · exact absurd (by simpa using h) hyk

/-- After a run of `build` without error over a duplicate-free list in which
every node comes after its prerequisites, every node of the list holds the
value that its constructor returns on the arguments read from the final
state. -/
theorem build_final_values (dg : DependencyGraph) :
    ∀ (L : List Ident) (deps : DepMap) (calls : List Call) (done : List Ident),
      (∀ i, constructorOf deps i = constructorOf dg.deps i) →
      L.Nodup → (∀ k ∈ L, (deps k).isSome) → (∀ x ∈ L, x ∉ done) → Ready dg done L →
      (build dg.static L deps calls).2.2 = none →
      ∀ k ∈ L, ∃ c v, constructorOf dg.deps k = some c ∧
        c.call (buildArgs (build dg.static L deps calls).1 dg.static c.ins) = [v] ∧
        interfaceOf (build dg.static L deps calls).1 k = Value.valid v := by
  intro L
  induction L with
  | nil => intro deps calls done _ _ _ _ _ _ k hk; simp at hk
  | cons k L ih =>
    intro deps calls done hctor hnd hreg hdis hready herr
    have hk := hreg k (List.mem_cons_self _ _)
    obtain ⟨d, hd⟩ := Option.isSome_iff_exists.1 hk
    have hnd2 := List.nodup_cons.1 hnd
    have hc : constructorOf dg.deps k = some d.Constructor := by
      rw [← hctor]; simp [constructorOf, hd]
    have hins : d.Constructor.ins = insOf dg.deps k := by
      rw [← insOf_of_constructorOf hctor, insOf_eq_of_some hd]
    by_cases hone : ∃ r, d.Constructor.call (buildArgs deps dg.static d.Constructor.ins) = [r]
    · obtain ⟨r, hr⟩ := hone
      have e : build dg.static (k :: L) deps calls
          = build dg.static L (setNode deps k (setInterface (Value.valid r)))
              (calls ++ [(k, buildArgs deps dg.static d.Constructor.ins)]) := by
        simp only [build, hd, hr]
      rw [e] at herr ⊢
      have hreg1 : ∀ j ∈ L, (setNode deps k (setInterface (Value.valid r)) j).isSome := by
        intro j hj; rw [isSome_setNode]; exact hreg j (List.mem_cons_of_mem _ hj)
      have hframe := build_iface_frame dg.static L
        (setNode deps k (setInterface (Value.valid r)))
        (calls ++ [(k, buildArgs deps dg.static d.Constructor.ins)]) hnd2.2 hreg1
      intro j hj
      rcases List.mem_cons.1 hj with rfl | hjL
      · refine ⟨d.Constructor, r, hc, ?_, ?_⟩
        · rw [← hr]
          congr 1
          apply buildArgs_congr
          intro a ha hs
          have hapre : a ∈ prereqs dg j := by
            unfold prereqs
            rw [mem_nonStatic, ← hins]
            exact ⟨ha, hs⟩
          have hadone : a ∈ done := hready.1 a hapre
          have haL : a ∉ j :: L := fun h => hdis a h hadone
          have haj : a ≠ j := fun e => haL (e ▸ List.mem_cons_self _ _)
          rw [hframe a (fun h => haL (List.mem_cons_of_mem _ h)),
            interfaceOf_setInterface _ _ _ _ hk]
          simp [haj]
        · rw [hframe j hnd2.1, interfaceOf_setInterface _ _ _ _ hk]
          simp
      · apply ih _ _ (done ++ [k]) _ hnd2.2 hreg1 _ hready.2 herr j hjL
        · intro i; rw [constructorOf_setInterface]; exact hctor i
        · intro x hx hxd
          rcases List.mem_append.1 hxd with h | h
          · exact hdis x (List.mem_cons_of_mem _ hx) h
          · have : x = k := by simpa using h
            exact hnd2.1 (this ▸ hx)
    · exfalso
      have e : (build dg.static (k :: L) deps calls).2.2
          = some BuildError.ErrUnexpectedConstructorContext := by
        simp only [build, hd]
        split
        · rename_i r hr; exact absurd ⟨r, hr⟩ hone
        · rfl
      rw [e] at herr
      simp at herr

/-- A run of `build` without error over all registered nodes yields a
consistent assignment of values. -/
theorem goodVals_of_build_ok (dg : DependencyGraph) (hcomp : Complete dg)
    (L : List Ident) (deps : DepMap)
    (hctor : ∀ i, constructorOf deps i = constructorOf dg.deps i)
    (hnd : L.Nodup) (hreg : ∀ k ∈ L, (deps k).isSome) (hready : Ready dg [] L)
    (hall : ∀ k, (dg.deps k).isSome → k ∈ L)
    (herr : (build dg.static L deps []).2.2 = none) :
    GoodVals dg (fun k => payload (interfaceOf (build dg.static L deps []).1 k)) := by
  have hfin := build_final_values dg L deps [] [] hctor hnd hreg (fun _ _ => by simp)
    hready herr
  intro k c hc
  obtain ⟨d, hd, -⟩ := exists_of_constructorOf hc
  have hkL : k ∈ L := hall k (by simp [hd])
  obtain ⟨c2, v, a1, a2, a3⟩ := hfin k hkL
  rw [hc] at a1
  simp only [Option.some.injEq] at a1
  subst a1
  simp only [a3, payload]
  rw [← a2]
  congr 1
  symm
  apply buildArgs_eq_argsFrom
  intro a ha hs
  have hains : a ∈ insOf dg.deps k := by
    rw [insOf_eq_of_some hd]
    have : d.Constructor = c := by
      simp only [constructorOf, hd, Option.map_some', Option.some.injEq] at hc
      exact hc
    rw [this]; exact ha
  have hareg : (dg.deps a).isSome := by
    rcases hcomp k a hains with h | h
    · simp [hs] at h
    · exact h
  obtain ⟨c3, v3, -, -, b3⟩ := hfin a (hall a hareg)
  simp only [b3, payload]

theorem build_err_of_missing (dg : DependencyGraph) (o1 o2 : List Ident) (fuel : Nat)
    (ho1 : IterOrder dg.deps o1) (hnc : ¬ Complete dg) :
    ∃ r, Build fuel o1 o2 dg = some r ∧
      r.err = some BuildError.ErrIncompleteDependencyGraph := by
  unfold Complete at hnc
  push_neg at hnc
  obtain ⟨k, a, hka, hs, hd⟩ := hnc
  have hs2 : dg.static a = none := by
    cases h : dg.static a with
    | none => rfl
    | some v => simp [h] at hs
  have hd2 : dg.deps a = none := by
    cases h : dg.deps a with
    | none => rfl
    | some v => simp [h] at hd
  have hk : k ∈ o1 := (ho1.2 k).2 (registered_of_mem_insOf hka)
  have herr := buildGraphLoop_error dg.static o1 dg.deps [] ⟨k, hk, a, hka, hs2, hd2⟩
  rcases hbg : buildGraph dg.deps dg.static o1 with ⟨deps1, res⟩
  unfold buildGraph at hbg
  rw [hbg] at herr
  simp only at herr
  subst herr
  exact ⟨_, Build_of_buildGraph_error fuel o1 o2 dg deps1 _ hbg, rfl⟩

theorem build_err_of_cycle (dg : DependencyGraph) (o1 o2 : List Ident) (fuel : Nat)
    (hfresh : Fresh dg.deps) (hcomp : Complete dg) (hna : ¬ Acyclic dg)
    (ho1 : IterOrder dg.deps o1) (ho2 : IterOrder dg.deps o2) (hfuel : o1.length < fuel) :
    ∃ r, Build fuel o1 o2 dg = some r ∧ r.err = some BuildError.ErrNotDAG := by
  unfold Acyclic at hna
  push_neg at hna
  obtain ⟨x, hcyc⟩ := hna
  obtain ⟨deps1, start, deps2, L, hbg, htl, -, hinv⟩ :=
    sorts_of_fresh_complete dg o1 fuel hfresh hcomp ho1 hfuel
  have hxL := traverseInv_not_mem_of_cycle dg hcomp deps1 deps2 L hinv x hcyc
  have hxreg : (dg.deps x).isSome := by
    rcases Relation.TransGen.head'_iff.1 hcyc with ⟨y, hy, -⟩
    exact registered_of_mem_insOf hy.1
  have hne := (traverseInv_needs_ne_zero dg deps1 deps2 L hinv x).2 ⟨hxreg, hxL⟩
  have hed : hasEdges deps2 o2 = true :=
    (hasEdges_iff deps2 o2).2 ⟨x, (ho2.2 x).2 hxreg, hne⟩
  exact ⟨_, Build_of_edges fuel o1 o2 dg deps1 deps2 start L hbg htl hed, rfl⟩

/-- On a freshly registered, complete and acyclic graph, `Build` returns the
result of `build` over an order that holds every registered node after its
prerequisites. -/
theorem build_run_of_acyclic (dg : DependencyGraph) (o1 o2 : List Ident) (fuel : Nat)
    (hfresh : Fresh dg.deps) (hcomp : Complete dg) (hacyc : Acyclic dg)
    (ho1 : IterOrder dg.deps o1) (hfuel : o1.length < fuel) :
    ∃ deps2 L, Build fuel o1 o2 dg = some ⟨⟨(build dg.static L deps2 []).1, dg.static⟩,
        (build dg.static L deps2 []).2.1, (build dg.static L deps2 []).2.2⟩ ∧
      (∀ i, constructorOf deps2 i = constructorOf dg.deps i) ∧
      L.Nodup ∧ (∀ k ∈ L, (deps2 k).isSome) ∧ Ready dg [] L ∧
      (∀ k, (dg.deps k).isSome → k ∈ L) := by
  obtain ⟨deps1, start, deps2, L, hbg, htl, -, hinv⟩ :=
    sorts_of_fresh_complete dg o1 fuel hfresh hcomp ho1 hfuel
  have hed := no_edges_of_acyclic dg hcomp hacyc o1 o2 ho1 deps1 deps2 L hinv
  obtain ⟨hB, -⟩ := Build_of_no_edges fuel o1 o2 dg deps1 deps2 start L hbg htl hed
  obtain ⟨hnd, hreg, hready⟩ := order_facts dg deps1 deps2 L hinv
  exact ⟨deps2, L, hB, hinv.ctor, hnd, hreg, hready,
    traverseInv_mem_of_acyclic dg hcomp hacyc o1 ho1 deps1 deps2 L hinv⟩

/-- C17: the outcome of `Build` does not depend on the iteration order of the
node map.  On a freshly registered graph, two runs of `Build` with any two
pairs of iteration orders both return, and they return the same result: both
nil, or both the same one of the three errors. -/
theorem outcome_independent_of_order (dg : DependencyGraph) (o1 o2 o3 o4 : List Ident)
    (fuel fuel2 : Nat) (hfresh : Fresh dg.deps)
    (ho1 : IterOrder dg.deps o1) (ho2 : IterOrder dg.deps o2)
    (ho3 : IterOrder dg.deps o3) (ho4 : IterOrder dg.deps o4)
    (hfuel : o1.length < fuel) (hfuel2 : o3.length < fuel2) :
    ∃ r r2, Build fuel o1 o2 dg = some r ∧ Build fuel2 o3 o4 dg = some r2 ∧
      r.err = r2.err := by
  by_cases hcomp : Complete dg
  · by_cases hacyc : Acyclic dg
    · obtain ⟨dA, LA, hA, cA, ndA, regA, readyA, allA⟩ :=
        build_run_of_acyclic dg o1 o2 fuel hfresh hcomp hacyc ho1 hfuel
      obtain ⟨dB, LB, hB, cB, ndB, regB, readyB, allB⟩ :=
        build_run_of_acyclic dg o3 o4 fuel2 hfresh hcomp hacyc ho3 hfuel2
      refine ⟨_, _, hA, hB, ?_⟩
      simp only
      rcases build_err dg.static LA dA [] with eA | eA <;>
        rcases build_err dg.static LB dB [] with eB | eB
      · rw [eA, eB]
      · exfalso
        have hg := goodVals_of_build_ok dg hcomp LA dA cA ndA regA readyA allA eA
        have := build_ok_of_goodVals dg _ hg LB dB [] [] cB regB readyB (fun _ h => by simp at h)
        rw [this] at eB
        simp at eB
      · exfalso
        have hg := goodVals_of_build_ok dg hcomp LB dB cB ndB regB readyB allB eB
        have := build_ok_of_goodVals dg _ hg LA dA [] [] cA regA readyA (fun _ h => by simp at h)
        rw [this] at eA
        simp at eA
      · rw [eA, eB]
    · obtain ⟨r, h1, h2⟩ := build_err_of_cycle dg o1 o2 fuel hfresh hcomp hacyc ho1 ho2 hfuel
      obtain ⟨r2, h3, h4⟩ := build_err_of_cycle dg o3 o4 fuel2 hfresh hcomp hacyc ho3 ho4 hfuel2
      exact ⟨r, r2, h1, h3, by rw [h2, h4]⟩
  · obtain ⟨r, h1, h2⟩ := build_err_of_missing dg o1 o2 fuel ho1 hcomp
    obtain ⟨r2, h3, h4⟩ := build_err_of_missing dg o3 o4 fuel2 ho3 hcomp
    exact ⟨r, r2, h1, h3, by rw [h2, h4]⟩

theorem outcome_independent_of_order_witness :
    (Fresh graph1.deps ∧ IterOrder graph1.deps [0, 1, 2, 3] ∧
      IterOrder graph1.deps [3, 2, 1, 0]) ∧
    ∃ r r2, Build 5 [0, 1, 2, 3] [3, 2, 1, 0] graph1 = some r ∧
      Build 7 [3, 2, 1, 0] [0, 1, 2, 3] graph1 = some r2 ∧ r.err = r2.err :=
  ⟨⟨fresh_graph1, iterOrder_graph1, iterOrder_graph1_rev⟩,
    outcome_independent_of_order graph1 [0, 1, 2, 3] [3, 2, 1, 0] [3, 2, 1, 0] [0, 1, 2, 3] 5 7
      fresh_graph1 iterOrder_graph1 iterOrder_graph1_rev iterOrder_graph1_rev
      iterOrder_graph1 (by decide) (by decide)⟩

/-! ## Sorting from an arbitrary state of the node map -/

theorem keyOrder_of_iterOrder {deps : DepMap} {o : List Ident} (h : IterOrder deps o) :
    KeyOrder deps o :=
  ⟨h.1, fun k hk => (h.2 k).1 hk, fun _ a _ ha => (h.2 a).2 ha⟩

theorem keyOrder_congr (deps deps2 : DepMap) (o : List Ident)
    (hc : ∀ i, constructorOf deps2 i = constructorOf deps i) (h : KeyOrder deps o) :
    KeyOrder deps2 o := by
  refine ⟨h.1, fun k hk => ?_, fun k a ha hreg => ?_⟩
  · rw [isSome_of_constructorOf hc]; exact h.2.1 k hk
  · rw [insOf_of_constructorOf hc] at ha
    rw [isSome_of_constructorOf hc] at hreg
    exact h.2.2 k a ha hreg

theorem keyOrder_perm {deps : DepMap} {o o2 : List Ident} (h : KeyOrder deps o)
    (p : o.Perm o2) : KeyOrder deps o2 :=
  ⟨p.nodup_iff.1 h.1, fun k hk => h.2.1 k (p.mem_iff.2 hk),
    fun k a ha hreg => p.mem_iff.1 (h.2.2 k a ha hreg)⟩

/-- What a successful `buildGraph` leaves, from any state of the node map:
every parameter type of a visited node is static or has a node, every visited
node has its `needs` raised by the number of its non-static parameter
positions, every `neededBy` list has gained the visited nodes that require its
node, and the start nodes are the visited nodes with `needs = 0`. -/
theorem buildGraph_ok_general (dg : DependencyGraph) (o1 : List Ident) (deps1 : DepMap)
    (start : List Ident) (hnd : o1.Nodup) (hreg : ∀ k ∈ o1, (dg.deps k).isSome)
    (hbg : buildGraph dg.deps dg.static o1 = (deps1, .ok start)) :
    (∀ k ∈ o1, ∀ a ∈ insOf dg.deps k, (dg.static a).isSome ∨ (dg.deps a).isSome) ∧
    (∀ i, constructorOf deps1 i = constructorOf dg.deps i) ∧
    (∀ i, interfaceOf deps1 i = interfaceOf dg.deps i) ∧
    (∀ i, needsOf deps1 i
      = needsOf dg.deps i + if i ∈ o1 then ((prereqs dg i).length : Int) else 0) ∧
    (∀ i x, (neededByOf deps1 i).count x
      = (neededByOf dg.deps i).count x + if x ∈ o1 then (prereqs dg x).count i else 0) ∧
    start = o1.filter (fun k => decide (needsOf deps1 k = 0)) := by
  have hc : ∀ k ∈ o1, ∀ a ∈ insOf dg.deps k, (dg.static a).isSome ∨ (dg.deps a).isSome := by
    intro k hk a ha
    by_contra hcon
    have hs : dg.static a = none := by
      cases hsa : dg.static a with
      | none => rfl
      | some v => exact absurd (Or.inl (by simp [hsa])) hcon
    have hda : dg.deps a = none := by
      cases hd : dg.deps a with
      | none => rfl
      | some v => exact absurd (Or.inr (by simp [hd])) hcon
    have := buildGraphLoop_error dg.static o1 dg.deps [] ⟨k, hk, a, ha, hs, hda⟩
    unfold buildGraph at hbg
    rw [hbg] at this
    simp at this
  obtain ⟨d, h1, h2, h3⟩ := buildGraphLoop_ok dg.static o1 dg.deps [] hnd hreg hc
  have hfr := buildGraphLoop_frame dg.static o1 dg.deps []
  unfold buildGraph at hbg
  rw [hbg] at h1 hfr
  simp only [Prod.mk.injEq, Except.ok.injEq, List.nil_append] at h1
  obtain ⟨rfl, h1⟩ := h1
  refine ⟨hc, hfr.1, hfr.2, h2, h3, ?_⟩
  rw [h1]
  apply List.filter_congr
  intro k hk
  rw [h2]
  simp [hk, prereqs]

theorem occurrences_append (deps : DepMap) (l1 l2 : List Ident) (x : Ident) :
    occurrences deps (l1 ++ l2) x = occurrences deps l1 x + occurrences deps l2 x := by
  simp [occurrences]

theorem occurrences_singleton (deps : DepMap) (n x : Ident) :
    occurrences deps [n] x = (neededByOf deps n).count x := by
  simp [occurrences]

theorem occurrences_cons (deps : DepMap) (n : Ident) (l : List Ident) (x : Ident) :
    occurrences deps (n :: l) x = (neededByOf deps n).count x + occurrences deps l x := by
  simp [occurrences]

theorem le_occurrences_of_mem (deps : DepMap) (l : List Ident) (y x : Ident) (hy : y ∈ l) :
    (neededByOf deps y).count x ≤ occurrences deps l x := by
  obtain ⟨a, b, rfl⟩ := List.append_of_mem hy
  rw [occurrences_append, occurrences_cons]
  omega

/-- The invariant holds when `traverse` starts on what `buildGraph` left. -/
theorem sortInv_init (dg : DependencyGraph) (o1 : List Ident) (deps1 : DepMap)
    (start : List Ident) (hnd : o1.Nodup) (hreg : ∀ k ∈ o1, (dg.deps k).isSome)
    (hbg : buildGraph dg.deps dg.static o1 = (deps1, .ok start)) :
    SortInv deps1 deps1 o1 start [] := by
  obtain ⟨-, hc, -, -, -, hstart⟩ := buildGraph_ok_general dg o1 deps1 start hnd hreg hbg
  have hmem : ∀ x, x ∈ start ↔ x ∈ o1 ∧ needsOf deps1 x = 0 := by
    intro x; rw [hstart, List.mem_filter]; simp
  refine ⟨fun _ => rfl, fun _ => rfl, ?_, ?_, ?_, ?_, ?_, ?_, ?_⟩
  · rw [List.nil_append, hstart]
    exact hnd.filter _
  · intro x hx
    rw [isSome_of_constructorOf hc]
    exact hreg x ((hmem x).1 (by simpa using hx)).1
  · intro x hx
    rw [((hmem x).1 (by simpa using hx)).2]
  · intro k hk hz
    simpa using (hmem k).2 ⟨hk, hz⟩
  · intro i; simp
  · intro x _; simp [occurrences]
  · intro l1 x l2 h; simp at h

/-- One iteration of the `for` loop of `traverse` keeps the invariant. -/
theorem sortInv_step (deps1 deps : DepMap) (o1 : List Ident) (n : Ident) (S L : List Ident)
    (hinv : SortInv deps1 deps o1 (n :: S) L) :
    ∃ d, deps n = some d ∧
      SortInv deps1 (setNode (relax d.neededBy deps S).1 n clearNeededBy) o1
        (relax d.neededBy deps S).2 (L ++ [n]) := by
  have hnmem : n ∈ L ++ n :: S := by simp
  have hnd := List.nodup_append.1 hinv.nodup
  have hnL : n ∉ L := fun h => hnd.2.2 h (List.mem_cons_self _ _)
  have hreg : ∀ i, (deps i).isSome = (deps1 i).isSome := isSome_of_constructorOf hinv.ctor
  have hn1 : (deps1 n).isSome := hinv.alloc n hnmem
  obtain ⟨d, hd⟩ := Option.isSome_iff_exists.1 ((hreg n).trans hn1)
  refine ⟨d, hd, ?_⟩
  have hms : d.neededBy = neededByOf deps1 n := by
    rw [← neededByOf_eq_of_some hd, hinv.nb]; simp [hnL]
  obtain ⟨N, h1, h2, h3, h4, h5, h6, h7⟩ := relax_spec d.neededBy deps S
  have hS2 : (relax d.neededBy deps S).2 = S ++ N := h1
  have hdec : ∀ x, needsOf (relax d.neededBy deps S).1 x ≤ needsOf deps x := by
    intro x
    rw [h7]
    split <;> omega
  have e : L ++ [n] ++ (S ++ N) = (L ++ n :: S) ++ N := by simp
  refine ⟨?_, ?_, ?_, ?_, ?_, ?_, ?_, ?_, ?_⟩
  · intro i; rw [constructorOf_clear, h4]; exact hinv.ctor i
  · intro i; rw [interfaceOf_clear, h5]; exact hinv.iface i
  · rw [hS2, e, List.nodup_append]
    refine ⟨hinv.nodup, h2, ?_⟩
    intro x hx hxN
    have a := hinv.nonpos x hx
    have b := ((h3 x).1 hxN).2.1
    omega
  · intro x hx
    rw [hS2, e] at hx
    rcases List.mem_append.1 hx with h | h
    · exact hinv.alloc x h
    · rw [← hreg]; exact ((h3 x).1 h).1
  · intro x hx
    rw [hS2, e] at hx
    rw [needsOf_clear]
    rcases List.mem_append.1 hx with h | h
    · exact le_trans (hdec x) (hinv.nonpos x h)
    · obtain ⟨a, b, c⟩ := (h3 x).1 h
      rw [h7, a]
      simp only [if_true]
      omega
  · intro k hk hz
    rw [needsOf_clear, h7] at hz
    rw [hS2, e]
    by_cases hka : (deps k).isSome
    · simp only [hka, if_true] at hz
      by_cases hc0 : d.neededBy.count k = 0
      · rw [hc0] at hz
        exact List.mem_append_left _ (hinv.zero_mem k hk (by simpa using hz))
      · exact List.mem_append_right _ ((h3 k).2 ⟨hka, by omega, by omega⟩)
    · simp only [hka] at hz
      exact List.mem_append_left _ (hinv.zero_mem k hk (by simpa using hz))
  · intro i
    rw [neededByOf_clear, h6, hinv.nb]
    by_cases hi : i = n
    · simp [hi]
    · simp [hi]
  · intro x hx
    rw [needsOf_clear, h7, hreg, hx, hinv.needs x hx, occurrences_append,
      occurrences_singleton, hms]
    simp only [if_true]
    push_cast
    ring
  · intro l1 x l2 hsplit
    rcases List.eq_nil_or_concat l2 with rfl | ⟨l3, b, rfl⟩
    · have h9 : L ++ [n] = l1 ++ [x] := hsplit
      have := List.append_inj' h9 rfl
      obtain ⟨rfl, hx⟩ := this
      simp only [List.cons.injEq, and_true] at hx
      subst hx
      have a := hinv.needs n hn1
      have b := hinv.nonpos n hnmem
      omega
    · have h9 : L ++ [n] = (l1 ++ x :: l3) ++ [b] := by
        rw [hsplit]; simp
      have := List.append_inj' h9 rfl
      exact hinv.early l1 x l3 this.1

/-- The output and the worklist together hold no more nodes than there are. -/
theorem sortInv_length_le (deps1 deps : DepMap) (o1 S L H : List Ident)
    (hH : ∀ k, (deps1 k).isSome → k ∈ H) (hinv : SortInv deps1 deps o1 S L) :
    (L ++ S).length ≤ H.length := by
  apply List.Subperm.length_le
  apply List.subperm_of_subset hinv.nodup
  intro x hx
  exact hH x (hinv.alloc x hx)

/-- From every state that satisfies the invariant, with more fuel than there
are nodes still to output, the loop of `traverse` runs to the end. -/
theorem traverseLoop_sortInv (deps1 : DepMap) (o1 H : List Ident)
    (hH : ∀ k, (deps1 k).isSome → k ∈ H) :
    ∀ (fuel : Nat) (deps : DepMap) (S L : List Ident),
      SortInv deps1 deps o1 S L → H.length + 1 ≤ fuel + L.length →
      ∃ deps2 L2, traverseLoop fuel deps S L = some (deps2, L2) ∧
        SortInv deps1 deps2 o1 [] L2 := by
  intro fuel
  induction fuel with
  | zero =>
    intro deps S L hinv hfuel
    have := sortInv_length_le deps1 deps o1 S L H hH hinv
    simp only [List.length_append] at this
    omega
  | succ fuel ih =>
    intro deps S L hinv hfuel
    cases S with
    | nil => exact ⟨deps, L, by simp [traverseLoop], hinv⟩
    | cons n S =>
      obtain ⟨d, hd, hstep⟩ := sortInv_step deps1 deps o1 n S L hinv
      have hlen := sortInv_length_le deps1 deps o1 (n :: S) L H hH hinv
      have hfuel2 : H.length + 1 ≤ fuel + (L ++ [n]).length := by
        simp only [List.length_append, List.length_singleton]
        simp only [List.length_append, List.length_cons] at hlen
        omega
      obtain ⟨deps2, L2, h1, h2⟩ := ih _ _ _ hstep hfuel2
      refine ⟨deps2, L2, ?_, h2⟩
      simp only [traverseLoop, hd]
      exact h1

/-- Whatever the loop of `traverse` returns, from a state that satisfies the
invariant, satisfies the invariant with an empty worklist. -/
theorem traverseLoop_sortInv_of_some (deps1 : DepMap) (o1 : List Ident) :
    ∀ (fuel : Nat) (deps : DepMap) (S L : List Ident) (deps2 : DepMap) (L2 : List Ident),
      SortInv deps1 deps o1 S L → traverseLoop fuel deps S L = some (deps2, L2) →
      SortInv deps1 deps2 o1 [] L2 := by
  intro fuel
  induction fuel with
  | zero => intro deps S L deps2 L2 _ h; simp [traverseLoop] at h
  | succ fuel ih =>
    intro deps S L deps2 L2 hinv h
    cases S with
    | nil =>
      simp only [traverseLoop, Option.some.injEq, Prod.mk.injEq] at h
      obtain ⟨rfl, rfl⟩ := h
      exact hinv
    | cons n S =>
      obtain ⟨d, hd, hstep⟩ := sortInv_step deps1 deps o1 n S L hinv
      simp only [traverseLoop, hd] at h
      exact ih _ _ _ _ _ hstep h

/-- Whenever `buildGraph` succeeds and the loop of `traverse` returns, from any
state of the node map, the invariant holds for what the loop returns. -/
theorem sorted_general (dg : DependencyGraph) (o1 : List Ident) (fuel : Nat)
    (hnd : o1.Nodup) (hreg : ∀ k ∈ o1, (dg.deps k).isSome)
    (deps1 deps2 : DepMap) (start L : List Ident)
    (hbg : buildGraph dg.deps dg.static o1 = (deps1, .ok start))
    (htl : traverseLoop fuel deps1 start [] = some (deps2, L)) :
    SortInv deps1 deps2 o1 [] L :=
  traverseLoop_sortInv_of_some deps1 o1 fuel deps1 start [] deps2 L
    (sortInv_init dg o1 deps1 start hnd hreg hbg) htl

/-- Whenever `buildGraph` succeeds, from any state of the node map, the loop of
`traverse` returns with more fuel than there are nodes. -/
theorem sorts_general (dg : DependencyGraph) (o1 H : List Ident) (fuel : Nat)
    (hnd : o1.Nodup) (hreg : ∀ k ∈ o1, (dg.deps k).isSome)
    (hH : ∀ k, (dg.deps k).isSome → k ∈ H)
    (deps1 : DepMap) (start : List Ident)
    (hbg : buildGraph dg.deps dg.static o1 = (deps1, .ok start))
    (hfuel : H.length < fuel) :
    ∃ deps2 L, traverseLoop fuel deps1 start [] = some (deps2, L) ∧
      SortInv deps1 deps2 o1 [] L := by
  obtain ⟨-, hc, -, -, -, -⟩ := buildGraph_ok_general dg o1 deps1 start hnd hreg hbg
  have hH1 : ∀ k, (deps1 k).isSome → k ∈ H := by
    intro k hk
    rw [isSome_of_constructorOf hc] at hk
    exact hH k hk
  exact traverseLoop_sortInv deps1 o1 H hH1 fuel deps1 start []
    (sortInv_init dg o1 deps1 start hnd hreg hbg) (by simp only [List.length_nil]; omega)

/-- When `hasEdges` finds nothing after the loop, the output holds no node
twice, holds every bound key, and a bound key stands in it after every node
of the output whose `neededBy` list, as `buildGraph` left it, holds that
key. -/
theorem sortInv_end (deps1 deps2 : DepMap) (o1 o2 L : List Ident)
    (hperm : o2.Perm o1)
    (hinv : SortInv deps1 deps2 o1 [] L) (hed : hasEdges deps2 o2 = false) :
    L.Nodup ∧ (∀ k ∈ o1, k ∈ L) ∧
    ∀ x ∈ o1, ∀ y ∈ L, 1 ≤ (neededByOf deps1 y).count x →
      L.indexOf y < L.indexOf x := by
  have hnd : L.Nodup := by simpa using hinv.nodup
  have hzero : ∀ k ∈ o1, needsOf deps2 k = 0 := by
    intro k hk
    by_contra hne
    have : hasEdges deps2 o2 = true := (hasEdges_iff deps2 o2).2 ⟨k, hperm.mem_iff.2 hk, hne⟩
    rw [hed] at this
    simp at this
  have hall : ∀ k ∈ o1, k ∈ L := by
    intro k hk
    simpa using hinv.zero_mem k hk (hzero k hk)
  refine ⟨hnd, hall, ?_⟩
  intro x hxo y hyL hcount
  have hx : x ∈ L := hall x hxo
  obtain ⟨l1, l2, hsplit⟩ := List.append_of_mem hx
  have hx1 : (deps1 x).isSome := hinv.alloc x (by simpa using hx)
  have hxz := hzero x hxo
  have hneeds := hinv.needs x hx1
  have hearly := hinv.early l1 x l2 hsplit
  rw [hsplit, occurrences_append, occurrences_cons] at hneeds
  have hrest : (neededByOf deps1 x).count x + occurrences deps1 l2 x = 0 := by
    push_cast at hneeds
    omega
  rw [hsplit] at hyL hnd
  have hxl1 : x ∉ l1 := by
    have := List.nodup_append.1 hnd
    exact fun h => this.2.2 h (List.mem_cons_self _ _)
  have hyl1 : y ∈ l1 := by
    rcases List.mem_append.1 hyL with h | h
    · exact h
    · exfalso
      rcases List.mem_cons.1 h with h | h
      · subst h; omega
      · have := le_occurrences_of_mem deps1 l2 y x h
        omega
  rw [hsplit, List.indexOf_append_of_mem hyl1, List.indexOf_append_of_not_mem hxl1,
    List.indexOf_cons_self]
  have := List.indexOf_lt_length.2 hyl1
  omega

/-- After a successful sort from any state of the node map, the order holds no
node twice, holds every bound key, and every bound key stands in it after the
nodes it requires, which are bound keys too. -/
theorem order_general (dg : DependencyGraph) (o1 o2 : List Ident) (fuel : Nat)
    (ho1 : KeyOrder dg.deps o1) (ho2 : o2.Perm o1)
    (deps1 deps2 : DepMap) (start L : List Ident)
    (hbg : buildGraph dg.deps dg.static o1 = (deps1, .ok start))
    (htl : traverseLoop fuel deps1 start [] = some (deps2, L))
    (hed : hasEdges deps2 o2 = false) :
    L.Nodup ∧ (∀ k ∈ o1, k ∈ L) ∧ (∀ k ∈ L, (deps2 k).isSome) ∧
    (∀ i, constructorOf deps2 i = constructorOf dg.deps i) ∧
    (∀ i, interfaceOf deps2 i = interfaceOf dg.deps i) ∧
    (∀ x ∈ o1, ∀ y ∈ prereqs dg x, y ∈ o1 ∧ L.indexOf y < L.indexOf x) := by
  obtain ⟨hcomp, hc, hi, -, hnb, -⟩ :=
    buildGraph_ok_general dg o1 deps1 start ho1.1 ho1.2.1 hbg
  have hinv := sorted_general dg o1 fuel ho1.1 ho1.2.1 deps1 deps2 start L hbg htl
  obtain ⟨hnd, hall, hord⟩ := sortInv_end deps1 deps2 o1 o2 L ho2 hinv hed
  have hctor : ∀ i, constructorOf deps2 i = constructorOf dg.deps i :=
    fun i => (hinv.ctor i).trans (hc i)
  refine ⟨hnd, hall, ?_, hctor, fun i => (hinv.iface i).trans (hi i), ?_⟩
  · intro k hk
    rw [isSome_of_constructorOf hinv.ctor]
    exact hinv.alloc k (by simpa using hk)
  · intro x hx y hy
    have hy2 := hy
    unfold prereqs at hy2
    rw [mem_nonStatic] at hy2
    have hyreg : (dg.deps y).isSome := by
      rcases hcomp x hx y hy2.1 with h | h
      · simp [hy2.2] at h
      · exact h
    have hyo : y ∈ o1 := ho1.2.2 x y hy2.1 hyreg
    refine ⟨hyo, hord x hx y (hall y hyo) ?_⟩
    rw [hnb]
    simp only [hx, if_true]
    have : 0 < (prereqs dg x).count y := List.count_pos_iff.2 hy
    omega

/-- A run of `build` over any list of nodes: the call made for a bound key
whose prerequisites have all been called before it is well-argued. -/
theorem build_trace_bound (dg : DependencyGraph) (keys : List Ident) :
    ∀ (L : List Ident) (deps : DepMap) (calls : List Call),
      (∀ i, constructorOf deps i = constructorOf dg.deps i) →
      (∀ k ∈ L, (deps k).isSome) →
      (∀ l1 k l2, L = l1 ++ k :: l2 → k ∈ keys →
        ∀ a ∈ prereqs dg k, a ∈ calls.map Prod.fst ++ l1) →
      (∀ y ∈ calls.map Prod.fst, ∃ c args v, constructorOf dg.deps y = some c ∧
        (y, args) ∈ calls ∧ c.call args = [v] ∧ interfaceOf deps y = Value.valid v) →
      (∀ j (h : j < calls.length), (calls.get ⟨j, h⟩).1 ∈ keys →
        CallOK dg (calls.take j) (calls.get ⟨j, h⟩)) →
      ∀ j (h : j < (build dg.static L deps calls).2.1.length),
        ((build dg.static L deps calls).2.1.get ⟨j, h⟩).1 ∈ keys →
        CallOK dg ((build dg.static L deps calls).2.1.take j)
          ((build dg.static L deps calls).2.1.get ⟨j, h⟩) := by
  intro L
  induction L with
  | nil => intro deps calls _ _ _ _ h; simpa [build] using h
  | cons k L ih =>
    intro deps calls hctor hreg hready hval htr
    have hk := hreg k (List.mem_cons_self _ _)
    obtain ⟨d, hd⟩ := Option.isSome_iff_exists.1 hk
    have hins : d.Constructor.ins = insOf dg.deps k := by
      rw [← insOf_of_constructorOf hctor, insOf_eq_of_some hd]
    have hcall : k ∈ keys →
        CallOK dg calls (k, buildArgs deps dg.static (insOf dg.deps k)) := by
      intro hkk
      apply callOK_buildArgs dg deps calls k _ hval
      intro a ha
      simpa using hready [] k L rfl hkk a ha
    have htr1 : ∀ j (h : j < (calls ++ [(k, buildArgs deps dg.static
          (insOf dg.deps k))]).length),
        ((calls ++ [(k, buildArgs deps dg.static (insOf dg.deps k))]).get ⟨j, h⟩).1 ∈ keys →
        CallOK dg ((calls ++ [(k, buildArgs deps dg.static (insOf dg.deps k))]).take j)
          ((calls ++ [(k, buildArgs deps dg.static (insOf dg.deps k))]).get ⟨j, h⟩) := by
      intro j hj
      by_cases hlt : j < calls.length
      · have h1 : (calls ++ [(k, buildArgs deps dg.static (insOf dg.deps k))]).take j
            = calls.take j := by
          rw [List.take_append_of_le_length (Nat.le_of_lt hlt)]
        have h2 : (calls ++ [(k, buildArgs deps dg.static (insOf dg.deps k))]).get ⟨j, hj⟩
            = calls.get ⟨j, hlt⟩ := by
          simp only [List.get_eq_getElem]
          exact List.getElem_append_left hlt
        rw [h1, h2]
        exact htr j hlt
      · have hj' : j = calls.length := by
          simp only [List.length_append, List.length_singleton] at hj
          omega
        subst hj'
        have h1 : (calls ++ [(k, buildArgs deps dg.static (insOf dg.deps k))]).take
            calls.length = calls := by
          simp
        have h2 : (calls ++ [(k, buildArgs deps dg.static (insOf dg.deps k))]).get
            ⟨calls.length, hj⟩ = (k, buildArgs deps dg.static (insOf dg.deps k)) := by
          simp
        rw [h1, h2]
        exact hcall
    by_cases hone : ∃ r, d.Constructor.call (buildArgs deps dg.static d.Constructor.ins) = [r]
    · obtain ⟨r, hr⟩ := hone
      have e : build dg.static (k :: L) deps calls
          = build dg.static L (setNode deps k (setInterface (Value.valid r)))
              (calls ++ [(k, buildArgs deps dg.static d.Constructor.ins)]) := by
        simp only [build, hd, hr]
      rw [e]
      apply ih
      · intro i; rw [constructorOf_setInterface]; exact hctor i
      · intro j hj; rw [isSome_setNode]; exact hreg j (List.mem_cons_of_mem _ hj)
      · intro l1 x l2 hsplit hx a ha
        have := hready (k :: l1) x l2 (by rw [hsplit]; rfl) hx a ha
        simpa [List.append_assoc] using this
      · intro y hy
        by_cases hyk : y = k
        · subst hyk
          refine ⟨d.Constructor, _, r, ?_, List.mem_append_right _ (List.mem_singleton_self _),
            hr, ?_⟩
          · rw [← hctor]; simp [constructorOf, hd]
          · rw [interfaceOf_setInterface _ _ _ _ hk]; simp
        · have hy' : y ∈ calls.map Prod.fst := by
            simp only [List.map_append, List.map_cons, List.map_nil, List.mem_append,
              List.mem_singleton] at hy
            rcases hy with hy | hy
            · exact hy
            · exact absurd hy hyk
          obtain ⟨c, args, v, a1, a2, a3, a4⟩ := hval y hy'
          refine ⟨c, args, v, a1, List.mem_append_left _ a2, a3, ?_⟩
          rw [interfaceOf_setInterface _ _ _ _ hk]
          simp [hyk, a4]
      · rw [hins]; exact htr1
    · have e : build dg.static (k :: L) deps calls
          = (deps, calls ++ [(k, buildArgs deps dg.static d.Constructor.ins)],
              some BuildError.ErrUnexpectedConstructorContext) := by
        simp only [build, hd]
        split
        · rename_i r hr; exact absurd ⟨r, hr⟩ hone
        · rfl
      rw [e, hins]
      exact htr1

/-! ## The example states with a replaced node -/

/-- The function `build` never changes a constructor. -/
theorem build_ctor (s : StaticMap) :
    ∀ (L : List Ident) (deps : DepMap) (calls : List Call) (i : Ident),
      constructorOf (build s L deps calls).1 i = constructorOf deps i := by
  intro L
  induction L with
  | nil => intro deps calls i; simp [build]
  | cons k L ih =>
    intro deps calls i
    cases hd : deps k with
    | none => simpa [build, hd] using ih deps calls i
    | some d =>
      simp only [build, hd]
      split
      · rw [ih]; simp
      · rfl

/-- A run of `Build` never changes a constructor. -/
theorem Build_ctor (fuel : Nat) (o1 o2 : List Ident) (dg : DependencyGraph) (r : BuildResult)
    (hb : Build fuel o1 o2 dg = some r) (i : Ident) :
    constructorOf r.graph.deps i = constructorOf dg.deps i := by
  have hfr := (buildGraphLoop_frame dg.static o1 dg.deps []).1
  rcases Build_cases fuel o1 o2 dg r hb with ⟨deps1, e, hbg, hr⟩ |
    ⟨deps1, start, deps2, L, hbg, htl, ⟨-, hr⟩ | ⟨-, -, hr⟩⟩
  · unfold buildGraph at hbg
    rw [hbg] at hfr
    subst hr
    exact hfr i
  · unfold buildGraph at hbg
    rw [hbg] at hfr
    subst hr
    exact (traverseLoop_ctor fuel deps1 start [] _ htl i).trans (hfr i)
  · unfold buildGraph at hbg
    rw [hbg] at hfr
    subst hr
    simp only
    rw [build_ctor]
    exact (traverseLoop_ctor fuel deps1 start [] _ htl i).trans (hfr i)

theorem graphAfterBuild_ctor (fuel : Nat) (o1 o2 : List Ident) (dg : DependencyGraph)
    (i : Ident) :
    constructorOf (graphAfterBuild fuel o1 o2 dg).deps i = constructorOf dg.deps i := by
  unfold graphAfterBuild
  cases h : Build fuel o1 o2 dg with
  | none => rfl
  | some r => exact Build_ctor fuel o1 o2 dg r h i

theorem iterOrder_graphAfterBuild (fuel : Nat) (o1 o2 : List Ident) (dg : DependencyGraph)
    (o : List Ident) (h : IterOrder dg.deps o) :
    IterOrder (graphAfterBuild fuel o1 o2 dg).deps o :=
  iterOrder_congr dg.deps _ o (graphAfterBuild_ctor fuel o1 o2 dg) h

/-- Registering a bound key again does not change the keys. -/
theorem iterOrder_AddDep_bound {dg : DependencyGraph} {o : List Ident} (i : Ident) (c : Func)
    (h : IterOrder dg.deps o) (hi : i ∈ o) : IterOrder (AddDep dg i c).deps o := by
  refine ⟨h.1, fun k => ?_⟩
  by_cases hk : k = i
  · simp [AddDep, hk, hi]
  · simp [AddDep, hk, h.2 k]

theorem insOf_AddDepOver (dg : DependencyGraph) (i : Ident) (c : Func) (p k : Ident) :
    insOf (AddDepOver dg i c p).deps k
      = if k = i then c.ins else if k = p then insOf dg.deps i else insOf dg.deps k := by
  unfold insOf AddDepOver
  by_cases hki : k = i
  · simp [hki]
  · by_cases hkp : k = p
    · subst hkp
      simp only [hki, if_false, if_true]
      cases dg.deps i <;> simp [repoint]
    · simp only [hki, hkp, if_false]
      cases dg.deps k <;> simp [repoint]

theorem isSome_AddDepOver (dg : DependencyGraph) (i : Ident) (c : Func) (p k : Ident) :
    ((AddDepOver dg i c p).deps k).isSome
      = if k = i then true else if k = p then (dg.deps i).isSome else (dg.deps k).isSome := by
  unfold AddDepOver
  by_cases hki : k = i
  · simp [hki]
  · by_cases hkp : k = p
    · subst hkp
      simp [hki]
    · simp [hki, hkp]

/-- Registering a bound key again, while its node is still pointed at, leaves
the keys as they were; the replaced node is kept under a name that is not a
parameter type. -/
theorem keyOrder_AddDepOver {dg : DependencyGraph} {o : List Ident} (i : Ident) (c : Func)
    (p : Ident) (h : IterOrder dg.deps o) (hi : i ∈ o) (hp : p ∉ o)
    (hpc : p ∉ c.ins) (hpi : ∀ k, p ∉ insOf dg.deps k) :
    KeyOrder (AddDepOver dg i c p).deps o := by
  have hmem : ∀ a, a ≠ p → ((AddDepOver dg i c p).deps a).isSome → a ∈ o := by
    intro a hap ha
    rw [isSome_AddDepOver] at ha
    by_cases hai : a = i
    · rw [hai]; exact hi
    · simp only [hai, hap, if_false] at ha
      exact (h.2 a).2 ha
  refine ⟨h.1, fun k hk => ?_, fun k a ha hreg => ?_⟩
  · rw [isSome_AddDepOver]
    by_cases hki : k = i
    · simp [hki]
    · have hkp : k ≠ p := fun e => hp (e ▸ hk)
      simp only [hki, hkp, if_false]
      exact (h.2 k).1 hk
  · apply hmem a _ hreg
    rintro rfl
    rw [insOf_AddDepOver] at ha
    by_cases hki : k = i
    · simp only [hki, if_true] at ha
      exact hpc ha
    · by_cases hkp : k = a
      · subst hkp
        simp only [hki, if_false, if_true] at ha
        exact hpi i ha
      · simp only [hki, hkp, if_false] at ha
        exact hpi k ha

/-- The nodes after a bound key has been registered again: the bound keys and
the replaced node. -/
theorem iterOrder_AddDepOver {dg : DependencyGraph} {o : List Ident} (i : Ident) (c : Func)
    (p : Ident) (h : IterOrder dg.deps o) (hi : i ∈ o) (hp : p ∉ o) :
    IterOrder (AddDepOver dg i c p).deps (p :: o) := by
  refine ⟨List.nodup_cons.2 ⟨hp, h.1⟩, fun k => ?_⟩
  rw [isSome_AddDepOver]
  by_cases hki : k = i
  · simp [hki, hi]
  · by_cases hkp : k = p
    · subst hkp
      simp [hki, ← h.2 i, hi]
    · simp [hki, hkp, h.2 k]

/-- Registering a key that has no node, for a constructor whose parameter
types are no names of replaced nodes, adds the key. -/
theorem keyOrder_AddDep {dg : DependencyGraph} {o : List Ident} (i : Ident) (c : Func)
    (h : KeyOrder dg.deps o) (hi : i ∉ o)
    (hc : ∀ a ∈ c.ins, (dg.deps a).isSome → a ∈ o) :
    KeyOrder (AddDep dg i c).deps (i :: o) := by
  refine ⟨List.nodup_cons.2 ⟨hi, h.1⟩, fun k hk => ?_, fun k a ha hreg => ?_⟩
  · by_cases hki : k = i
    · simp [AddDep, hki]
    · simp only [AddDep, hki, if_false]
      rcases List.mem_cons.1 hk with e | hk
      · exact absurd e hki
      · exact h.2.1 k hk
  · by_cases hai : a = i
    · simp [hai]
    · apply List.mem_cons_of_mem
      have hreg2 : (dg.deps a).isSome := by simpa [AddDep, hai] using hreg
      by_cases hki : k = i
      · have : a ∈ c.ins := by simpa [insOf, AddDep, hki] using ha
        exact hc a this hreg2
      · have : a ∈ insOf dg.deps k := by simpa [insOf, AddDep, hki] using ha
        exact h.2.2 k a this hreg2

theorem iterOrder_edgeThenMissing : IterOrder edgeThenMissing.deps [0, 1] :=
  iterOrder_perm (iterOrder_AddDep _ _ (iterOrder_AddDep _ _ iterOrder_New (by decide))
    (by decide)) (by decide)

theorem iterOrder_afterFailedBuild : IterOrder afterFailedBuild.deps [0, 1] :=
  iterOrder_graphAfterBuild _ _ _ _ _ iterOrder_edgeThenMissing

theorem insOf_afterFailedBuild (k : Ident) :
    insOf afterFailedBuild.deps k = if k = 1 then [5] else if k = 0 then [1] else [] := by
  unfold afterFailedBuild
  rw [insOf_of_constructorOf (graphAfterBuild_ctor _ _ _ _)]
  by_cases h1 : k = 1
  · subst h1; rfl
  · by_cases h0 : k = 0
    · subst h0; rfl
    · simp [insOf, edgeThenMissing, AddDep, New, h1, h0]

theorem keyOrder_reRegistered : KeyOrder reRegistered.deps [0, 1] :=
  keyOrder_AddDepOver 0 _ 100 iterOrder_afterFailedBuild (by decide) (by decide)
    (by simp [unary]) (by
      intro k
      rw [insOf_afterFailedBuild]
      split
      · decide
      · split <;> decide)

theorem iterOrder_reRegistered : IterOrder reRegistered.deps [100, 0, 1] :=
  iterOrder_AddDepOver 0 _ 100 iterOrder_afterFailedBuild (by decide) (by decide)

theorem keyOrder_reRegisteredMore : KeyOrder reRegisteredMore.deps [2, 0, 1] :=
  keyOrder_AddDep 2 _ keyOrder_reRegistered (by decide)
    (by intro a ha _; simp [unary] at ha; simp [ha])

theorem keyOrder_reRegisteredNullary : KeyOrder reRegisteredNullary.deps [2, 0, 1] :=
  keyOrder_AddDep 2 _ keyOrder_reRegistered (by decide)
    (by intro a ha _; simp [nullary] at ha; simp [ha])

/-! ## Claims about `Build` in any state of the node map -/

/-- The graph `reRegisteredMore` is not freshly registered. -/
theorem reRegisteredMore_not_fresh : ¬ Fresh reRegisteredMore.deps := by
  intro h
  have := (h 1).2
  revert this
  decide

/-- The graph `reRegisteredNullary` is not freshly registered. -/
theorem reRegisteredNullary_not_fresh : ¬ Fresh reRegisteredNullary.deps := by
  intro h
  have := (h 1).2
  revert this
  decide

/-- C2: topological validity.  Whenever `Build` returns no error, in any state
of the node map (freshly registered or not, replaced nodes that are still
pointed at included), and node `x` of the graph, a bound key, requires node
`y` (a parameter type of the constructor of `x` that is registered and not
static), the order returned by `traverse` holds no node twice, `y` stands
strictly before `x` in it, and the constructors are called in exactly that
order, so that of `y` is called before that of `x`. -/
theorem requirement_precedes_in_order (dg : DependencyGraph) (o1 o2 : List Ident) (fuel : Nat)
    (r : BuildResult) (ho1 : KeyOrder dg.deps o1) (ho2 : o2.Perm o1)
    (hb : Build fuel o1 o2 dg = some r) (herr : r.err = none)
    (x y : Ident) (hx : x ∈ o1) (hreq : Requires dg x y) :
    ∃ deps1 start deps2 order, buildGraph dg.deps dg.static o1 = (deps1, .ok start) ∧
      traverse fuel deps1 o2 start = some (deps2, .ok order) ∧
      r.calls.map Prod.fst = order ∧ order.Nodup ∧
      ∃ l1 l2 l3, order = l1 ++ y :: (l2 ++ x :: l3) := by
  rcases Build_cases fuel o1 o2 dg r hb with ⟨deps1, e, -, hr⟩ |
    ⟨deps1, start, deps2, L, hbg, htl, ⟨-, hr⟩ | ⟨hed, htr, hr⟩⟩
  · rw [hr] at herr; simp at herr
  · rw [hr] at herr; simp at herr
  · obtain ⟨hnd, hall, hreg, -, -, hord⟩ :=
      order_general dg o1 o2 fuel ho1 ho2 deps1 deps2 start L hbg htl hed
    obtain ⟨P, R, new, h1, h2, h3, -, -, -, -, -, h9⟩ :=
      build_shape dg.static L deps2 [] hnd hreg
    have hR : R = [] := by
      rcases h9 with h9 | ⟨h9, -⟩
      · exact h9.2
      · rw [hr] at herr; simp only at herr; rw [h9] at herr; simp at herr
    refine ⟨deps1, start, deps2, L, hbg, htr, ?_, hnd, ?_⟩
    · rw [hr]
      simp only [h2, List.nil_append, h3, hR, List.take_nil, List.append_nil]
      simp [h1, hR]
    · have hy : y ∈ prereqs dg x := by
        unfold prereqs
        rw [mem_nonStatic]
        exact ⟨hreq.1, hreq.2.1⟩
      exact split_of_indexOf_lt x y L (hall x hx) (hord x hx y hy).2

theorem requirement_precedes_in_order_witness :
    ∃ r, (¬ Fresh reRegisteredMore.deps ∧ KeyOrder reRegisteredMore.deps [2, 0, 1] ∧
        [1, 0, 2].Perm [2, 0, 1] ∧
        Build 5 [2, 0, 1] [1, 0, 2] reRegisteredMore = some r ∧ r.err = none ∧
        2 ∈ [2, 0, 1] ∧ Requires reRegisteredMore 2 1) ∧
      ∃ deps1 start deps2 order,
        buildGraph reRegisteredMore.deps reRegisteredMore.static [2, 0, 1]
          = (deps1, .ok start) ∧
        traverse 5 deps1 [1, 0, 2] start = some (deps2, .ok order) ∧
        r.calls.map Prod.fst = order ∧ order.Nodup ∧
        ∃ l1 l2 l3, order = l1 ++ 1 :: (l2 ++ 2 :: l3) :=
  ⟨(Build 5 [2, 0, 1] [1, 0, 2] reRegisteredMore).get (by decide),
    ⟨reRegisteredMore_not_fresh, keyOrder_reRegisteredMore, by decide,
      Option.eq_some_of_isSome _, by decide, by decide, by unfold Requires; decide⟩,
    requirement_precedes_in_order reRegisteredMore [2, 0, 1] [1, 0, 2] 5 _
      keyOrder_reRegisteredMore (by decide)
      (Option.eq_some_of_isSome _) (by decide) 2 1 (by decide) (by unfold Requires; decide)⟩

/-- C9: when `Build` fails with `ErrUnexpectedConstructorContext`, in any state
of the node map (freshly registered or not, replaced nodes that are still
pointed at included), the construction order splits as `P ++ f :: R` at the
failing node `f`: exactly the constructors of `P` and then that of `f` were
called; every node of `P` holds the value its constructor returned; the value
of every other node, `f` and the nodes of `R` among them, is unchanged; and
the last call, that of `f`, returned a number of values other than one. -/
theorem partial_build_on_bad_arity (dg : DependencyGraph) (o1 o2 : List Ident) (fuel : Nat)
    (r : BuildResult) (ho1 : KeyOrder dg.deps o1)
    (hb : Build fuel o1 o2 dg = some r)
    (herr : r.err = some BuildError.ErrUnexpectedConstructorContext) :
    ∃ deps1 start deps2 order P f R,
      buildGraph dg.deps dg.static o1 = (deps1, .ok start) ∧
      traverse fuel deps1 o2 start = some (deps2, .ok order) ∧
      order = P ++ f :: R ∧ order.Nodup ∧
      r.calls.map Prod.fst = P ++ [f] ∧
      (∀ x ∈ P, ∃ c args v, constructorOf dg.deps x = some c ∧ (x, args) ∈ r.calls ∧
        c.call args = [v] ∧ interfaceOf r.graph.deps x = Value.valid v) ∧
      (∀ y, y ∉ P → interfaceOf r.graph.deps y = interfaceOf dg.deps y) ∧
      (∃ c args, constructorOf dg.deps f = some c ∧ r.calls.getLast? = some (f, args) ∧
        (c.call args).length ≠ 1) := by
  rcases Build_cases fuel o1 o2 dg r hb with ⟨deps1, e, hbg, hr⟩ |
    ⟨deps1, start, deps2, L, hbg, htl, ⟨-, hr⟩ | ⟨-, htr, hr⟩⟩
  · exfalso
    have h2 : (buildGraphLoop dg.static o1 dg.deps []).2
        = .error BuildError.ErrUnexpectedConstructorContext := by
      rw [hr] at herr
      simp only [Option.some.injEq] at herr
      unfold buildGraph at hbg
      rw [hbg, herr]
    have := buildGraphLoop_error_eq dg.static o1 dg.deps [] _ h2
    simp at this
  · rw [hr] at herr; simp at herr
  · have hinv := sorted_general dg o1 fuel ho1.1 ho1.2.1 deps1 deps2 start L hbg htl
    obtain ⟨-, hc1, hi1, -, -, -⟩ :=
      buildGraph_ok_general dg o1 deps1 start ho1.1 ho1.2.1 hbg
    have hnd : L.Nodup := by simpa using hinv.nodup
    have hreg : ∀ k ∈ L, (deps2 k).isSome := by
      intro k hk
      rw [isSome_of_constructorOf hinv.ctor]
      exact hinv.alloc k (by simpa using hk)
    have hctor : ∀ i, constructorOf deps2 i = constructorOf dg.deps i :=
      fun i => (hinv.ctor i).trans (hc1 i)
    have hiface : ∀ i, interfaceOf deps2 i = interfaceOf dg.deps i :=
      fun i => (hinv.iface i).trans (hi1 i)
    obtain ⟨P, R, new, h1, h2, h3, h4, h5, -, -, -, h9⟩ :=
      build_shape dg.static L deps2 [] hnd hreg
    subst hr
    rcases h9 with ⟨h9, -⟩ | ⟨-, f, c, args, b1, b2, b3, b4⟩
    · simp only at herr; rw [h9] at herr; simp at herr
    · obtain ⟨R2, hR⟩ : ∃ R2, R = f :: R2 := by
        cases R with
        | nil => simp at b1
        | cons a R2 => exact ⟨R2, by simp at b1; rw [b1]⟩
      subst hR
      refine ⟨deps1, start, deps2, L, P, f, R2, hbg, htr, h1, hnd, ?_, ?_, ?_, ?_⟩
      · simp only [h2, List.nil_append, h3]
        simp
      · intro x hx
        obtain ⟨c2, args2, v, a1, a2, a3, a4⟩ := h4 x hx
        rw [hctor] at a1
        exact ⟨c2, args2, v, a1, by simpa [h2] using a2, a3, a4⟩
      · intro y hy
        simp only
        rw [h5 y hy, hiface]
      · rw [hctor] at b2
        exact ⟨c, args, b2, by simpa [h2] using b3, b4⟩

theorem partial_build_on_bad_arity_witness :
    ∃ r, (¬ Fresh reRegisteredNullary.deps ∧ KeyOrder reRegisteredNullary.deps [2, 0, 1] ∧
        Build 5 [2, 0, 1] [0, 1, 2] reRegisteredNullary = some r ∧
        r.err = some BuildError.ErrUnexpectedConstructorContext) ∧
      ∃ deps1 start deps2 order P f R,
        buildGraph reRegisteredNullary.deps reRegisteredNullary.static [2, 0, 1]
          = (deps1, .ok start) ∧
        traverse 5 deps1 [0, 1, 2] start = some (deps2, .ok order) ∧
        order = P ++ f :: R ∧ order.Nodup ∧
        r.calls.map Prod.fst = P ++ [f] ∧
        (∀ x ∈ P, ∃ c args v, constructorOf reRegisteredNullary.deps x = some c ∧
          (x, args) ∈ r.calls ∧ c.call args = [v] ∧
          interfaceOf r.graph.deps x = Value.valid v) ∧
        (∀ y, y ∉ P → interfaceOf r.graph.deps y = interfaceOf reRegisteredNullary.deps y) ∧
        (∃ c args, constructorOf reRegisteredNullary.deps f = some c ∧
          r.calls.getLast? = some (f, args) ∧ (c.call args).length ≠ 1) :=
  ⟨(Build 5 [2, 0, 1] [0, 1, 2] reRegisteredNullary).get (by decide),
    ⟨reRegisteredNullary_not_fresh, keyOrder_reRegisteredNullary,
      Option.eq_some_of_isSome _, by decide⟩,
    partial_build_on_bad_arity reRegisteredNullary [2, 0, 1] [0, 1, 2] 5 _
      keyOrder_reRegisteredNullary (Option.eq_some_of_isSome _) (by decide)⟩

/-- Every call that `build` makes has one argument per parameter of the
constructor called. -/
theorem build_calls_length (dg : DependencyGraph) :
    ∀ (L : List Ident) (deps : DepMap) (calls : List Call),
      (∀ i, constructorOf deps i = constructorOf dg.deps i) →
      (∀ e ∈ calls, e.2.length = (insOf dg.deps e.1).length) →
      ∀ e ∈ (build dg.static L deps calls).2.1, e.2.length = (insOf dg.deps e.1).length := by
  intro L
  induction L with
  | nil => intro deps calls _ h; simpa [build] using h
  | cons k L ih =>
    intro deps calls hctor h
    cases hd : deps k with
    | none => simpa [build, hd] using ih deps calls hctor h
    | some d =>
      have hins : d.Constructor.ins = insOf dg.deps k := by
        rw [← insOf_of_constructorOf hctor, insOf_eq_of_some hd]
      have h1 : ∀ e ∈ calls ++ [(k, buildArgs deps dg.static d.Constructor.ins)],
          e.2.length = (insOf dg.deps e.1).length := by
        intro e he
        rcases List.mem_append.1 he with he | he
        · exact h e he
        · have : e = (k, buildArgs deps dg.static d.Constructor.ins) := by simpa using he
          rw [this]
          simp only
          rw [buildArgs_length, hins]
      simp only [build, hd]
      split
      · apply ih _ _ _ h1
        intro i; rw [constructorOf_setInterface]; exact hctor i
      · exact h1

theorem iterOrder_threeNodes : IterOrder threeNodes.deps [0, 1, 5] :=
  iterOrder_perm (iterOrder_AddDep _ _ (iterOrder_AddDep _ _ (iterOrder_AddDep _ _
    iterOrder_New (by decide)) (by decide)) (by decide)) (by decide)

theorem iterOrder_failedAgain : IterOrder failedAgain.deps [0, 1, 5] :=
  iterOrder_graphAfterBuild _ _ _ _ _ (iterOrder_AddDep_bound 0 _
    (iterOrder_graphAfterBuild _ _ _ _ _ iterOrder_threeNodes) (by decide))

theorem insOf_failedAgain (k : Ident) :
    insOf failedAgain.deps k = if k = 0 then [1, 9, 5] else if k = 5 then [0] else [] := by
  unfold failedAgain
  rw [insOf_of_constructorOf (graphAfterBuild_ctor _ _ _ _)]
  by_cases h0 : k = 0
  · subst h0; rfl
  · have e : insOf changed.deps k = insOf builtOnce.deps k := by
      simp [insOf, changed, AddDep, h0]
    rw [e]
    unfold builtOnce
    rw [insOf_of_constructorOf (graphAfterBuild_ctor _ _ _ _)]
    by_cases h5 : k = 5
    · subst h5; rfl
    · by_cases h1 : k = 1
      · subst h1; rfl
      · simp [insOf, threeNodes, AddDep, New, h0, h5, h1]

theorem keyOrder_changedBack : KeyOrder changedBack.deps [1, 0, 5] :=
  keyOrder_perm (keyOrder_AddDepOver 0 _ 100 iterOrder_failedAgain (by decide) (by decide)
    (by simp [unary]) (by
      intro k
      rw [insOf_failedAgain]
      split
      · decide
      · split <;> decide)) (by decide)

/-- The counterexample to C6 as stated.  In Go: `AddDep(T0, func() T0)`,
`AddDep(T1, func() T1)`, `AddDep(T5, func(T0) T5)` and a `Build()` that
succeeds; then `AddDep(T0, f)` with `f : func(T1, T9, T5) T0` and a `Build()`
that visits `T0` first, records the edge from the node of `T1` to the node of
`f` and stops at the missing `T9`; then `AddDep(T0, func() T0)` and
`AddStatic` of a `T9`.  The next `Build()`, visiting the keys in the order
`T1, T0, T5`, returns no error.  It calls the replaced constructor `f` (the
node kept under the name 100) third, before that of `T5`, and passes it in the
non-static position of `T5` the value 15 that the node of `T5` recorded in
the first `Build`; the node of `T5` is called only afterwards and records
35. -/
theorem replaced_constructor_gets_old_value :
    KeyOrder changedBack.deps [1, 0, 5] ∧
    ∃ r, Build 5 [1, 0, 5] [0, 1, 5] changedBack = some r ∧ r.err = none ∧
      r.calls = [(1, []), (0, []),
        (100, [Value.valid 11, Value.valid 7, Value.valid 15]), (5, [Value.valid 30])] ∧
      interfaceOf r.graph.deps 5 = Value.valid 35 ∧
      ¬ ∀ (j : Nat) (h : j < r.calls.length),
        ((r.calls.get ⟨j, h⟩).2.length
          = (insOf changedBack.deps (r.calls.get ⟨j, h⟩).1).length) ∧
        ∀ (i : Nat) (a : Ident),
          (insOf changedBack.deps (r.calls.get ⟨j, h⟩).1)[i]? = some a →
          changedBack.static a = none →
          ∃ c args v, constructorOf changedBack.deps a = some c ∧
            (a, args) ∈ r.calls.take j ∧ c.call args = [v] ∧
            (r.calls.get ⟨j, h⟩).2[i]? = some (Value.valid v) := by
  have key : ∀ calls : List Call, calls = [(1, []), (0, []),
        (100, [Value.valid 11, Value.valid 7, Value.valid 15]), (5, [Value.valid 30])] →
      ¬ ∀ (j : Nat) (h : j < calls.length),
        ((calls.get ⟨j, h⟩).2.length
          = (insOf changedBack.deps (calls.get ⟨j, h⟩).1).length) ∧
        ∀ (i : Nat) (a : Ident),
          (insOf changedBack.deps (calls.get ⟨j, h⟩).1)[i]? = some a →
          changedBack.static a = none →
          ∃ c args v, constructorOf changedBack.deps a = some c ∧
            (a, args) ∈ calls.take j ∧ c.call args = [v] ∧
            (calls.get ⟨j, h⟩).2[i]? = some (Value.valid v) := by
    intro calls hc hall
    subst hc
    obtain ⟨c, args, v, -, hmem, -, -⟩ := (hall 2 (by decide)).2 2 5 (by decide) (by decide)
    simp at hmem
  exact ⟨keyOrder_changedBack, (Build 5 [1, 0, 5] [0, 1, 5] changedBack).get (by decide),
    Option.eq_some_of_isSome _, by decide, by decide, by decide, key _ (by decide)⟩

/-- C6, amended: in every `Build` that returns no error, in any state of the
node map (freshly registered or not, replaced nodes that are still pointed at
included), every constructor call gets one argument per parameter, in
declaration order; and for every constructor called that is registered in the
node map (a bound key, not a node that `AddDep` has replaced), the argument
in a non-static position is the valid value that the constructor of the node
registered for that identity returned, and that was recorded, in an earlier
call of the same `Build`; it is never the zero Value. -/
theorem arguments_come_from_earlier_calls (dg : DependencyGraph) (o1 o2 : List Ident)
    (fuel : Nat) (r : BuildResult) (ho1 : KeyOrder dg.deps o1) (ho2 : o2.Perm o1)
    (hb : Build fuel o1 o2 dg = some r) (herr : r.err = none) :
    ∀ (j : Nat) (h : j < r.calls.length),
      ((r.calls.get ⟨j, h⟩).2.length = (insOf dg.deps (r.calls.get ⟨j, h⟩).1).length) ∧
      ((r.calls.get ⟨j, h⟩).1 ∈ o1 →
        ∀ (i : Nat) (a : Ident), (insOf dg.deps (r.calls.get ⟨j, h⟩).1)[i]? = some a →
          dg.static a = none →
          ∃ c args v, constructorOf dg.deps a = some c ∧ (a, args) ∈ r.calls.take j ∧
            c.call args = [v] ∧ (r.calls.get ⟨j, h⟩).2[i]? = some (Value.valid v)) := by
  rcases Build_cases fuel o1 o2 dg r hb with ⟨deps1, e, -, hr⟩ |
    ⟨deps1, start, deps2, L, hbg, htl, ⟨-, hr⟩ | ⟨hed, -, hr⟩⟩
  · rw [hr] at herr; simp at herr
  · rw [hr] at herr; simp at herr
  · obtain ⟨hnd, hall, hreg, hctor, -, hord⟩ :=
      order_general dg o1 o2 fuel ho1 ho2 deps1 deps2 start L hbg htl hed
    have hlen := build_calls_length dg L deps2 [] hctor (by intro e he; simp at he)
    have htrace := build_trace_bound dg o1 L deps2 [] hctor hreg
      (by
        intro l1 k l2 hsplit hk a ha
        have hlt := (hord k hk a ha).2
        have hkl1 : k ∉ l1 := by
          rw [hsplit] at hnd
          have := List.nodup_append.1 hnd
          exact fun h => this.2.2 h (List.mem_cons_self _ _)
        simp only [List.map_nil, List.nil_append]
        by_contra hal1
        rw [hsplit, List.indexOf_append_of_not_mem hkl1, List.indexOf_cons_self,
          List.indexOf_append_of_not_mem hal1] at hlt
        omega)
      (by intro y hy; simp at hy) (by intro j hj; simp at hj)
    subst hr
    intro j h
    refine ⟨hlen _ (List.get_mem _ _ _), fun hj i a hia hs => ?_⟩
    exact ((htrace j h hj).2 i a hia).2 hs

theorem arguments_come_from_earlier_calls_witness :
    ∃ r, (¬ Fresh reRegisteredMore.deps ∧ KeyOrder reRegisteredMore.deps [2, 0, 1] ∧
        [1, 0, 2].Perm [2, 0, 1] ∧
        Build 5 [2, 0, 1] [1, 0, 2] reRegisteredMore = some r ∧ r.err = none) ∧
      ∀ (j : Nat) (h : j < r.calls.length),
        ((r.calls.get ⟨j, h⟩).2.length
          = (insOf reRegisteredMore.deps (r.calls.get ⟨j, h⟩).1).length) ∧
        ((r.calls.get ⟨j, h⟩).1 ∈ [2, 0, 1] →
          ∀ (i : Nat) (a : Ident),
            (insOf reRegisteredMore.deps (r.calls.get ⟨j, h⟩).1)[i]? = some a →
            reRegisteredMore.static a = none →
            ∃ c args v, constructorOf reRegisteredMore.deps a = some c ∧
              (a, args) ∈ r.calls.take j ∧ c.call args = [v] ∧
              (r.calls.get ⟨j, h⟩).2[i]? = some (Value.valid v)) :=
  ⟨(Build 5 [2, 0, 1] [1, 0, 2] reRegisteredMore).get (by decide),
    ⟨reRegisteredMore_not_fresh, keyOrder_reRegisteredMore, by decide,
      Option.eq_some_of_isSome _, by decide⟩,
    arguments_come_from_earlier_calls reRegisteredMore [2, 0, 1] [1, 0, 2] 5 _
      keyOrder_reRegisteredMore (by decide) (Option.eq_some_of_isSome _) (by decide)⟩

/-- The counterexample to C16 as stated.  In Go: `AddDep(T0, f)` with
`f : func(T1) T0`, `AddDep(T1, g)` with `g : func(T5) T1`, and a `Build()`
that visits `T0` first, records the edge from the node of `T1` to the node of
`f` and stops at the missing `T5`; then `AddDep(T0, h)` with `h : func() T0`
and `AddStatic` of a `T5`.  In the next `Build()` the node map has two keys,
`buildGraph` returns both nodes as start nodes, and the loop of `traverse`
runs three iterations and outputs three nodes: the two registered ones and
the replaced node of `f` (kept under the name 100), which node 1 still holds
in `neededBy`.  `Build` returns no error and calls three constructors. -/
theorem replaced_node_is_output :
    KeyOrder reRegistered.deps [0, 1] ∧
    (buildGraph reRegistered.deps reRegistered.static [0, 1]).2 = .ok [0, 1] ∧
    (traverseLoop 4 (buildGraph reRegistered.deps reRegistered.static [0, 1]).1 [0, 1] []).map
      Prod.snd = some [0, 1, 100] ∧
    (traverseLoop 3 (buildGraph reRegistered.deps reRegistered.static [0, 1]).1 [0, 1] []).map
      Prod.snd = none ∧
    ¬ ([0, 1, 100].length ≤ [0, 1].length) ∧
    (Build 4 [0, 1] [1, 0] reRegistered).map (fun r => (r.err, r.calls.map Prod.fst))
      = some (none, [0, 1, 100]) :=
  ⟨keyOrder_reRegistered, rfl, by decide, by decide, by decide, by decide⟩

/-- C16, amended: on the graph that `buildGraph` produces, from any state of
the node map and cyclic or not, the loop of `traverse` terminates: it runs
exactly as many iterations as it outputs nodes (any fuel above that number
makes it return, no smaller fuel does), it outputs no node twice, and it
outputs no more nodes than there are, `H` listing the registered nodes and the
replaced nodes together; when there is no replaced node, that is no more than
the node map has keys.  So `traverse` returns. -/
theorem traverse_terminates (dg : DependencyGraph) (o1 o2 H : List Ident) (deps1 : DepMap)
    (start : List Ident) (ho1 : KeyOrder dg.deps o1) (hH : IterOrder dg.deps H)
    (hbg : buildGraph dg.deps dg.static o1 = (deps1, .ok start)) :
    ∃ deps2 L,
      (∀ fuel, L.length < fuel → traverseLoop fuel deps1 start [] = some (deps2, L)) ∧
      (∀ fuel, fuel ≤ L.length → traverseLoop fuel deps1 start [] = none) ∧
      L.Nodup ∧ L.length ≤ H.length ∧ (IterOrder dg.deps o1 → L.length ≤ o1.length) ∧
      (∀ fuel, L.length < fuel → ∃ res, traverse fuel deps1 o2 start = some (deps2, res)) := by
  obtain ⟨deps2, L, h2, hinv⟩ := sorts_general dg o1 H (H.length + 1) ho1.1 ho1.2.1
    (fun k hk => (hH.2 k).2 hk) deps1 start hbg (by omega)
  obtain ⟨-, hc, -, -, -, -⟩ := buildGraph_ok_general dg o1 deps1 start ho1.1 ho1.2.1 hbg
  obtain ⟨-, -, hex⟩ := traverseLoop_fuel_exact _ _ _ _ _ _ h2
  simp only [List.length_nil, Nat.sub_zero] at hex
  have hlen : ∀ H2 : List Ident, (∀ k, (dg.deps k).isSome → k ∈ H2) → L.length ≤ H2.length := by
    intro H2 hH2
    have := sortInv_length_le deps1 deps2 o1 [] L H2
      (fun k hk => hH2 k (by rwa [isSome_of_constructorOf hc] at hk)) hinv
    simpa using this
  refine ⟨deps2, L, hex, ?_, by simpa using hinv.nodup, hlen H (fun k hk => (hH.2 k).2 hk),
    fun ho => hlen o1 (fun k hk => (ho.2 k).2 hk), ?_⟩
  · intro fuel hfuel
    cases hres : traverseLoop fuel deps1 start [] with
    | none => rfl
    | some p =>
      exfalso
      obtain ⟨d3, L3⟩ := p
      obtain ⟨-, hlt, -⟩ := traverseLoop_fuel_exact _ _ _ _ _ _ hres
      have := traverseLoop_mono _ _ _ _ _ hres (L.length + 1) (by omega)
      rw [hex (L.length + 1) (by omega)] at this
      simp only [Option.some.injEq, Prod.mk.injEq] at this
      obtain ⟨-, rfl⟩ := this
      simp only [List.length_nil, Nat.sub_zero] at hlt
      omega
  · intro fuel hfuel
    unfold traverse
    rw [hex fuel hfuel]
    simp only
    split
    · exact ⟨_, rfl⟩
    · exact ⟨_, rfl⟩

theorem traverse_terminates_witness :
    ∃ deps1,
      (KeyOrder reRegistered.deps [0, 1] ∧ IterOrder reRegistered.deps [100, 0, 1] ∧
        buildGraph reRegistered.deps reRegistered.static [0, 1] = (deps1, .ok [0, 1])) ∧
      ∃ deps2 L,
        (∀ fuel, L.length < fuel → traverseLoop fuel deps1 [0, 1] [] = some (deps2, L)) ∧
        (∀ fuel, fuel ≤ L.length → traverseLoop fuel deps1 [0, 1] [] = none) ∧
        L.Nodup ∧ L.length ≤ [100, 0, 1].length ∧
        (IterOrder reRegistered.deps [0, 1] → L.length ≤ [0, 1].length) ∧
        (∀ fuel, L.length < fuel →
          ∃ res, traverse fuel deps1 [1, 0] [0, 1] = some (deps2, res)) :=
  ⟨(buildGraph reRegistered.deps reRegistered.static [0, 1]).1,
    ⟨keyOrder_reRegistered, iterOrder_reRegistered, rfl⟩,
    traverse_terminates reRegistered [0, 1] [1, 0] [100, 0, 1] _ [0, 1]
      keyOrder_reRegistered iterOrder_reRegistered rfl⟩

/-! ## The state left by a failed `buildGraph` -/

/-- The inner loop, when it stops at line 69: the parameter types split at the
first one, `a`, that is neither static nor registered, and one edge has been
recorded per non-static position before it. -/
theorem buildGraphParams_missing (s : StaticMap) (k : Ident) :
    ∀ (ps : List Ident) (deps : DepMap), (deps k).isSome →
      (buildGraphParams s k ps deps).2 = false →
      ∃ pre a post, ps = pre ++ a :: post ∧
        (∀ b ∈ pre, (s b).isSome ∨ (deps b).isSome) ∧ s a = none ∧ deps a = none ∧
        (∀ i, needsOf (buildGraphParams s k ps deps).1 i
          = needsOf deps i + if i = k then ((nonStatic s pre).length : Int) else 0) ∧
        (∀ i, neededByOf (buildGraphParams s k ps deps).1 i
          = neededByOf deps i ++ List.replicate ((nonStatic s pre).count i) k) := by
  intro ps
  induction ps with
  | nil => intro deps _ h; simp [buildGraphParams] at h
  | cons a rest ih =>
    intro deps hk hfalse
    by_cases hs : (s a).isSome
    · have e : buildGraphParams s k (a :: rest) deps = buildGraphParams s k rest deps := by
        simp [buildGraphParams, hs]
      rw [e] at hfalse ⊢
      obtain ⟨pre, m, post, hsplit, hpre, hm1, hm2, hn, hb⟩ := ih deps hk hfalse
      refine ⟨a :: pre, m, post, by rw [hsplit]; rfl, ?_, hm1, hm2, ?_, ?_⟩
      · intro b hb2
        rcases List.mem_cons.1 hb2 with rfl | hb2
        · exact Or.inl hs
        · exact hpre b hb2
      · rw [nonStatic_cons_static s a pre hs]; exact hn
      · rw [nonStatic_cons_static s a pre hs]; exact hb
    · by_cases ha : (deps a).isSome
      · have hk1 : (setNode (setNode deps a (pushNeededBy k)) k incNeeds k).isSome := by
          rw [isSome_setNode, isSome_setNode]; exact hk
        have e : buildGraphParams s k (a :: rest) deps
            = buildGraphParams s k rest
                (setNode (setNode deps a (pushNeededBy k)) k incNeeds) := by
          simp [buildGraphParams, hs, ha]
        rw [e] at hfalse ⊢
        obtain ⟨pre, m, post, hsplit, hpre, hm1, hm2, hn, hb⟩ := ih _ hk1 hfalse
        refine ⟨a :: pre, m, post, by rw [hsplit]; rfl, ?_, hm1, ?_, ?_, ?_⟩
        · intro b hb2
          rcases List.mem_cons.1 hb2 with rfl | hb2
          · exact Or.inr ha
          · simpa only [isSome_setNode] using hpre b hb2
        · have h1 : ((setNode (setNode deps a (pushNeededBy k)) k incNeeds) m).isSome
              = false := by rw [hm2]; rfl
          rw [isSome_setNode, isSome_setNode] at h1
          cases hdm : deps m with
          | none => rfl
          | some v => rw [hdm] at h1; simp at h1
        · intro i
          rw [hn, needsOf_inc _ _ _ (by rw [isSome_setNode]; exact hk), needsOf_push,
            nonStatic_cons_nonstatic s a pre hs]
          by_cases h : i = k <;> simp [h]
          ring
        · intro i
          rw [hb, neededByOf_inc, neededByOf_push _ _ _ _ ha,
            nonStatic_cons_nonstatic s a pre hs, List.count_cons]
          by_cases h : i = a
          · subst h
            simp [List.replicate_succ, List.append_assoc]
          · have h' : ¬ a = i := fun e => h e.symm
            simp [h, h']
      · have e : buildGraphParams s k (a :: rest) deps = (deps, false) := by
          simp [buildGraphParams, hs, ha]
        rw [e]
        refine ⟨[], a, rest, rfl, by simp, ?_, ?_, by simp [nonStatic], by simp [nonStatic]⟩
        · cases hsa : s a with
          | none => rfl
          | some v => simp [hsa] at hs
        · cases hda : deps a with
          | none => rfl
          | some v => simp [hda] at ha

/-- The state in which the outer loop of `buildGraph` stops on an error.  The
keys split at the failing node `f`, the first one with a parameter type that
is neither static nor registered, and the parameter types of `f` split at the
first such type `a`: the nodes `done` visited before `f` have all their edges
recorded, `f` has those of the parameter types `pre` before `a`, and nothing
else has been written. -/
theorem buildGraphLoop_missing (s : StaticMap) :
    ∀ (ks : List Ident) (deps : DepMap) (start : List Ident) (e : BuildError),
      ks.Nodup → (∀ k ∈ ks, (deps k).isSome) →
      (buildGraphLoop s ks deps start).2 = .error e →
      ∃ done f rest pre a post, ks = done ++ f :: rest ∧ insOf deps f = pre ++ a :: post ∧
        (∀ k ∈ done, ∀ b ∈ insOf deps k, (s b).isSome ∨ (deps b).isSome) ∧
        (∀ b ∈ pre, (s b).isSome ∨ (deps b).isSome) ∧ s a = none ∧ deps a = none ∧
        (∀ i, needsOf (buildGraphLoop s ks deps start).1 i
          = needsOf deps i + if i ∈ done then ((nonStatic s (insOf deps i)).length : Int)
              else if i = f then ((nonStatic s pre).length : Int) else 0) ∧
        (∀ i x, (neededByOf (buildGraphLoop s ks deps start).1 i).count x
          = (neededByOf deps i).count x + if x ∈ done then (nonStatic s (insOf deps x)).count i
              else if x = f then (nonStatic s pre).count i else 0) := by
  intro ks
  induction ks with
  | nil => intro deps start e _ _ h; simp [buildGraphLoop] at h
  | cons k ks ih =>
    intro deps start e hnd hreg herr
    have hk := hreg k (List.mem_cons_self _ _)
    obtain ⟨d, hd⟩ := Option.isSome_iff_exists.1 hk
    have hins := insOf_eq_of_some hd
    have hnd' := List.nodup_cons.1 hnd
    rcases hp : buildGraphParams s k d.Constructor.ins deps with ⟨deps1, b⟩
    cases b with
    | false =>
      obtain ⟨pre, a, post, hsplit, hpre, ha1, ha2, hn, hb⟩ :=
        buildGraphParams_missing s k d.Constructor.ins deps hk (by rw [hp])
      rw [hp] at hn hb
      have e1 : buildGraphLoop s (k :: ks) deps start
          = (deps1, .error BuildError.ErrIncompleteDependencyGraph) := by
        simp [buildGraphLoop, hd, hp]
      rw [e1]
      refine ⟨[], k, ks, pre, a, post, rfl, by rw [hins]; exact hsplit, by simp, hpre,
        ha1, ha2, ?_, ?_⟩
      · intro i; rw [hn]; simp
      · intro i x
        rw [hb, List.count_append, List.count_replicate]
        by_cases hxk : x = k
        · subst hxk; simp
        · have : ¬ k = x := fun e => hxk e.symm
          simp [hxk, this]
    | true =>
      obtain ⟨pre, -, hok, hiff, hc, -, hn, hb⟩ :=
        buildGraphParams_spec s k d.Constructor.ins deps hk
      rw [hp] at hc hn hb hok hiff
      have hpre2 : pre = d.Constructor.ins := hok rfl
      subst hpre2
      have hcompl := hiff.1 rfl
      rw [← hins] at hn hb hcompl
      have hk1 : (deps1 k).isSome := by rw [isSome_of_constructorOf hc]; exact hk
      obtain ⟨d1, hd1⟩ := Option.isSome_iff_exists.1 hk1
      have hreg1 : ∀ j ∈ ks, (deps1 j).isSome := by
        intro j hj; rw [isSome_of_constructorOf hc]; exact hreg j (List.mem_cons_of_mem _ hj)
      have finish : ∀ st : List Ident,
          buildGraphLoop s (k :: ks) deps start = buildGraphLoop s ks deps1 st →
          ∃ done f rest pre a post, k :: ks = done ++ f :: rest ∧
            insOf deps f = pre ++ a :: post ∧
            (∀ k ∈ done, ∀ b ∈ insOf deps k, (s b).isSome ∨ (deps b).isSome) ∧
            (∀ b ∈ pre, (s b).isSome ∨ (deps b).isSome) ∧ s a = none ∧ deps a = none ∧
            (∀ i, needsOf (buildGraphLoop s (k :: ks) deps start).1 i
              = needsOf deps i + if i ∈ done then ((nonStatic s (insOf deps i)).length : Int)
                  else if i = f then ((nonStatic s pre).length : Int) else 0) ∧
            (∀ i x, (neededByOf (buildGraphLoop s (k :: ks) deps start).1 i).count x
              = (neededByOf deps i).count x
                + if x ∈ done then (nonStatic s (insOf deps x)).count i
                  else if x = f then (nonStatic s pre).count i else 0) := by
        intro st hst
        rw [hst] at herr ⊢
        obtain ⟨done, f, rest, pre2, a, post, h1, h2, h5, h6, h7, h8, h3, h4⟩ :=
          ih deps1 st e hnd'.2 hreg1 herr
        have hkd : k ∉ done := fun h => hnd'.1 (by rw [h1]; exact List.mem_append_left _ h)
        have hkf : k ≠ f := fun h => hnd'.1 (by rw [h1, h]; simp)
        have hsome : ∀ b, (deps1 b).isSome = (deps b).isSome := isSome_of_constructorOf hc
        refine ⟨k :: done, f, rest, pre2, a, post, by rw [h1]; rfl, ?_, ?_, ?_, h7, ?_, ?_, ?_⟩
        · rw [insOf_of_constructorOf hc] at h2; exact h2
        · intro j hj b hb2
          rcases List.mem_cons.1 hj with rfl | hj
          · exact hcompl b hb2
          · have := h5 j hj b (by rw [insOf_of_constructorOf hc]; exact hb2)
            rwa [hsome] at this
        · intro b hb2
          have := h6 b hb2
          rwa [hsome] at this
        · have := hsome a
          rw [h8] at this
          cases hda : deps a with
          | none => rfl
          | some v => rw [hda] at this; simp at this
        · intro i
          rw [h3, hn, insOf_of_constructorOf hc]
          by_cases hik : i = k
          · subst hik; simp [hkd, hkf]
          · simp [hik]
        · intro i x
          rw [h4, hb, insOf_of_constructorOf hc, List.count_append, List.count_replicate]
          by_cases hxk : x = k
          · subst hxk; simp [hkd, hkf]
          · have : ¬ k = x := fun e => hxk e.symm
            simp [hxk, this]
      by_cases hz : d1.needs = 0
      · exact finish (start ++ [k]) (by simp only [buildGraphLoop, hd, hp, hd1, hz, if_true])
      · exact finish start (by simp only [buildGraphLoop, hd, hp, hd1, hz, if_false])

/-- C10, amended: when graph construction fails with
`ErrIncompleteDependencyGraph`, `Build` returns at once, calling no
constructor and changing no value, and the edges recorded before the failure
are kept.  The iteration order splits as `done ++ f :: rest` at the failing
node `f`, the first node with a parameter type that is neither static nor
registered, and the parameter types of `f` split as `pre ++ a :: post` at the
first such type `a`.  After `Build` has returned the error on a freshly
registered graph, every node of `done` has `needs` equal to the number of its
non-static parameter positions, `f` has `needs` equal to the number of
non-static types in `pre`, every other node has `needs = 0`, and `x` occurs in
the `neededBy` of `i` once per recorded position of `x` that names `i`. -/
theorem partial_edges_kept_on_missing (dg : DependencyGraph) (o1 o2 : List Ident) (fuel : Nat)
    (r : BuildResult) (hfresh : Fresh dg.deps) (ho1 : IterOrder dg.deps o1)
    (hb : Build fuel o1 o2 dg = some r)
    (herr : r.err = some BuildError.ErrIncompleteDependencyGraph) :
    r.calls = [] ∧ (∀ i, interfaceOf r.graph.deps i = interfaceOf dg.deps i) ∧
    ∃ done f rest pre a post, o1 = done ++ f :: rest ∧ insOf dg.deps f = pre ++ a :: post ∧
      (∀ k ∈ done, ∀ b ∈ insOf dg.deps k, (dg.static b).isSome ∨ (dg.deps b).isSome) ∧
      (∀ b ∈ pre, (dg.static b).isSome ∨ (dg.deps b).isSome) ∧
      dg.static a = none ∧ dg.deps a = none ∧
      (∀ i, needsOf r.graph.deps i
        = if i ∈ done then ((prereqs dg i).length : Int)
          else if i = f then ((nonStatic dg.static pre).length : Int) else 0) ∧
      (∀ i x, (neededByOf r.graph.deps i).count x
        = if x ∈ done then (prereqs dg x).count i
          else if x = f then (nonStatic dg.static pre).count i else 0) := by
  rcases Build_cases fuel o1 o2 dg r hb with ⟨deps1, e, hbg, hr⟩ |
    ⟨deps1, start, deps2, L, hbg, htl, ⟨-, hr⟩ | ⟨-, -, hr⟩⟩
  · have hfr := (buildGraphLoop_frame dg.static o1 dg.deps []).2
    have h2 : (buildGraphLoop dg.static o1 dg.deps []).2 = .error e := by
      unfold buildGraph at hbg; rw [hbg]
    obtain ⟨done, f, rest, pre, a, post, h3, h4, h7, h8, h9, h10, h5, h6⟩ :=
      buildGraphLoop_missing dg.static o1 dg.deps [] e ho1.1
        (fun k hk => (ho1.2 k).1 hk) h2
    unfold buildGraph at hbg
    rw [hbg] at hfr h5 h6
    subst hr
    refine ⟨rfl, hfr, done, f, rest, pre, a, post, h3, h4, h7, h8, h9, h10, ?_, ?_⟩
    · intro i
      simp only at h5 ⊢
      rw [h5, (hfresh i).1]
      simp [prereqs]
    · intro i x
      simp only at h6 ⊢
      rw [h6, (hfresh i).2]
      simp [prereqs]
  · rw [hr] at herr; simp at herr
  · subst hr
    rcases build_err dg.static L deps2 [] with h | h
    · simp only at herr; rw [h] at herr; simp at herr
    · simp only at herr; rw [h] at herr; simp at herr

theorem partial_edges_kept_on_missing_witness :
    ∃ r, (Fresh edgeThenMissing.deps ∧ IterOrder edgeThenMissing.deps [0, 1] ∧
        Build 5 [0, 1] [0, 1] edgeThenMissing = some r ∧
        r.err = some BuildError.ErrIncompleteDependencyGraph) ∧
      (r.calls = [] ∧
        (∀ i, interfaceOf r.graph.deps i = interfaceOf edgeThenMissing.deps i) ∧
        ∃ done f rest pre a post, [0, 1] = done ++ f :: rest ∧
          insOf edgeThenMissing.deps f = pre ++ a :: post ∧
          (∀ k ∈ done, ∀ b ∈ insOf edgeThenMissing.deps k,
            (edgeThenMissing.static b).isSome ∨ (edgeThenMissing.deps b).isSome) ∧
          (∀ b ∈ pre, (edgeThenMissing.static b).isSome ∨ (edgeThenMissing.deps b).isSome) ∧
          edgeThenMissing.static a = none ∧ edgeThenMissing.deps a = none ∧
          (∀ i, needsOf r.graph.deps i
            = if i ∈ done then ((prereqs edgeThenMissing i).length : Int)
              else if i = f then ((nonStatic edgeThenMissing.static pre).length : Int)
              else 0) ∧
          (∀ i x, (neededByOf r.graph.deps i).count x
            = if x ∈ done then (prereqs edgeThenMissing x).count i
              else if x = f then (nonStatic edgeThenMissing.static pre).count i else 0)) :=
  ⟨(Build 5 [0, 1] [0, 1] edgeThenMissing).get (by decide),
    ⟨fresh_AddDep _ _ _ (fresh_AddDep _ _ _ fresh_New), iterOrder_edgeThenMissing,
      Option.eq_some_of_isSome _, by decide⟩,
    partial_edges_kept_on_missing edgeThenMissing [0, 1] [0, 1] 5 _
      (fresh_AddDep _ _ _ (fresh_AddDep _ _ _ fresh_New)) iterOrder_edgeThenMissing
      (Option.eq_some_of_isSome _) (by decide)⟩

end DependencyBuilder
